import Mathlib

/-!
Shallow embedding of the tryalgo graph-algorithm core (dijkstra.py,
graph01.py, floyd_warshall.py, ford_fulkerson.py, bipartite_matching.py,
graph.py) together with proofs about the embedded functions.

Conventions used throughout:
* a directed graph is an adjacency list `List (List ℕ)`; the vertex set is
  `{0, …, graph.length - 1}`;
* weight / capacity matrices are modelled as total functions `ℕ → ℕ → ℤ`;
  the algorithms only ever read entries `weight u v` with `v ∈ graph[u]`,
  exactly as the Python code only indexes existing cells;
* Python's `float('inf')` sentinel becomes `⊤` in `WithTop ℤ`;
* Python lists that are mutated in place (`dist`, `prec`, `black`, `visit`,
  `flow`, …) become functions updated pointwise.
-/

namespace TryAlgo

/-- Distances: the integers extended with `⊤`, the role played by
`float('inf')` in the Python source. -/
abbrev Dist := WithTop ℤ

/-- Pointwise update of a table modelled as a function, `t[i] = x`. -/
def updf {α : Type} (f : ℕ → α) (i : ℕ) (x : α) : ℕ → α :=
  fun j => if j = i then x else f j

/-- Update of a matrix modelled as a curried function, `m[i][j] = x`. -/
def updm {α : Type} (f : ℕ → ℕ → α) (i j : ℕ) (x : α) : ℕ → ℕ → α :=
  fun a b => if a = i ∧ b = j then x else f a b

/-! ### The lazy heap of `dijkstra`

Python's `heapq` holds `(distance, vertex)` tuples and `heappop` returns the
least tuple in the lexicographic tuple order.  Only this observable behaviour
matters, so the heap is modelled as the list of its entries and popping
removes a least entry. -/

/-- The lexicographic order on `(distance, vertex)` heap entries, i.e. the
order Python uses to compare tuples. -/
def pairLe (a b : Dist × ℕ) : Prop :=
  a.1 < b.1 ∨ (a.1 = b.1 ∧ a.2 ≤ b.2)

instance pairLe.instDecidable (a b : Dist × ℕ) : Decidable (pairLe a b) := by
  unfold pairLe; infer_instance

/-- The least entry of the heap (`heappop`'s return value), `none` on the
empty heap. -/
def heapMin : List (Dist × ℕ) → Option (Dist × ℕ)
  | [] => none
  | x :: xs => some (xs.foldl (fun a b => if pairLe a b then a else b) x)

/-! ### `dijkstra` (dijkstra.py, lazy-heap variant) -/

/-- Relaxation of one neighbor inside the main loop of `dijkstra`:
the body of `for neighbor in graph[node]`.  The state is
`(dist, prec, heap)`; `dn` is `dist_node`, the distance of the popped
entry. -/
def relaxStep (weight : ℕ → ℕ → ℤ) (node : ℕ) (dn : Dist)
    (st : (ℕ → Dist) × (ℕ → Option ℕ) × List (Dist × ℕ)) (neighbor : ℕ) :
    (ℕ → Dist) × (ℕ → Option ℕ) × List (Dist × ℕ) :=
  let dnb := dn + (weight node neighbor : ℤ)
  if dnb < st.1 neighbor then
    (updf st.1 neighbor dnb, updf st.2.1 neighbor (some node),
      st.2.2 ++ [(dnb, neighbor)])
  else st

/-- The `while heap:` loop of `dijkstra`.  The fuel argument only bounds the
number of iterations; `dijkstra` passes enough fuel for the loop to run to
completion (see `dijkstraPotential_lt` and its uses below). -/
def dijkstraLoop (graph : List (List ℕ)) (weight : ℕ → ℕ → ℤ)
    (target : Option ℕ) :
    ℕ → (ℕ → Dist) → (ℕ → Option ℕ) → (ℕ → Bool) → List (Dist × ℕ) →
    (ℕ → Dist) × (ℕ → Option ℕ)
  | 0, dist, prec, _, _ => (dist, prec)
  | fuel + 1, dist, prec, black, heap =>
    match heapMin heap with
    | none => (dist, prec)
    | some m =>
      let rest := heap.erase m
      if black m.2 then dijkstraLoop graph weight target fuel dist prec black rest
      else
        let black' := updf black m.2 true
        if target = some m.2 then (dist, prec)
        else
          let st := (graph.getD m.2 []).foldl (relaxStep weight m.2 m.1)
            (dist, prec, rest)
          dijkstraLoop graph weight target fuel st.1 st.2.1 black' st.2.2

/-- Fuel that provably dominates the number of loop iterations: one more than
the initial value of the potential `heap.length + Σ_{v<n, v not black} (1 + deg v)`,
which strictly decreases at every iteration. -/
def dijkstraFuel (graph : List (List ℕ)) : ℕ :=
  2 + graph.length + (graph.map List.length).sum

/-- The initial assertion of `dijkstra`:
`all(weight[u][v] >= 0 for u in range(n) for v in graph[u])`. -/
def dijkstraAssert (graph : List (List ℕ)) (weight : ℕ → ℕ → ℤ) : Bool :=
  (List.range graph.length).all fun u =>
    (graph.getD u []).all fun v => decide (0 ≤ weight u v)

/-- `dijkstra(graph, weight, source, target)` from dijkstra.py.  A failure of
the initial `assert` is modelled by the result `none`. -/
def dijkstra (graph : List (List ℕ)) (weight : ℕ → ℕ → ℤ) (source : ℕ)
    (target : Option ℕ) : Option ((ℕ → Dist) × (ℕ → Option ℕ)) :=
  if dijkstraAssert graph weight then
    some (dijkstraLoop graph weight target (dijkstraFuel graph)
      (updf (fun _ => (⊤ : Dist)) source 0) (fun _ => none) (fun _ => false)
      [((0 : Dist), source)])
  else none

/-- The body of the inner loop of `add_reverse_arcs`: for the arc `(u, v)`,
add the reverse arc `(v, u)` with capacity `0` unless it is already present.
The state is the pair (adjacency list, capacity matrix). -/
def arInner (u : ℕ) (st : List (List ℕ) × (ℕ → ℕ → ℤ)) (v : ℕ) :
    List (List ℕ) × (ℕ → ℕ → ℤ) :=
  if u ∈ st.1.getD v [] then st
  else (st.1.set v (st.1.getD v [] ++ [u]), updm st.2 v u 0)

/-- One outer iteration of `add_reverse_arcs`, processing all arcs leaving
`u`.  Folding over the arc list as it stands when the iteration starts is
the live Python iteration, because `graph[u]` itself cannot change while it
is traversed (a self-loop is skipped by the membership test). -/
def arStep (st : List (List ℕ) × (ℕ → ℕ → ℤ)) (u : ℕ) :
    List (List ℕ) × (ℕ → ℕ → ℤ) :=
  (st.1.getD u []).foldl (arInner u) st

/-- `add_reverse_arcs(graph, capac)` from graph.py. -/
def add_reverse_arcs (graph : List (List ℕ)) (capac : ℕ → ℕ → ℤ) :
    List (List ℕ) × (ℕ → ℕ → ℤ) :=
  (List.range graph.length).foldl arStep (graph, capac)

/-! ### `floyd_warshall` (floyd_warshall.py)

The weight matrix is a function `ℕ → ℕ → Dist` together with its dimension
`n`; `⊤` is the "no edge" sentinel.  The triple loop updates the matrix in
place, so each step reads the current (partially updated) matrix, exactly
like the Python code. -/

/-- The innermost assignment
`weight[u][v] = min(weight[u][v], weight[u][k] + weight[k][v])`. -/
def fwUpdate (k u : ℕ) (W : ℕ → ℕ → Dist) (v : ℕ) : ℕ → ℕ → Dist :=
  updm W u v (min (W u v) (W u k + W k v))

/-- The two inner loops (`for u in V: for v in V`) for a fixed `k`. -/
def fwRound (n k : ℕ) (W : ℕ → ℕ → Dist) : ℕ → ℕ → Dist :=
  (List.range n).foldl (fun W' u => (List.range n).foldl (fwUpdate k u) W') W

/-- The full triple loop of `floyd_warshall`. -/
def fwMatrix (n : ℕ) (W : ℕ → ℕ → Dist) : ℕ → ℕ → Dist :=
  (List.range n).foldl (fun W' k => fwRound n k W') W

/-- `floyd_warshall(weight)`: the boolean result (is there a vertex `v` with
`weight[v][v] < 0` after the triple loop) together with the final state of
the in-place updated matrix. -/
def floyd_warshall (n : ℕ) (W : ℕ → ℕ → Dist) : Bool × (ℕ → ℕ → Dist) :=
  ((List.range n).any fun v => decide (fwMatrix n W v v < 0), fwMatrix n W)

/-- Cost of the walk `u → x₁ → … → xₘ → v` (list of intermediate vertices)
measured in a fixed weight matrix. -/
def walkCost (W : ℕ → ℕ → Dist) : ℕ → List ℕ → ℕ → Dist
  | u, [], v => W u v
  | u, x :: mid, v => W u x + walkCost W x mid v

/-- A negative cycle of the matrix: a closed walk through vertices `< n`
visiting no vertex twice, of negative total weight. -/
def NegCycle (n : ℕ) (W : ℕ → ℕ → Dist) : Prop :=
  ∃ v, v < n ∧ ∃ mid, (∀ x ∈ mid, x < n) ∧ (v :: mid).Nodup ∧
    walkCost W v mid v < 0

/-- Every entry of `W'` is the cost of some walk of the base matrix `W0`
through vertices `< n` (or `0` on the diagonal). -/
def Realizes (n : ℕ) (W0 W' : ℕ → ℕ → Dist) : Prop :=
  ∀ a b, (∃ mid, (∀ x ∈ mid, x < n) ∧ W' a b = walkCost W0 a mid b) ∨
    (a = b ∧ W' a b = 0)

/-- The concrete matrix of scenario 4: `0→1 = 1`, `1→0 = -2`, zero
diagonal, `⊤` elsewhere. -/
def fwNegExample : ℕ → ℕ → Dist := fun a b =>
  if a = 0 ∧ b = 1 then ((1 : ℤ) : Dist)
  else if a = 1 ∧ b = 0 then ((-2 : ℤ) : Dist)
  else if a = b then 0 else ⊤

/-! ### `ford_fulkerson` (ford_fulkerson.py)

`_augment` recursively searches for an augmenting path, mutating `visit`
always and `flow` exactly along a discovered path.  The recursion is
modelled with a fuel argument; since every recursive call first marks an
unvisited vertex, depth `n + 1` is never exhausted on well-formed inputs.
`val` is `WithTop ℤ` because the top-level call passes `float('inf')`;
residual capacities are finite, so every delta that reaches a flow update
is finite and `untop' 0` reads off its integer value. -/

/-- `flow[u][v] += d; flow[v][u] -= d`. -/
def flowUpd (f : ℕ → ℕ → ℤ) (u v : ℕ) (d : ℤ) : ℕ → ℕ → ℤ :=
  updm (updm f u v (f u v + d)) v u ((updm f u v (f u v + d)) v u - d)

/-- The `for v in graph[u]` loop of `_augment`.  `aug` is the recursive
call (one fuel level down). -/
def ffAugList (cap : ℕ → ℕ → ℤ)
    (aug : Dist → ℕ → (ℕ → ℕ → ℤ) → (ℕ → Bool) →
      Dist × (ℕ → ℕ → ℤ) × (ℕ → Bool)) :
    List ℕ → Dist → ℕ → (ℕ → ℕ → ℤ) → (ℕ → Bool) →
      Dist × (ℕ → ℕ → ℤ) × (ℕ → Bool)
  | [], _, _, flow, visit => (0, flow, visit)
  | v :: rest, val, u, flow, visit =>
    if visit v = false ∧ flow u v < cap u v then
      let res := min val ((cap u v - flow u v : ℤ) : Dist)
      let r := aug res v flow visit
      if 0 < r.1 then (r.1, flowUpd r.2.1 u v (r.1.untop' 0), r.2.2)
      else ffAugList cap aug rest val u r.2.1 r.2.2
    else ffAugList cap aug rest val u flow visit

/-- `_augment(graph, capacity, flow, val, u, target, visit)`. -/
def ffAug (g : List (List ℕ)) (cap : ℕ → ℕ → ℤ) (t : ℕ) :
    ℕ → Dist → ℕ → (ℕ → ℕ → ℤ) → (ℕ → Bool) →
      Dist × (ℕ → ℕ → ℤ) × (ℕ → Bool)
  | 0, val, u, flow, visit =>
    let visit' := updf visit u true
    if u = t then (val, flow, visit') else (0, flow, visit')
  | fuel + 1, val, u, flow, visit =>
    let visit' := updf visit u true
    if u = t then (val, flow, visit')
    else ffAugList cap (ffAug g cap t fuel) (g.getD u []) val u flow visit'

/-- The `while _augment(...) > 0` loop; returns the flow matrix as the last
`_augment` call left it. -/
def ffLoop (g : List (List ℕ)) (cap : ℕ → ℕ → ℤ) (s t n : ℕ) :
    ℕ → (ℕ → ℕ → ℤ) → (ℕ → ℕ → ℤ)
  | 0, flow => flow
  | fuel + 1, flow =>
    let r := ffAug g cap t (n + 1) ⊤ s flow (fun _ => false)
    if 0 < r.1 then ffLoop g cap s t n fuel r.2.1 else r.2.1

/-- Outer fuel: one more than the total capacity leaving the source, which
(by the capacity bound on row `s` and integrality) dominates the number of
successful augmentations. -/
def ffOuterFuel (cap : ℕ → ℕ → ℤ) (s n : ℕ) : ℕ :=
  1 + ((List.range n).map fun v => (cap s v).toNat).sum

/-- `ford_fulkerson(graph, capacity, s, t)`: returns the flow matrix and
`sum(flow[s])`. -/
def ford_fulkerson (graph : List (List ℕ)) (capac : ℕ → ℕ → ℤ) (s t : ℕ) :
    (ℕ → ℕ → ℤ) × ℤ :=
  let gc := add_reverse_arcs graph capac
  let n := gc.1.length
  let flow := ffLoop gc.1 gc.2 s t n (ffOuterFuel gc.2 s n) (fun _ _ => 0)
  (flow, ((List.range n).map fun v => flow s v).sum)

/-- The flow respects the capacities on the arcs of `g₁`. -/
def CapBound (g₁ : List (List ℕ)) (cap flow : ℕ → ℕ → ℤ) : Prop :=
  ∀ a, ∀ b ∈ g₁.getD a [], flow a b ≤ cap a b

/-- `sum(flow[x])`, the row sum of an `n × n` flow matrix. -/
def rowSum (n : ℕ) (f : ℕ → ℕ → ℤ) (x : ℕ) : ℤ :=
  ((List.range n).map fun v => f x v).sum

/-- The capacities of the counterexample network: arcs
`0→1, 1→2, 2→1, 2→3`, all of capacity 5. -/
def ffCapExample : ℕ → ℕ → ℤ := fun a b =>
  if (a = 0 ∧ b = 1) ∨ (a = 1 ∧ b = 2) ∨ (a = 2 ∧ b = 1) ∨ (a = 2 ∧ b = 3)
  then 5 else 0

/-! ### `max_bipartite_matching` (bipartite_matching.py)

`augment(u, bigraph, visit, match)` searches depth-first for an augmenting
path from the left vertex `u`; the matching table is called `mat` here
(`match` is a Lean keyword).  The recursion is modelled with fuel; each
recursive call first marks an unvisited right vertex, so fuel `n + 1` is
never exhausted on well-formed inputs. -/

/-- The `for v in bigraph[u]` loop of `augment`.  `aug` is the recursive
call (one fuel level down). -/
def bmAugList (aug : ℕ → (ℕ → Bool) → (ℕ → Option ℕ) →
      Bool × (ℕ → Bool) × (ℕ → Option ℕ)) :
    List ℕ → ℕ → (ℕ → Bool) → (ℕ → Option ℕ) →
      Bool × (ℕ → Bool) × (ℕ → Option ℕ)
  | [], _, visit, mat => (false, visit, mat)
  | v :: rest, u, visit, mat =>
    if visit v = false then
      match mat v with
      | none => (true, updf visit v true, updf mat v (some u))
      | some w =>
        let r := aug w (updf visit v true) mat
        if r.1 then (true, r.2.1, updf r.2.2 v (some u))
        else bmAugList aug rest u r.2.1 r.2.2
    else bmAugList aug rest u visit mat

/-- `augment(u, bigraph, visit, match)`. -/
def bmAug (bigraph : List (List ℕ)) :
    ℕ → ℕ → (ℕ → Bool) → (ℕ → Option ℕ) →
      Bool × (ℕ → Bool) × (ℕ → Option ℕ)
  | 0, _, visit, mat => (false, visit, mat)
  | fuel + 1, u, visit, mat =>
    bmAugList (bmAug bigraph fuel) (bigraph.getD u []) u visit mat

/-- `max_bipartite_matching(bigraph)`. -/
def max_bipartite_matching (bigraph : List (List ℕ)) : ℕ → Option ℕ :=
  (List.range bigraph.length).foldl
    (fun mat u =>
      (bmAug bigraph (bigraph.length + 1) u (fun _ => false) mat).2.2)
    (fun _ => none)

/-- The matching table matches every left vertex to at most one right
vertex. -/
def MInj (mat : ℕ → Option ℕ) : Prop :=
  ∀ x w1 w2, mat w1 = some x → mat w2 = some x → w1 = w2

/-! ### C2: `dijkstra` computes shortest paths -/

/-- Walks in the adjacency-list graph: `PathTo graph weight source v c` holds
when there is a directed walk from `source` to `v` along listed edges whose
weights sum to `c`. -/
inductive PathTo (graph : List (List ℕ)) (weight : ℕ → ℕ → ℤ) (source : ℕ) :
    ℕ → ℤ → Prop
  | base : PathTo graph weight source source 0
  | step {u : ℕ} {c : ℤ} {v : ℕ} : PathTo graph weight source u c →
      v ∈ graph.getD u [] → PathTo graph weight source v (c + weight u v)

/-- The loop invariant of `dijkstra`.  `B` is the set of black vertices and
`R ⊆ B` the set of black vertices whose outgoing edges have all been relaxed
(the two coincide outside the inner `for` loop). -/
structure DijkInv (graph : List (List ℕ)) (weight : ℕ → ℕ → ℤ) (source : ℕ)
    (B R : ℕ → Bool) (dist : ℕ → Dist) (prec : ℕ → Option ℕ)
    (heap : List (Dist × ℕ)) : Prop where
  realiz : ∀ v, dist v ≠ ⊤ →
    ∃ c : ℤ, PathTo graph weight source v c ∧ dist v = (c : Dist)
  prec_none : ∀ v, dist v = ⊤ → prec v = none
  source_le : dist source ≤ (0 : Dist)
  bmin : ∀ v, B v = true → ∀ c : ℤ,
    PathTo graph weight source v c → dist v ≤ (c : Dist)
  brelax : ∀ v, R v = true → ∀ w ∈ graph.getD v [],
    dist w ≤ dist v + ((weight v w : ℤ) : Dist)
  live : ∀ v, B v = false → dist v ≠ ⊤ → (dist v, v) ∈ heap
  hge : ∀ p ∈ heap, dist p.2 ≤ p.1
  hreal : ∀ p ∈ heap, ∃ c : ℤ, PathTo graph weight source p.2 c ∧ p.1 = (c : Dist)

/-- Number of unprocessed vertices and edges, weighted so that the loop
potential of `dijkstra` strictly decreases. -/
def degSum (graph : List (List ℕ)) (black : ℕ → Bool) : ℕ :=
  ((List.range graph.length).map fun v =>
    if black v = false then 1 + (graph.getD v []).length else 0).sum

/-- The loop potential of `dijkstra`: heap size plus the weighted count of
non-black vertices. -/
def dijkstraPotential (graph : List (List ℕ)) (black : ℕ → Bool)
    (heap : List (Dist × ℕ)) : ℕ :=
  heap.length + degSum graph black

/-- The shortest-path characterization of the output `(dist, prec)` of
`dijkstra` run to completion: every walk cost bounds `dist` from above being
reached, finite entries are realized by walks, and `⊤` entries have no
predecessor. -/
def DijkOut (graph : List (List ℕ)) (weight : ℕ → ℕ → ℤ) (source : ℕ)
    (r : (ℕ → Dist) × (ℕ → Option ℕ)) : Prop :=
  (∀ (v : ℕ) (c : ℤ), PathTo graph weight source v c → r.1 v ≤ (c : Dist)) ∧
  (∀ v, r.1 v ≠ ⊤ →
    ∃ c : ℤ, PathTo graph weight source v c ∧ r.1 v = (c : Dist)) ∧
  (∀ v, r.1 v = ⊤ → r.2 v = none)

/-- The triangle graph of concrete scenario 2. -/
def triGraph : List (List ℕ) := [[1, 2], [2], []]

/-- Weights of the triangle: 0 to 1 costs 1, 0 to 2 costs 4, 1 to 2 costs 1. -/
def triWeight : ℕ → ℕ → ℤ := fun a b =>
  if a = 0 ∧ b = 1 then 1
  else if a = 0 ∧ b = 2 then 4
  else if a = 1 ∧ b = 2 then 1
  else 0

/-! ### C7: `dist01` (graph01.py) versus `dijkstra` on 0-1 weights -/

/-- Body of the inner `for neighbor in graph[node]` loop of `dist01`.  The
state is `(dist, prec, gray)`, where the head of `gray` is the right end of
the Python deque (the end `pop` takes from); `append` is cons, `appendleft`
appends at the tail. -/
def dist01RelaxStep (weight : ℕ → ℕ → ℤ) (node : ℕ) (black : ℕ → Bool)
    (st : (ℕ → Dist) × (ℕ → Option ℕ) × List ℕ) (neighbor : ℕ) :
    (ℕ → Dist) × (ℕ → Option ℕ) × List ℕ :=
  let ell := st.1 node + (weight node neighbor : ℤ)
  if black neighbor || decide (st.1 neighbor ≤ ell) then st
  else
    (updf st.1 neighbor ell, updf st.2.1 neighbor (some node),
      if weight node neighbor = 0 then neighbor :: st.2.2
      else st.2.2 ++ [neighbor])

/-- The `while gray:` loop of `dist01`. -/
def dist01Loop (graph : List (List ℕ)) (weight : ℕ → ℕ → ℤ)
    (target : Option ℕ) :
    ℕ → (ℕ → Dist) → (ℕ → Option ℕ) → (ℕ → Bool) → List ℕ →
    (ℕ → Dist) × (ℕ → Option ℕ)
  | 0, dist, prec, _, _ => (dist, prec)
  | _ + 1, dist, prec, _, [] => (dist, prec)
  | fuel + 1, dist, prec, black, node :: gray =>
    let black' := updf black node true
    if target = some node then (dist, prec)
    else
      let st := (graph.getD node []).foldl
        (dist01RelaxStep weight node black') (dist, prec, gray)
      dist01Loop graph weight target fuel st.1 st.2.1 black' st.2.2

/-- `dist01(graph, weight, source, target)` from graph01.py. -/
def dist01 (graph : List (List ℕ)) (weight : ℕ → ℕ → ℤ) (source : ℕ)
    (target : Option ℕ) : (ℕ → Dist) × (ℕ → Option ℕ) :=
  dist01Loop graph weight target (dijkstraFuel graph)
    (updf (fun _ => (⊤ : Dist)) source 0) (fun _ => none) (fun _ => false)
    [source]

/-- The loop invariant of `dist01` between iterations.  `black ≤ gray` value
ordering, pairwise span at most one among live gray vertices, and the
positional deque property `qsplit`: a live entry can only be preceded by a
larger-or-equal entry unless the same vertex also occurs even earlier. -/
structure Dist01Inv (graph : List (List ℕ)) (weight : ℕ → ℕ → ℤ)
    (source : ℕ) (dist : ℕ → Dist) (prec : ℕ → Option ℕ) (black : ℕ → Bool)
    (gray : List ℕ) : Prop where
  realiz : ∀ v, dist v ≠ ⊤ →
    ∃ c : ℤ, PathTo graph weight source v c ∧ dist v = (c : Dist)
  prec_none : ∀ v, dist v = ⊤ → prec v = none
  source_le : dist source ≤ (0 : Dist)
  srelax : ∀ u, black u = true → ∀ v ∈ graph.getD u [],
    dist v ≤ dist u + ((weight u v : ℤ) : Dist)
  cover : ∀ v, dist v ≠ ⊤ → black v = true ∨ v ∈ gray
  gray_fin : ∀ v ∈ gray, dist v ≠ ⊤
  black_le : ∀ b, black b = true → ∀ v ∈ gray, black v = false →
    dist b ≤ dist v
  span : ∀ u ∈ gray, ∀ v ∈ gray, black u = false → black v = false →
    dist u ≤ dist v + ((1 : ℤ) : Dist)
  qsplit : ∀ (l1 : List ℕ) (x : ℕ) (l2 : List ℕ) (y : ℕ) (l3 : List ℕ),
    gray = l1 ++ x :: (l2 ++ y :: l3) → black y = false →
    dist x ≤ dist y ∨ y ∈ l1

/-- The invariant of `dist01` inside the relaxation loop of a popped vertex
whose (frozen) distance is `m`; `B` holds the black vertices including the
popped one, `R` the black vertices already fully relaxed. -/
structure Dist01Mid (graph : List (List ℕ)) (weight : ℕ → ℕ → ℤ)
    (source : ℕ) (m : Dist) (B R : ℕ → Bool) (dist : ℕ → Dist)
    (prec : ℕ → Option ℕ) (gray : List ℕ) : Prop where
  realiz : ∀ v, dist v ≠ ⊤ →
    ∃ c : ℤ, PathTo graph weight source v c ∧ dist v = (c : Dist)
  prec_none : ∀ v, dist v = ⊤ → prec v = none
  source_le : dist source ≤ (0 : Dist)
  srelax : ∀ u, R u = true → ∀ v ∈ graph.getD u [],
    dist v ≤ dist u + ((weight u v : ℤ) : Dist)
  cover : ∀ v, dist v ≠ ⊤ → B v = true ∨ v ∈ gray
  gray_fin : ∀ v ∈ gray, dist v ≠ ⊤
  f1 : ∀ v ∈ gray, B v = false →
    m ≤ dist v ∧ dist v ≤ m + ((1 : ℤ) : Dist)
  f2 : ∀ b, B b = true → dist b ≤ m
  qsplit : ∀ (l1 : List ℕ) (x : ℕ) (l2 : List ℕ) (y : ℕ) (l3 : List ℕ),
    gray = l1 ++ x :: (l2 ++ y :: l3) → B y = false →
    dist x ≤ dist y ∨ y ∈ l1

/-- A small 0-1 weighted path graph used to witness C7. -/
def g01Example : List (List ℕ) := [[1], [2], []]

/-- Weights for `g01Example`: the edge from 0 to 1 has weight 0, every other
entry is 1. -/
def w01Example : ℕ → ℕ → ℤ := fun u v => if u = 0 ∧ v = 1 then 0 else 1

/-! ### C1: `dijkstra_update_heap` (dijkstra.py)

Modelled from the spec: our_heap.py is not part of the sources, so `OurHeap`
is modelled from the specification of an updatable min-priority queue: the
heap is the list of its `(distance, vertex)` entries, `pop` removes a least
entry in the lexicographic order (`heapMin`), and `update(old, new)` replaces
the entry `old` by the entry `new`. -/

/-- Modelled from the spec: body of the inner loop of
`dijkstra_update_heap`, relaxation of one neighbor with `update` of the
`OurHeap` entry on improvement; `update (old, v) (new, v)` is
erase-then-add. -/
def duhRelax (weight : ℕ → ℕ → ℤ) (node : ℕ) (dn : Dist)
    (st : (ℕ → Dist) × (ℕ → Option ℕ) × List (Dist × ℕ)) (neighbor : ℕ) :
    (ℕ → Dist) × (ℕ → Option ℕ) × List (Dist × ℕ) :=
  let old := st.1 neighbor
  let new := dn + (weight node neighbor : ℤ)
  if new < old then
    (updf st.1 neighbor new, updf st.2.1 neighbor (some node),
      (st.2.2.erase (old, neighbor)) ++ [(new, neighbor)])
  else st

/-- Modelled from the spec: the `while heap:` loop of
`dijkstra_update_heap`; the `OurHeap` `pop` extracts a lexicographically
least entry. -/
def duhLoop (graph : List (List ℕ)) (weight : ℕ → ℕ → ℤ)
    (target : Option ℕ) :
    ℕ → (ℕ → Dist) → (ℕ → Option ℕ) → List (Dist × ℕ) →
    (ℕ → Dist) × (ℕ → Option ℕ)
  | 0, dist, prec, _ => (dist, prec)
  | fuel + 1, dist, prec, heap =>
    match heapMin heap with
    | none => (dist, prec)
    | some m =>
      if target = some m.2 then (dist, prec)
      else
        let st := (graph.getD m.2 []).foldl (duhRelax weight m.2 m.1)
          (dist, prec, heap.erase m)
        duhLoop graph weight target fuel st.1 st.2.1 st.2.2

/-- Modelled from the spec: `dijkstra_update_heap(graph, weight, source,
target)` from dijkstra.py over the spec-modelled `OurHeap`; the initial heap
holds an entry for every vertex of the graph.  A failure of the initial
`assert` (the same assertion as in `dijkstra`) is modelled by the result
`none`. -/
def dijkstra_update_heap (graph : List (List ℕ)) (weight : ℕ → ℕ → ℤ)
    (source : ℕ) (target : Option ℕ) :
    Option ((ℕ → Dist) × (ℕ → Option ℕ)) :=
  if dijkstraAssert graph weight then
    some (duhLoop graph weight target (graph.length + 1)
      (updf (fun _ => (⊤ : Dist)) source 0) (fun _ => none)
      ((List.range graph.length).map fun v =>
        (updf (fun _ => (⊤ : Dist)) source 0 v, v)))
  else none

@[simp] theorem updf_same {α : Type} (f : ℕ → α) (i : ℕ) (x : α) :
    updf f i x i = x := by
  simp [updf]

theorem updf_other {α : Type} (f : ℕ → α) (i j : ℕ) (x : α) (h : j ≠ i) :
    updf f i x j = f j := by
  simp [updf, h]

theorem updf_apply {α : Type} (f : ℕ → α) (i j : ℕ) (x : α) :
    updf f i x j = if j = i then x else f j := rfl

@[simp] theorem updm_same {α : Type} (f : ℕ → ℕ → α) (i j : ℕ) (x : α) :
    updm f i j x i j = x := by
  simp [updm]

theorem updm_apply {α : Type} (f : ℕ → ℕ → α) (i j a b : ℕ) (x : α) :
    updm f i j x a b = if a = i ∧ b = j then x else f a b := rfl

theorem updm_other {α : Type} (f : ℕ → ℕ → α) (i j a b : ℕ) (x : α)
    (h : ¬(a = i ∧ b = j)) : updm f i j x a b = f a b := by
  simp [updm, h]

theorem pairLe_refl (a : Dist × ℕ) : pairLe a a := Or.inr ⟨rfl, le_refl _⟩

theorem pairLe_trans {a b c : Dist × ℕ} (h1 : pairLe a b) (h2 : pairLe b c) :
    pairLe a c := by
  rcases h1 with h1 | ⟨h1, h1'⟩ <;> rcases h2 with h2 | ⟨h2, h2'⟩
  · exact Or.inl (lt_trans h1 h2)
  · exact Or.inl (h2 ▸ h1)
  · exact Or.inl (h1 ▸ h2)
  · exact Or.inr ⟨h1.trans h2, h1'.trans h2'⟩

theorem pairLe_total (a b : Dist × ℕ) : pairLe a b ∨ pairLe b a := by
  rcases lt_trichotomy a.1 b.1 with h | h | h
  · exact Or.inl (Or.inl h)
  · rcases Nat.le_total a.2 b.2 with h' | h'
    · exact Or.inl (Or.inr ⟨h, h'⟩)
    · exact Or.inr (Or.inr ⟨h.symm, h'⟩)
  · exact Or.inr (Or.inl h)

theorem pairLe_antisymm {a b : Dist × ℕ} (h1 : pairLe a b) (h2 : pairLe b a) :
    a = b := by
  rcases h1 with h1 | ⟨h1, h1'⟩ <;> rcases h2 with h2 | ⟨h2, h2'⟩
  · exact absurd h2 (not_lt_of_lt h1)
  · exact absurd h1 (h2 ▸ lt_irrefl _)
  · exact absurd h2 (h1 ▸ lt_irrefl _)
  · exact Prod.ext h1 (Nat.le_antisymm h1' h2')

theorem heapMin_mem {l : List (Dist × ℕ)} {m : Dist × ℕ}
    (h : heapMin l = some m) : m ∈ l := by
  cases l with
  | nil => simp [heapMin] at h
  | cons x xs =>
    simp only [heapMin, Option.some.injEq] at h
    subst h
    suffices H : ∀ (xs : List (Dist × ℕ)) (a : Dist × ℕ),
        xs.foldl (fun a b => if pairLe a b then a else b) a = a ∨
        xs.foldl (fun a b => if pairLe a b then a else b) a ∈ xs by
      rcases H xs x with h | h
      · rw [h]; exact List.mem_cons_self _ _
      · exact List.mem_cons_of_mem _ h
    intro xs
    induction xs with
    | nil => intro a; exact Or.inl rfl
    | cons y ys ih =>
      intro a
      simp only [List.foldl_cons]
      by_cases hc : pairLe a y
      · simp only [if_pos hc]
        rcases ih a with h | h
        · exact Or.inl h
        · exact Or.inr (List.mem_cons_of_mem _ h)
      · simp only [if_neg hc]
        rcases ih y with h | h
        · exact Or.inr (by rw [h]; exact List.mem_cons_self _ _)
        · exact Or.inr (List.mem_cons_of_mem _ h)

theorem heapMin_le {l : List (Dist × ℕ)} {m : Dist × ℕ}
    (h : heapMin l = some m) : ∀ b ∈ l, pairLe m b := by
  cases l with
  | nil => simp [heapMin] at h
  | cons x xs =>
    simp only [heapMin, Option.some.injEq] at h
    subst h
    suffices H : ∀ (xs : List (Dist × ℕ)) (a : Dist × ℕ),
        pairLe (xs.foldl (fun a b => if pairLe a b then a else b) a) a ∧
        ∀ b ∈ xs, pairLe (xs.foldl (fun a b => if pairLe a b then a else b) a) b by
      intro b hb
      rcases List.mem_cons.1 hb with rfl | hb
      · exact (H xs b).1
      · exact (H xs x).2 b hb
    intro xs
    induction xs with
    | nil => intro a; exact ⟨pairLe_refl a, by simp⟩
    | cons y ys ih =>
      intro a
      simp only [List.foldl_cons]
      by_cases hc : pairLe a y
      · simp only [if_pos hc]
        refine ⟨(ih a).1, ?_⟩
        intro b hb
        rcases List.mem_cons.1 hb with rfl | hb
        · exact pairLe_trans (ih a).1 hc
        · exact (ih a).2 b hb
      · simp only [if_neg hc]
        rcases pairLe_total a y with hc' | hc'
        · exact absurd hc' hc
        · refine ⟨pairLe_trans (ih y).1 hc', ?_⟩
          intro b hb
          rcases List.mem_cons.1 hb with rfl | hb
          · exact (ih _).1
          · exact (ih y).2 b hb

theorem heapMin_eq_none {l : List (Dist × ℕ)} :
    heapMin l = none ↔ l = [] := by
  cases l <;> simp [heapMin]

/-- C9, first half: the assertion fails iff some listed edge has negative
weight. -/
theorem dijkstra_eq_none_iff (graph : List (List ℕ)) (weight : ℕ → ℕ → ℤ)
    (source : ℕ) (target : Option ℕ) :
    dijkstra graph weight source target = none ↔
      ∃ u < graph.length, ∃ v ∈ graph.getD u [], weight u v < 0 := by
  unfold dijkstra
  by_cases h : dijkstraAssert graph weight
  · simp only [if_pos h]
    unfold dijkstraAssert at h
    simp only [List.all_eq_true, List.mem_range, decide_eq_true_eq] at h
    constructor
    · intro hc; exact absurd hc (by simp)
    · rintro ⟨u, hu, v, hv, hneg⟩
      exact absurd (h u hu v hv) (not_le_of_lt hneg)
  · simp only [if_neg h]
    unfold dijkstraAssert at h
    simp only [List.all_eq_true, List.mem_range, decide_eq_true_eq, not_forall] at h
    obtain ⟨u, hu, v, hv, hneg⟩ := h
    exact iff_of_true trivial ⟨u, hu, v, hv, lt_of_not_le hneg⟩

/-- C9: `dijkstra` fails its initial assertion (returns no result) if and
only if some edge `(u, v)` of the graph has `weight[u][v] < 0`; with
non-negative edge weights it returns normally. -/
theorem dijkstra_assertion_iff_negative_edge (graph : List (List ℕ))
    (weight : ℕ → ℕ → ℤ) (source : ℕ) (target : Option ℕ) :
    (dijkstra graph weight source target = none ↔
      ∃ u < graph.length, ∃ v ∈ graph.getD u [], weight u v < 0) ∧
    ((∀ u < graph.length, ∀ v ∈ graph.getD u [], 0 ≤ weight u v) →
      ∃ r, dijkstra graph weight source target = some r) := by
  refine ⟨dijkstra_eq_none_iff graph weight source target, ?_⟩
  intro hnn
  rcases hr : dijkstra graph weight source target with _ | r
  · rw [dijkstra_eq_none_iff] at hr
    obtain ⟨u, hu, v, hv, hneg⟩ := hr
    exact absurd (hnn u hu v hv) (not_le_of_lt hneg)
  · exact ⟨r, rfl⟩

/-! ### `add_reverse_arcs` (graph.py) -/

/-- Row `u` of an adjacency list (out of range rows are empty). -/
theorem getD_set_self {g : List (List ℕ)} {v : ℕ} (x : List ℕ)
    (h : v < g.length) : (g.set v x).getD v [] = x := by
  rw [List.getD_eq_getElem?_getD, List.getElem?_set_eq_of_lt x h]
  rfl

theorem getD_set_of_ne {g : List (List ℕ)} {v a : ℕ} (x : List ℕ)
    (h : a ≠ v) : (g.set v x).getD a [] = g.getD a [] := by
  rw [List.getD_eq_getElem?_getD, List.getElem?_set_ne (fun hc => h hc.symm),
    List.getD_eq_getElem?_getD]

theorem arInner_length (u : ℕ) (σ : List (List ℕ) × (ℕ → ℕ → ℤ)) (v : ℕ) :
    (arInner u σ v).1.length = σ.1.length := by
  unfold arInner
  split
  · rfl
  · exact List.length_set σ.1 v _

theorem arInner_row_other (u : ℕ) (σ : List (List ℕ) × (ℕ → ℕ → ℤ))
    (v a : ℕ) (h : a ≠ v) :
    (arInner u σ v).1.getD a [] = σ.1.getD a [] := by
  unfold arInner
  split
  · rfl
  · exact getD_set_of_ne _ h

theorem arInner_row_mono (u : ℕ) (σ : List (List ℕ) × (ℕ → ℕ → ℤ))
    (v a b : ℕ) (h : b ∈ σ.1.getD a []) :
    b ∈ (arInner u σ v).1.getD a [] := by
  by_cases hav : a = v
  · subst hav
    unfold arInner
    split
    · exact h
    · by_cases hlen : a < σ.1.length
      · rw [getD_set_self _ hlen]
        exact List.mem_append_left _ h
      · rw [List.set_eq_of_length_le (Nat.le_of_not_lt hlen)]
        exact h
  · rw [arInner_row_other u σ v a hav]
    exact h

theorem arInner_row_subset (u : ℕ) (σ : List (List ℕ) × (ℕ → ℕ → ℤ))
    (v a b : ℕ) (h : b ∈ (arInner u σ v).1.getD a []) :
    b ∈ σ.1.getD a [] ∨ (b = u ∧ a = v) := by
  by_cases hav : a = v
  · subst hav
    unfold arInner at h
    split at h
    · exact Or.inl h
    · by_cases hlen : a < σ.1.length
      · rw [getD_set_self _ hlen] at h
        rcases List.mem_append.1 h with h | h
        · exact Or.inl h
        · simp only [List.mem_singleton] at h
          exact Or.inr ⟨h, rfl⟩
      · rw [List.set_eq_of_length_le (Nat.le_of_not_lt hlen)] at h
        exact Or.inl h
  · rw [arInner_row_other u σ v a hav] at h
    exact Or.inl h

theorem arInner_mem_after (u : ℕ) (σ : List (List ℕ) × (ℕ → ℕ → ℤ))
    (v : ℕ) (h : v < σ.1.length) : u ∈ (arInner u σ v).1.getD v [] := by
  unfold arInner
  split
  · assumption
  · rw [getD_set_self _ h]
    exact List.mem_append_right _ (List.mem_singleton.2 rfl)

theorem arInner_cap_ne (u : ℕ) (σ : List (List ℕ) × (ℕ → ℕ → ℤ))
    (v a b : ℕ) (h : ¬(a = v ∧ b = u)) :
    (arInner u σ v).2 a b = σ.2 a b := by
  unfold arInner
  split
  · rfl
  · exact updm_other _ _ _ _ _ _ h

theorem arInner_cap_zero (u : ℕ) (σ : List (List ℕ) × (ℕ → ℕ → ℤ))
    (v : ℕ) (h : u ∉ σ.1.getD v []) : (arInner u σ v).2 v u = 0 := by
  unfold arInner
  rw [if_neg h]
  exact updm_same _ _ _ _

theorem arInner_cap_zero_mono (u : ℕ) (σ : List (List ℕ) × (ℕ → ℕ → ℤ))
    (v a : ℕ) (h : σ.2 a u = 0) : (arInner u σ v).2 a u = 0 := by
  unfold arInner
  split
  · exact h
  · show updm σ.2 v u 0 a u = 0
    rw [updm_apply]
    split
    · rfl
    · exact h

theorem arFold_length (u : ℕ) (l : List ℕ) :
    ∀ σ, (l.foldl (arInner u) σ).1.length = σ.1.length := by
  induction l with
  | nil => intro σ; rfl
  | cons v rest ih =>
    intro σ
    rw [List.foldl_cons, ih (arInner u σ v), arInner_length]

theorem arFold_row_mono (u : ℕ) (l : List ℕ) :
    ∀ σ a b, b ∈ σ.1.getD a [] → b ∈ (l.foldl (arInner u) σ).1.getD a [] := by
  induction l with
  | nil => intro σ a b h; exact h
  | cons v rest ih =>
    intro σ a b h
    exact ih (arInner u σ v) a b (arInner_row_mono u σ v a b h)

theorem arFold_row_subset (u : ℕ) (l : List ℕ) :
    ∀ σ a b, b ∈ (l.foldl (arInner u) σ).1.getD a [] →
      b ∈ σ.1.getD a [] ∨ (b = u ∧ a ∈ l) := by
  induction l with
  | nil => intro σ a b h; exact Or.inl h
  | cons v rest ih =>
    intro σ a b h
    rcases ih (arInner u σ v) a b h with h' | h'
    · rcases arInner_row_subset u σ v a b h' with h'' | ⟨hb, ha⟩
      · exact Or.inl h''
      · exact Or.inr ⟨hb, ha ▸ List.mem_cons_self _ _⟩
    · exact Or.inr ⟨h'.1, List.mem_cons_of_mem _ h'.2⟩

theorem arFold_row_u (u : ℕ) (l : List ℕ) :
    ∀ σ, (u ∈ l → u ∈ σ.1.getD u []) →
      (l.foldl (arInner u) σ).1.getD u [] = σ.1.getD u [] := by
  induction l with
  | nil => intro σ _; rfl
  | cons v rest ih =>
    intro σ hm
    rw [List.foldl_cons]
    by_cases hvu : v = u
    · have hu : u ∈ σ.1.getD u [] :=
        hm (by rw [hvu]; exact List.mem_cons_self u rest)
      have hstep : arInner u σ v = σ := by
        unfold arInner
        rw [hvu, if_pos hu]
      rw [hstep]
      exact ih σ fun _ => hu
    · have hrow : (arInner u σ v).1.getD u [] = σ.1.getD u [] :=
        arInner_row_other u σ v u (fun h => hvu h.symm)
      rw [ih (arInner u σ v) ?_, hrow]
      intro hur
      rw [hrow]
      exact hm (List.mem_cons_of_mem _ hur)

theorem arFold_mem_u (u : ℕ) (l : List ℕ) :
    ∀ σ v, v ∈ l → v < σ.1.length →
      u ∈ (l.foldl (arInner u) σ).1.getD v [] := by
  induction l with
  | nil => intro σ v h; exact absurd h (List.not_mem_nil v)
  | cons v0 rest ih =>
    intro σ v hv hlen
    rcases List.mem_cons.1 hv with rfl | hv
    · exact arFold_row_mono u rest (arInner u σ v) v u
        (arInner_mem_after u σ v hlen)
    · exact ih (arInner u σ v0) v hv (by rw [arInner_length]; exact hlen)

theorem arFold_cap_ne (u : ℕ) (l : List ℕ) :
    ∀ σ a b, ¬(b = u ∧ a ∈ l) → (l.foldl (arInner u) σ).2 a b = σ.2 a b := by
  induction l with
  | nil => intro σ a b _; rfl
  | cons v rest ih =>
    intro σ a b h
    rw [List.foldl_cons, ih (arInner u σ v) a b
      (fun hc => h ⟨hc.1, List.mem_cons_of_mem _ hc.2⟩)]
    exact arInner_cap_ne u σ v a b
      (fun hc => h ⟨hc.2, hc.1 ▸ List.mem_cons_self _ _⟩)

theorem arFold_cap_zero_mono (u : ℕ) (l : List ℕ) :
    ∀ σ a, σ.2 a u = 0 → (l.foldl (arInner u) σ).2 a u = 0 := by
  induction l with
  | nil => intro σ a h; exact h
  | cons v rest ih =>
    intro σ a h
    exact ih (arInner u σ v) a (arInner_cap_zero_mono u σ v a h)

theorem arFold_cap_zero (u : ℕ) (l : List ℕ) :
    ∀ σ v, v ∈ l → u ∉ σ.1.getD v [] →
      (l.foldl (arInner u) σ).2 v u = 0 := by
  induction l with
  | nil => intro σ v h; exact absurd h (List.not_mem_nil v)
  | cons v0 rest ih =>
    intro σ v hv hnm
    by_cases hveq : v = v0
    · subst hveq
      exact arFold_cap_zero_mono u rest (arInner u σ v) v
        (arInner_cap_zero u σ v hnm)
    · rcases List.mem_cons.1 hv with h | h
      · exact absurd h hveq
      · refine ih (arInner u σ v0) v h ?_
        rw [arInner_row_other u σ v0 v hveq]
        exact hnm

theorem row_nonempty_lt {g : List (List ℕ)} {a b : ℕ}
    (h : b ∈ g.getD a []) : a < g.length := by
  by_contra hc
  rw [List.getD_eq_default g [] (Nat.le_of_not_lt hc)] at h
  exact List.not_mem_nil b h

theorem arOuterFold_length (L : List ℕ) :
    ∀ σ, (L.foldl arStep σ).1.length = σ.1.length := by
  induction L with
  | nil => intro σ; rfl
  | cons x rest ih =>
    intro σ
    rw [List.foldl_cons, ih (arStep σ x)]
    exact arFold_length x _ σ

theorem arOuterFold_row_mono (L : List ℕ) :
    ∀ σ a b, b ∈ σ.1.getD a [] → b ∈ (L.foldl arStep σ).1.getD a [] := by
  induction L with
  | nil => intro σ a b h; exact h
  | cons x rest ih =>
    intro σ a b h
    exact ih (arStep σ x) a b (arFold_row_mono x _ σ a b h)

theorem arStepFold (L : List ℕ) :
    ∀ σ : List (List ℕ) × (ℕ → ℕ → ℤ),
      (∀ x ∈ L, x < σ.1.length) →
      (∀ a b, b ∈ σ.1.getD a [] → b < σ.1.length) →
      (∀ a b, b ∈ σ.1.getD a [] → a ∈ σ.1.getD b [] ∨ a ∈ L) →
      (∀ a b, b ∈ (L.foldl arStep σ).1.getD a [] → b < σ.1.length) ∧
      (∀ a b, b ∈ (L.foldl arStep σ).1.getD a [] →
        a ∈ (L.foldl arStep σ).1.getD b []) := by
  induction L with
  | nil =>
    intro σ _ hW hCl
    refine ⟨hW, ?_⟩
    intro a b h
    rcases hCl a b h with h' | h'
    · exact h'
    · exact absurd h' (List.not_mem_nil a)
  | cons x rest ih =>
    intro σ hL hW hCl
    have hxlen : x < σ.1.length := hL x (List.mem_cons_self _ _)
    have len1 : (arStep σ x).1.length = σ.1.length := arFold_length x _ σ
    have mono1 : ∀ a b, b ∈ σ.1.getD a [] → b ∈ (arStep σ x).1.getD a [] :=
      fun a b h => arFold_row_mono x _ σ a b h
    have sub1 : ∀ a b, b ∈ (arStep σ x).1.getD a [] →
        b ∈ σ.1.getD a [] ∨ (b = x ∧ a ∈ σ.1.getD x []) :=
      fun a b h => arFold_row_subset x _ σ a b h
    have W1 : ∀ a b, b ∈ (arStep σ x).1.getD a [] →
        b < (arStep σ x).1.length := by
      intro a b h
      rw [len1]
      rcases sub1 a b h with h' | ⟨hb, _⟩
      · exact hW a b h'
      · exact hb ▸ hxlen
    have rowx : (arStep σ x).1.getD x [] = σ.1.getD x [] :=
      arFold_row_u x _ σ (fun h => h)
    have Cl1 : ∀ a b, b ∈ (arStep σ x).1.getD a [] →
        a ∈ (arStep σ x).1.getD b [] ∨ a ∈ rest := by
      intro a b h
      rcases sub1 a b h with h' | ⟨hb, ha⟩
      · rcases hCl a b h' with h'' | h''
        · exact Or.inl (mono1 b a h'')
        · rcases List.mem_cons.1 h'' with rfl | h''
          · exact Or.inl (arFold_mem_u a _ σ b h' (hW a b h'))
          · exact Or.inr h''
      · subst hb
        rw [rowx]
        exact Or.inl ha
    have hL1 : ∀ y ∈ rest, y < (arStep σ x).1.length := by
      intro y hy
      rw [len1]
      exact hL y (List.mem_cons_of_mem _ hy)
    obtain ⟨Wf, Clf⟩ := ih (arStep σ x) hL1 W1 Cl1
    rw [List.foldl_cons]
    refine ⟨fun a b h => ?_, Clf⟩
    rw [← len1]
    exact Wf a b h

theorem arOuterFold_cap_ne (L : List ℕ) :
    ∀ σ a b, b ∉ L → (L.foldl arStep σ).2 a b = σ.2 a b := by
  induction L with
  | nil => intro σ a b _; rfl
  | cons x rest ih =>
    intro σ a b hb
    rw [List.foldl_cons,
      ih (arStep σ x) a b (fun h => hb (List.mem_cons_of_mem _ h))]
    exact arFold_cap_ne x _ σ a b
      (fun hc => hb (hc.1 ▸ List.mem_cons_self _ _))

theorem arOuterFold_cap_zero (L : List ℕ) :
    L.Nodup → ∀ σ u v, u ∈ L → v ∈ σ.1.getD u [] → u ∉ σ.1.getD v [] →
      (L.foldl arStep σ).2 v u = 0 := by
  induction L with
  | nil => intro _ σ u v h; exact absurd h (List.not_mem_nil u)
  | cons x rest ih =>
    intro hN σ u v hu hv hnm
    rw [List.nodup_cons] at hN
    rw [List.foldl_cons]
    by_cases hux : u = x
    · subst hux
      rw [arOuterFold_cap_ne rest (arStep σ u) v u hN.1]
      exact arFold_cap_zero u _ σ v hv hnm
    · rcases List.mem_cons.1 hu with h | h
      · exact absurd h hux
      · refine ih hN.2 (arStep σ x) u v h (arFold_row_mono x _ σ u v hv) ?_
        intro hc
        rcases arFold_row_subset x _ σ v u hc with h' | ⟨h', _⟩
        · exact hnm h'
        · exact hux h'

theorem arFold_id (u : ℕ) (l : List ℕ) :
    ∀ σ, (∀ v ∈ l, u ∈ σ.1.getD v []) → l.foldl (arInner u) σ = σ := by
  induction l with
  | nil => intro σ _; rfl
  | cons v rest ih =>
    intro σ h
    have hstep : arInner u σ v = σ := by
      unfold arInner
      rw [if_pos (h v (List.mem_cons_self _ _))]
    rw [List.foldl_cons, hstep]
    exact ih σ (fun w hw => h w (List.mem_cons_of_mem _ hw))

theorem arOuterFold_id (L : List ℕ) :
    ∀ σ, (∀ a b, b ∈ σ.1.getD a [] → a ∈ σ.1.getD b []) →
      L.foldl arStep σ = σ := by
  induction L with
  | nil => intro σ _; rfl
  | cons x rest ih =>
    intro σ h
    have hstep : arStep σ x = σ :=
      arFold_id x _ σ (fun v hv => h x v hv)
    rw [List.foldl_cons, hstep]
    exact ih σ h

theorem add_reverse_arcs_closed (graph : List (List ℕ)) (capac : ℕ → ℕ → ℤ)
    (hWF : ∀ u, ∀ v ∈ graph.getD u [], v < graph.length) :
    ∀ a b, b ∈ (add_reverse_arcs graph capac).1.getD a [] →
      a ∈ (add_reverse_arcs graph capac).1.getD b [] := by
  refine (arStepFold (List.range graph.length) (graph, capac) ?_ hWF ?_).2
  · intro x hx; exact List.mem_range.1 hx
  · intro a b h
    exact Or.inr (List.mem_range.2 (row_nonempty_lt h))

/-- C8: `add_reverse_arcs` is idempotent — a second call on the augmented
graph and capacity changes nothing — and after one call every arc `(u, v)`
of the original graph has its reverse `(v, u)` present, with capacity `0`
when `(v, u)` was not an arc of the original graph. -/
theorem add_reverse_arcs_idempotent_and_closes (graph : List (List ℕ))
    (capac : ℕ → ℕ → ℤ)
    (hWF : ∀ u < graph.length, ∀ v ∈ graph.getD u [], v < graph.length) :
    (add_reverse_arcs (add_reverse_arcs graph capac).1
        (add_reverse_arcs graph capac).2 = add_reverse_arcs graph capac) ∧
    (∀ u, ∀ v ∈ graph.getD u [],
      u ∈ (add_reverse_arcs graph capac).1.getD v [] ∧
      (u ∉ graph.getD v [] → (add_reverse_arcs graph capac).2 v u = 0)) := by
  have hclosed := add_reverse_arcs_closed graph capac
    (fun u v hv => hWF u (row_nonempty_lt hv) v hv)
  constructor
  · show (List.range (add_reverse_arcs graph capac).1.length).foldl arStep
      ((add_reverse_arcs graph capac).1, (add_reverse_arcs graph capac).2) =
        add_reverse_arcs graph capac
    rw [Prod.mk.eta]
    exact arOuterFold_id _ _ hclosed
  · intro u v hv
    have hmono : v ∈ (add_reverse_arcs graph capac).1.getD u [] :=
      arOuterFold_row_mono _ (graph, capac) u v hv
    refine ⟨hclosed u v hmono, ?_⟩
    intro hnm
    exact arOuterFold_cap_zero (List.range graph.length)
      (List.nodup_range graph.length) (graph, capac) u v
      (List.mem_range.2 (row_nonempty_lt hv)) hv hnm

/-- Witness for C8 at a concrete two-vertex graph with the single arc
`0 → 1`. -/
theorem add_reverse_arcs_idempotent_and_closes_witness :
    (add_reverse_arcs (add_reverse_arcs [[1], []] (fun _ _ => 5)).1
        (add_reverse_arcs [[1], []] (fun _ _ => 5)).2 =
       add_reverse_arcs [[1], []] (fun _ _ => 5)) ∧
    (∀ u, ∀ v ∈ ([[1], []] : List (List ℕ)).getD u [],
      u ∈ (add_reverse_arcs [[1], []] (fun _ _ => 5)).1.getD v [] ∧
      (u ∉ ([[1], []] : List (List ℕ)).getD v [] →
        (add_reverse_arcs [[1], []] (fun _ _ => 5)).2 v u = 0)) :=
  add_reverse_arcs_idempotent_and_closes [[1], []] (fun _ _ => 5)
    (by decide)

theorem walkCost_append (W : ℕ → ℕ → Dist) (x v : ℕ) :
    ∀ (mid1 : List ℕ) (u : ℕ) (mid2 : List ℕ),
      walkCost W u (mid1 ++ x :: mid2) v =
        walkCost W u mid1 x + walkCost W x mid2 v := by
  intro mid1
  induction mid1 with
  | nil => intro u mid2; rfl
  | cons y m ih =>
    intro u mid2
    show W u y + walkCost W y (m ++ x :: mid2) v = _
    rw [ih y mid2]
    exact (add_assoc _ _ _).symm

theorem exists_dup_split {l : List ℕ} (h : ¬l.Nodup) :
    ∃ x m1 m2 m3, l = m1 ++ x :: m2 ++ x :: m3 := by
  induction l with
  | nil => exact absurd List.nodup_nil h
  | cons a l ih =>
    rw [List.nodup_cons] at h
    by_cases ha : a ∈ l
    · obtain ⟨s, t, rfl⟩ := List.append_of_mem ha
      exact ⟨a, [], s, t, rfl⟩
    · have hl : ¬l.Nodup := fun hn => h ⟨ha, hn⟩
      obtain ⟨x, m1, m2, m3, rfl⟩ := ih hl
      exact ⟨x, a :: m1, m2, m3, rfl⟩

theorem neg_of_add_neg {a b : Dist} (h : a + b < 0) : a < 0 ∨ b < 0 := by
  by_contra hc
  push_neg at hc
  exact absurd h (not_lt_of_le (by simpa using add_nonneg hc.1 hc.2))

/-- Any negative closed walk contains a negative simple cycle. -/
theorem negWalk_negCycle (n : ℕ) (W : ℕ → ℕ → Dist) :
    ∀ (L : ℕ) (v : ℕ) (mid : List ℕ), mid.length ≤ L → v < n →
      (∀ x ∈ mid, x < n) → walkCost W v mid v < 0 → NegCycle n W := by
  intro L
  induction L with
  | zero =>
    intro v mid hlen hv hb hneg
    rw [List.length_eq_zero.1 (Nat.le_zero.1 hlen)] at hb hneg
    exact ⟨v, hv, [], by simp, List.nodup_singleton v, hneg⟩
  | succ L ih =>
    intro v mid hlen hv hb hneg
    by_cases hnd : (v :: mid).Nodup
    · exact ⟨v, hv, mid, hb, hnd, hneg⟩
    · rw [List.nodup_cons] at hnd
      by_cases hvm : v ∈ mid
      · obtain ⟨m1, m2, rfl⟩ := List.append_of_mem hvm
        rw [walkCost_append W v v m1 v m2] at hneg
        have hlen' : m1.length ≤ L ∧ m2.length ≤ L := by
          rw [List.length_append, List.length_cons] at hlen
          omega
        rcases neg_of_add_neg hneg with hc | hc
        · exact ih v m1 hlen'.1 hv
            (fun x hx => hb x (List.mem_append_left _ hx)) hc
        · exact ih v m2 hlen'.2 hv
            (fun x hx => hb x
              (List.mem_append_right _ (List.mem_cons_of_mem _ hx))) hc
      · have hnd' : ¬mid.Nodup := fun hn => hnd ⟨hvm, hn⟩
        obtain ⟨x, m1, m2, m3, rfl⟩ := exists_dup_split hnd'
        have hform : m1 ++ x :: m2 ++ x :: m3 = m1 ++ x :: (m2 ++ x :: m3) := by
          simp
        rw [hform] at hneg hb hlen
        have hx : x < n := hb x
          (List.mem_append_right _ (List.mem_cons_self _ _))
        rw [walkCost_append W x v m1 v (m2 ++ x :: m3),
          walkCost_append W x v m2 x m3] at hneg
        have hlens : m1.length + m2.length + m3.length + 2 ≤ L + 1 := by
          have := hlen
          simp only [List.length_append, List.length_cons] at this
          omega
        by_cases hc : walkCost W x m2 x < 0
        · exact ih x m2 (by omega) hx
            (fun y hy => hb y (List.mem_append_right _
              (List.mem_cons_of_mem _ (List.mem_append_left _ hy)))) hc
        · have hge : (0 : Dist) ≤ walkCost W x m2 x := not_lt.1 hc
          have hneg' : walkCost W v (m1 ++ x :: m3) v < 0 := by
            refine lt_of_le_of_lt ?_ hneg
            rw [walkCost_append W x v m1 v m3]
            exact add_le_add_left (le_add_of_nonneg_left hge) _
          refine ih v (m1 ++ x :: m3) ?_ hv ?_ hneg'
          · simp only [List.length_append, List.length_cons]
            omega
          · intro y hy
            rcases List.mem_append.1 hy with hy | hy
            · exact hb y (List.mem_append_left _ hy)
            · rcases List.mem_cons.1 hy with rfl | hy
              · exact hx
              · exact hb y (List.mem_append_right _
                  (List.mem_cons_of_mem _ (List.mem_append_right _
                    (List.mem_cons_of_mem _ hy))))

theorem fwUpdate_le (k u : ℕ) (W : ℕ → ℕ → Dist) (v a b : ℕ) :
    fwUpdate k u W v a b ≤ W a b := by
  unfold fwUpdate
  rw [updm_apply]
  split
  · rcases ‹a = u ∧ b = v› with ⟨rfl, rfl⟩
    exact min_le_left _ _
  · exact le_refl _

theorem fwInnerFold_le (k u : ℕ) (vs : List ℕ) :
    ∀ (W : ℕ → ℕ → Dist) (a b : ℕ),
      (vs.foldl (fwUpdate k u) W) a b ≤ W a b := by
  induction vs with
  | nil => intro W a b; exact le_refl _
  | cons v vs ih =>
    intro W a b
    exact le_trans (ih (fwUpdate k u W v) a b) (fwUpdate_le k u W v a b)

theorem fwRound_le (n k : ℕ) :
    ∀ (us : List ℕ) (W : ℕ → ℕ → Dist) (a b : ℕ),
      (us.foldl (fun W' u => (List.range n).foldl (fwUpdate k u) W') W) a b ≤
        W a b := by
  intro us
  induction us with
  | nil => intro W a b; exact le_refl _
  | cons u us ih =>
    intro W a b
    exact le_trans (ih _ a b) (fwInnerFold_le k u (List.range n) W a b)

theorem fwInnerFold_cell (k u : ℕ) (vs : List ℕ) :
    ∀ (W : ℕ → ℕ → Dist) (v : ℕ), v ∈ vs →
      (vs.foldl (fwUpdate k u) W) u v ≤ W u k + W k v := by
  induction vs with
  | nil => intro W v h; exact absurd h (List.not_mem_nil v)
  | cons v0 vs ih =>
    intro W v hv
    rcases List.mem_cons.1 hv with rfl | hv
    · refine le_trans (fwInnerFold_le k u vs (fwUpdate k u W v) u v) ?_
      unfold fwUpdate
      rw [updm_same]
      exact min_le_right _ _
    · refine le_trans (ih (fwUpdate k u W v0) v hv) ?_
      exact add_le_add (fwUpdate_le k u W v0 u k) (fwUpdate_le k u W v0 k v)

theorem fwRound_cell (n k : ℕ) (us : List ℕ) :
    ∀ (W : ℕ → ℕ → Dist) (u v : ℕ), u ∈ us → v ∈ List.range n →
      (us.foldl (fun W' u' => (List.range n).foldl (fwUpdate k u') W') W) u v ≤
        W u k + W k v := by
  induction us with
  | nil => intro W u v h; exact absurd h (List.not_mem_nil u)
  | cons u0 us ih =>
    intro W u v hu hv
    rcases List.mem_cons.1 hu with rfl | hu
    · refine le_trans (fwRound_le n k us _ u v) ?_
      exact fwInnerFold_cell k u (List.range n) W v hv
    · refine le_trans (ih _ u v hu hv) ?_
      exact add_le_add (fwInnerFold_le k u0 (List.range n) W u k)
        (fwInnerFold_le k u0 (List.range n) W k v)

theorem fwMatrix_le (n : ℕ) (W : ℕ → ℕ → Dist) (a b : ℕ) :
    fwMatrix n W a b ≤ W a b := by
  unfold fwMatrix
  generalize List.range n = ks
  induction ks generalizing W with
  | nil => exact le_refl _
  | cons k ks ih =>
    exact le_trans (ih (fwRound n k W)) (fwRound_le n k (List.range n) W a b)

theorem realizes_self (n : ℕ) (W0 : ℕ → ℕ → Dist) : Realizes n W0 W0 :=
  fun a b => Or.inl ⟨[], by simp, rfl⟩

theorem fwUpdate_realizes {n : ℕ} {W0 W' : ℕ → ℕ → Dist} (k u v : ℕ)
    (hk : k < n) (h : Realizes n W0 W') :
    Realizes n W0 (fwUpdate k u W' v) := by
  intro a b
  by_cases hab : a = u ∧ b = v
  · obtain ⟨rfl, rfl⟩ := hab
    show (∃ mid, _ ∧ fwUpdate k a W' b a b = _) ∨ (_ ∧ fwUpdate k a W' b a b = _)
    unfold fwUpdate
    rw [updm_same]
    rcases min_choice (W' a b) (W' a k + W' k b) with hmin | hmin
    · rcases h a b with ⟨mid, hb, heq⟩ | ⟨he, h0⟩
      · exact Or.inl ⟨mid, hb, hmin.trans heq⟩
      · exact Or.inr ⟨he, hmin.trans h0⟩
    · rcases h a k with ⟨m1, hb1, e1⟩ | ⟨hek, e01⟩
      · rcases h k b with ⟨m2, hb2, e2⟩ | ⟨hev, e02⟩
        · refine Or.inl ⟨m1 ++ k :: m2, ?_, ?_⟩
          · intro x hx
            rcases List.mem_append.1 hx with hx | hx
            · exact hb1 x hx
            · rcases List.mem_cons.1 hx with rfl | hx
              · exact hk
              · exact hb2 x hx
          · rw [walkCost_append W0 k b m1 a m2, hmin, e1, e2]
        · subst hev
          refine Or.inl ⟨m1, hb1, ?_⟩
          rw [hmin, e1, e02, add_zero]
      · subst hek
        rcases h a b with ⟨m2, hb2, e2⟩ | ⟨hev, e02⟩
        · refine Or.inl ⟨m2, hb2, ?_⟩
          rw [hmin, e01, e2, zero_add]
        · refine Or.inr ⟨hev, ?_⟩
          rw [hmin, e01, e02, zero_add]
  · show (∃ mid, _ ∧ fwUpdate k u W' v a b = _) ∨ (_ ∧ fwUpdate k u W' v a b = _)
    unfold fwUpdate
    rw [updm_other _ _ _ _ _ _ hab]
    exact h a b

theorem fwInnerFold_realizes {n : ℕ} {W0 : ℕ → ℕ → Dist} (k u : ℕ)
    (hk : k < n) (vs : List ℕ) :
    ∀ W', Realizes n W0 W' → Realizes n W0 (vs.foldl (fwUpdate k u) W') := by
  induction vs with
  | nil => intro W' h; exact h
  | cons v vs ih =>
    intro W' h
    exact ih (fwUpdate k u W' v) (fwUpdate_realizes k u v hk h)

theorem fwRoundFold_realizes {n : ℕ} {W0 : ℕ → ℕ → Dist} (k : ℕ)
    (hk : k < n) :
    ∀ (us : List ℕ) (W' : ℕ → ℕ → Dist), Realizes n W0 W' →
      Realizes n W0
        (us.foldl (fun W'' u => (List.range n).foldl (fwUpdate k u) W'') W') := by
  intro us
  induction us with
  | nil => intro W' h; exact h
  | cons u us ih =>
    intro W' h
    exact ih _ (fwInnerFold_realizes k u hk (List.range n) W' h)

theorem fwRound_realizes {n : ℕ} {W0 : ℕ → ℕ → Dist} (k : ℕ) (hk : k < n) :
    ∀ W', Realizes n W0 W' → Realizes n W0 (fwRound n k W') :=
  fun W' h => fwRoundFold_realizes k hk (List.range n) W' h

theorem fwFold_realizes (n : ℕ) (W0 : ℕ → ℕ → Dist) :
    ∀ (ks : List ℕ), (∀ k ∈ ks, k < n) →
      ∀ W', Realizes n W0 W' →
        Realizes n W0 (ks.foldl (fun W'' k => fwRound n k W'') W') := by
  intro ks
  induction ks with
  | nil => intro _ W' h; exact h
  | cons k ks ih =>
    intro hks W' h
    exact ih (fun x hx => hks x (List.mem_cons_of_mem _ hx)) _
      (fwRound_realizes k (hks k (List.mem_cons_self _ _)) W' h)

theorem fwMatrix_realizes (n : ℕ) (W0 : ℕ → ℕ → Dist) :
    Realizes n W0 (fwMatrix n W0) :=
  fwFold_realizes n W0 (List.range n) (fun _ hk => List.mem_range.1 hk) W0
    (realizes_self n W0)

/-- Lower-bound invariant of the outer `for k in V` loop: folding the rounds
for the intermediate vertices `ks` over a matrix that already bounds all
duplicate-free walks with intermediates satisfying `P` yields a matrix that
bounds all duplicate-free walks with intermediates satisfying `P` or lying
in `ks`. -/
theorem fwFold_LB (n : ℕ) (W0 : ℕ → ℕ → Dist) :
    ∀ (ks : List ℕ) (P : ℕ → Prop) (W' : ℕ → ℕ → Dist),
      (∀ k ∈ ks, k < n) →
      (∀ u v, u < n → v < n → ∀ mid, mid.Nodup → (∀ x ∈ mid, P x) →
        W' u v ≤ walkCost W0 u mid v) →
      ∀ u v, u < n → v < n → ∀ mid, mid.Nodup →
        (∀ x ∈ mid, P x ∨ x ∈ ks) →
        (ks.foldl (fun W'' k => fwRound n k W'') W') u v ≤
          walkCost W0 u mid v := by
  intro ks
  induction ks with
  | nil =>
    intro P W' _ hinv u v hu hv mid hnd hP
    refine hinv u v hu hv mid hnd ?_
    intro x hx
    rcases hP x hx with h | h
    · exact h
    · exact absurd h (List.not_mem_nil x)
  | cons j ks ih =>
    intro P W' hks hinv u v hu hv mid hnd hP
    have hj : j < n := hks j (List.mem_cons_self _ _)
    rw [List.foldl_cons]
    have hinv1 : ∀ a b, a < n → b < n → ∀ mid', mid'.Nodup →
        (∀ x ∈ mid', P x ∨ x = j) →
        fwRound n j W' a b ≤ walkCost W0 a mid' b := by
      intro a b ha hb mid' hnd' hP'
      by_cases hjm : j ∈ mid'
      · obtain ⟨m1, m2, rfl⟩ := List.append_of_mem hjm
        have hnds := List.nodup_append.1 hnd'
        have hjm1 : j ∉ m1 := fun hc =>
          hnds.2.2 hc (List.mem_cons_self _ _)
        have hm2 := List.nodup_cons.1 hnds.2.1
        have h1 : W' a j ≤ walkCost W0 a m1 j := by
          refine hinv a j ha hj m1 hnds.1 ?_
          intro x hx
          rcases hP' x (List.mem_append_left _ hx) with h | h
          · exact h
          · exact absurd (h ▸ hx) hjm1
        have h2 : W' j b ≤ walkCost W0 j m2 b := by
          refine hinv j b hj hb m2 hm2.2 ?_
          intro x hx
          rcases hP' x (List.mem_append_right _ (List.mem_cons_of_mem _ hx))
            with h | h
          · exact h
          · exact absurd (h ▸ hx) hm2.1
        calc fwRound n j W' a b ≤ W' a j + W' j b :=
              fwRound_cell n j (List.range n) W' a b
                (List.mem_range.2 ha) (List.mem_range.2 hb)
          _ ≤ walkCost W0 a m1 j + walkCost W0 j m2 b := add_le_add h1 h2
          _ = walkCost W0 a (m1 ++ j :: m2) b :=
              (walkCost_append W0 j b m1 a m2).symm
      · refine le_trans (fwRound_le n j (List.range n) W' a b) ?_
        refine hinv a b ha hb mid' hnd' ?_
        intro x hx
        rcases hP' x hx with h | h
        · exact h
        · exact absurd (h ▸ hx) hjm
    refine ih (fun x => P x ∨ x = j) (fwRound n j W')
      (fun x hx => hks x (List.mem_cons_of_mem _ hx)) hinv1 u v hu hv mid hnd ?_
    intro x hx
    rcases hP x hx with h | h
    · exact Or.inl (Or.inl h)
    · rcases List.mem_cons.1 h with rfl | h
      · exact Or.inl (Or.inr rfl)
      · exact Or.inr h

/-- After the triple loop, every entry bounds every duplicate-free walk. -/
theorem fwMatrix_LB (n : ℕ) (W0 : ℕ → ℕ → Dist) :
    ∀ u v, u < n → v < n → ∀ mid, mid.Nodup → (∀ x ∈ mid, x < n) →
      fwMatrix n W0 u v ≤ walkCost W0 u mid v := by
  intro u v hu hv mid hnd hb
  refine fwFold_LB n W0 (List.range n) (fun _ => False) W0
    (fun k hk => List.mem_range.1 hk) ?_ u v hu hv mid hnd ?_
  · intro a b _ _ mid' _ hF
    cases mid' with
    | nil => exact le_refl _
    | cons y m => exact absurd (hF y (List.mem_cons_self _ _)) id
  · intro x hx
    exact Or.inr (List.mem_range.2 (hb x hx))

/-- Cycle removal: with no negative cycle, every walk is dominated by a
duplicate-free walk with the same endpoints. -/
theorem walk_to_nodup (n : ℕ) (W0 : ℕ → ℕ → Dist) (hnc : ¬NegCycle n W0) :
    ∀ (L : ℕ) (u v : ℕ) (mid : List ℕ), mid.length ≤ L →
      (∀ x ∈ mid, x < n) →
      ∃ mid', mid'.Nodup ∧ (∀ x ∈ mid', x < n) ∧
        walkCost W0 u mid' v ≤ walkCost W0 u mid v := by
  intro L
  induction L with
  | zero =>
    intro u v mid hlen hb
    rw [List.length_eq_zero.1 (Nat.le_zero.1 hlen)]
    exact ⟨[], List.nodup_nil, by simp, le_refl _⟩
  | succ L ih =>
    intro u v mid hlen hb
    by_cases hnd : mid.Nodup
    · exact ⟨mid, hnd, hb, le_refl _⟩
    · obtain ⟨x, m1, m2, m3, rfl⟩ := exists_dup_split hnd
      have hform : m1 ++ x :: m2 ++ x :: m3 = m1 ++ x :: (m2 ++ x :: m3) := by
        simp
      rw [hform] at hb hlen ⊢
      have hx : x < n := hb x
        (List.mem_append_right _ (List.mem_cons_self _ _))
      have hb2 : ∀ y ∈ m2, y < n := fun y hy => hb y
        (List.mem_append_right _ (List.mem_cons_of_mem _
          (List.mem_append_left _ hy)))
      have hge : (0 : Dist) ≤ walkCost W0 x m2 x := by
        by_contra hc
        exact hnc (negWalk_negCycle n W0 m2.length x m2 (le_refl _) hx hb2
          (not_le.1 hc))
      have hlens : m1.length + m2.length + m3.length + 2 ≤ L + 1 := by
        simp only [List.length_append, List.length_cons] at hlen
        omega
      have hshort : walkCost W0 u (m1 ++ x :: m3) v ≤
          walkCost W0 u (m1 ++ x :: (m2 ++ x :: m3)) v := by
        rw [walkCost_append W0 x v m1 u m3,
          walkCost_append W0 x v m1 u (m2 ++ x :: m3),
          walkCost_append W0 x v m2 x m3]
        exact add_le_add_left (le_add_of_nonneg_left hge) _
      obtain ⟨mid', hnd', hb', hle⟩ := ih u v (m1 ++ x :: m3)
        (by simp only [List.length_append, List.length_cons]; omega)
        (by
          intro y hy
          rcases List.mem_append.1 hy with hy | hy
          · exact hb y (List.mem_append_left _ hy)
          · rcases List.mem_cons.1 hy with rfl | hy
            · exact hx
            · exact hb y (List.mem_append_right _
                (List.mem_cons_of_mem _ (List.mem_append_right _
                  (List.mem_cons_of_mem _ hy)))))
      exact ⟨mid', hnd', hb', le_trans hle hshort⟩

theorem walkCost_nonneg {W : ℕ → ℕ → Dist} (h : ∀ a b, 0 ≤ W a b) :
    ∀ (mid : List ℕ) (u v : ℕ), 0 ≤ walkCost W u mid v := by
  intro mid
  induction mid with
  | nil => intro u v; exact h u v
  | cons x m ih =>
    intro u v
    exact add_nonneg (h u x) (ih x v)

/-- A matrix with no negative entry has no negative cycle. -/
theorem negCycle_not_of_nonneg {n : ℕ} {W : ℕ → ℕ → Dist}
    (h : ∀ a b, 0 ≤ W a b) : ¬NegCycle n W := by
  rintro ⟨v, _, mid, _, _, hneg⟩
  exact absurd hneg (not_lt_of_le (walkCost_nonneg h mid v v))

/-- C3: on an `n×n` matrix with zero diagonal and `⊤` as the no-edge
sentinel, if the encoded graph has no negative cycle then after
`floyd_warshall` the entry `(u, v)` is a lower bound of the cost of every
walk from `u` to `v`, is itself the cost of such a walk (or `0` for
`u = v`), and diagonal entries are exactly `0`; i.e. it is the shortest-path
distance, `⊤` when `v` is unreachable from `u`. -/
theorem floyd_warshall_computes_shortest_paths (n : ℕ) (W : ℕ → ℕ → Dist)
    (hdiag : ∀ v < n, W v v = 0) (hnc : ¬NegCycle n W) :
    ∀ u v, u < n → v < n →
      (∀ mid, (∀ x ∈ mid, x < n) →
        (floyd_warshall n W).2 u v ≤ walkCost W u mid v) ∧
      ((∃ mid, (∀ x ∈ mid, x < n) ∧
        (floyd_warshall n W).2 u v = walkCost W u mid v) ∨
       (u = v ∧ (floyd_warshall n W).2 u v = 0)) ∧
      (u = v → (floyd_warshall n W).2 u v = 0) := by
  intro u v hu hv
  have hsnd : (floyd_warshall n W).2 = fwMatrix n W := rfl
  refine ⟨?_, ?_, ?_⟩
  · intro mid hb
    obtain ⟨mid', hnd', hb', hle⟩ :=
      walk_to_nodup n W hnc mid.length u v mid (le_refl _) hb
    rw [hsnd]
    exact le_trans (fwMatrix_LB n W u v hu hv mid' hnd' hb') hle
  · rw [hsnd]
    exact fwMatrix_realizes n W u v
  · rintro rfl
    rw [hsnd]
    refine le_antisymm ?_ ?_
    · calc fwMatrix n W u u ≤ W u u := fwMatrix_le n W u u
        _ = 0 := hdiag u hu
    · rcases fwMatrix_realizes n W u u with ⟨mid, hb, heq⟩ | ⟨_, h0⟩
      · rw [heq]
        by_contra hc
        exact hnc (negWalk_negCycle n W mid.length u mid (le_refl _) hu hb
          (not_le.1 hc))
      · rw [h0]

/-- Witness for C3 on the concrete 2×2 matrix with zero diagonal and weight
`1` off the diagonal. -/
theorem floyd_warshall_computes_shortest_paths_witness :
    (∀ mid, (∀ x ∈ mid, x < 2) →
      (floyd_warshall 2 fun a b => if a = b then 0 else 1).2 0 1 ≤
        walkCost (fun a b => if a = b then 0 else 1) 0 mid 1) ∧
    ((∃ mid, (∀ x ∈ mid, x < 2) ∧
      (floyd_warshall 2 fun a b => if a = b then 0 else 1).2 0 1 =
        walkCost (fun a b => if a = b then 0 else 1) 0 mid 1) ∨
     ((0 : ℕ) = 1 ∧
      (floyd_warshall 2 fun a b => if a = b then 0 else 1).2 0 1 = 0)) ∧
    ((0 : ℕ) = 1 →
      (floyd_warshall 2 fun a b => if a = b then 0 else 1).2 0 1 = 0) :=
  floyd_warshall_computes_shortest_paths 2 (fun a b => if a = b then 0 else 1)
    (by decide)
    (negCycle_not_of_nonneg (by
      intro a b
      show (0 : Dist) ≤ if a = b then 0 else 1
      split <;> decide))
    0 1 (by decide) (by decide)

/-- C4: `floyd_warshall` returns `True` iff the encoded graph contains a
negative cycle; in particular it returns `True` on the two-vertex matrix
with `0→1 = 1` and `1→0 = -2`. -/
theorem floyd_warshall_detects_negative_cycles (n : ℕ) (W : ℕ → ℕ → Dist)
    (_hdiag : ∀ v < n, W v v = 0) :
    ((floyd_warshall n W).1 = true ↔ NegCycle n W) ∧
    (floyd_warshall 2 fwNegExample).1 = true := by
  constructor
  · constructor
    · intro hflag
      obtain ⟨v, hv, hlt⟩ : ∃ v ∈ List.range n, fwMatrix n W v v < 0 := by
        simpa [floyd_warshall, List.any_eq_true] using hflag
      rcases fwMatrix_realizes n W v v with ⟨mid, hb, heq⟩ | ⟨_, h0⟩
      · exact negWalk_negCycle n W mid.length v mid (le_refl _)
          (List.mem_range.1 hv) hb (heq ▸ hlt)
      · rw [h0] at hlt
        exact absurd hlt (lt_irrefl 0)
    · rintro ⟨v, hv, mid, hb, hnd, hneg⟩
      have hle : fwMatrix n W v v ≤ walkCost W v mid v :=
        fwMatrix_LB n W v v hv hv mid (List.nodup_cons.1 hnd).2 hb
      have : fwMatrix n W v v < 0 := lt_of_le_of_lt hle hneg
      show ((List.range n).any fun x => decide (fwMatrix n W x x < 0)) = true
      rw [List.any_eq_true]
      exact ⟨v, List.mem_range.2 hv, decide_eq_true this⟩
  · decide

/-- Witness for C4 at the scenario-4 matrix itself (`n = 2`). -/
theorem floyd_warshall_detects_negative_cycles_witness :
    (((floyd_warshall 2 fwNegExample).1 = true ↔ NegCycle 2 fwNegExample) ∧
      (floyd_warshall 2 fwNegExample).1 = true) :=
  floyd_warshall_detects_negative_cycles 2 fwNegExample (by decide)

theorem flowUpd_uv {f : ℕ → ℕ → ℤ} {u v : ℕ} (huv : u ≠ v) (d : ℤ) :
    flowUpd f u v d u v = f u v + d := by
  unfold flowUpd
  rw [updm_other _ _ _ _ _ _ (fun hc => huv hc.1)]
  exact updm_same _ _ _ _

theorem flowUpd_vu {f : ℕ → ℕ → ℤ} {u v : ℕ} (huv : u ≠ v) (d : ℤ) :
    flowUpd f u v d v u = f v u - d := by
  unfold flowUpd
  rw [updm_same, updm_other _ _ _ _ _ _ (fun hc => huv hc.2)]

theorem flowUpd_other {f : ℕ → ℕ → ℤ} {u v a b : ℕ} (d : ℤ)
    (h1 : ¬(a = u ∧ b = v)) (h2 : ¬(a = v ∧ b = u)) :
    flowUpd f u v d a b = f a b := by
  unfold flowUpd
  rw [updm_other _ _ _ _ _ _ h2, updm_other _ _ _ _ _ _ h1]

theorem ffAugList_cons (cap : ℕ → ℕ → ℤ) (aug) (v : ℕ) (rest : List ℕ)
    (val : Dist) (u : ℕ) (flow : ℕ → ℕ → ℤ) (visit : ℕ → Bool) :
    ffAugList cap aug (v :: rest) val u flow visit =
      if visit v = false ∧ flow u v < cap u v then
        if 0 < (aug (min val ((cap u v - flow u v : ℤ) : Dist)) v flow visit).1
        then
          ((aug (min val ((cap u v - flow u v : ℤ) : Dist)) v flow visit).1,
           flowUpd
             (aug (min val ((cap u v - flow u v : ℤ) : Dist)) v flow visit).2.1
             u v
             ((aug (min val ((cap u v - flow u v : ℤ) : Dist)) v
               flow visit).1.untop' 0),
           (aug (min val ((cap u v - flow u v : ℤ) : Dist)) v flow visit).2.2)
        else ffAugList cap aug rest val u
          (aug (min val ((cap u v - flow u v : ℤ) : Dist)) v flow visit).2.1
          (aug (min val ((cap u v - flow u v : ℤ) : Dist)) v flow visit).2.2
      else ffAugList cap aug rest val u flow visit := rfl

theorem ffAug_zero (g : List (List ℕ)) (cap : ℕ → ℕ → ℤ) (t : ℕ)
    (val : Dist) (u : ℕ) (flow : ℕ → ℕ → ℤ) (visit : ℕ → Bool) :
    ffAug g cap t 0 val u flow visit =
      if u = t then (val, flow, updf visit u true)
      else (0, flow, updf visit u true) := rfl

theorem ffAug_succ (g : List (List ℕ)) (cap : ℕ → ℕ → ℤ) (t : ℕ) (fuel : ℕ)
    (val : Dist) (u : ℕ) (flow : ℕ → ℕ → ℤ) (visit : ℕ → Bool) :
    ffAug g cap t (fuel + 1) val u flow visit =
      if u = t then (val, flow, updf visit u true)
      else ffAugList cap (ffAug g cap t fuel) (g.getD u []) val u flow
        (updf visit u true) := rfl

theorem updf_bool_mono {visit : ℕ → Bool} {u x : ℕ} (h : visit x = true) :
    updf visit u true x = true := by
  rw [updf_apply]
  split
  · rfl
  · exact h

theorem ffAugList_visit_mono (cap : ℕ → ℕ → ℤ) (aug)
    (haug : ∀ val v flow visit x, visit x = true →
      (aug val v flow visit).2.2 x = true) :
    ∀ (l : List ℕ) val u flow visit x, visit x = true →
      (ffAugList cap aug l val u flow visit).2.2 x = true := by
  intro l
  induction l with
  | nil => intro val u flow visit x hx; exact hx
  | cons v rest ih =>
    intro val u flow visit x hx
    rw [ffAugList_cons]
    by_cases hguard : visit v = false ∧ flow u v < cap u v
    · rw [if_pos hguard]
      by_cases hpos :
        0 < (aug (min val ((cap u v - flow u v : ℤ) : Dist)) v flow visit).1
      · rw [if_pos hpos]
        exact haug _ _ _ _ _ hx
      · rw [if_neg hpos]
        exact ih _ _ _ _ _ (haug _ _ _ _ _ hx)
    · rw [if_neg hguard]
      exact ih _ _ _ _ _ hx

theorem ffAug_visit_mono (g : List (List ℕ)) (cap : ℕ → ℕ → ℤ) (t : ℕ) :
    ∀ fuel val u flow visit x, visit x = true →
      (ffAug g cap t fuel val u flow visit).2.2 x = true := by
  intro fuel
  induction fuel with
  | zero =>
    intro val u flow visit x hx
    rw [ffAug_zero]
    split
    · exact updf_bool_mono hx
    · exact updf_bool_mono hx
  | succ fuel ih =>
    intro val u flow visit x hx
    rw [ffAug_succ]
    split
    · exact updf_bool_mono hx
    · exact ffAugList_visit_mono cap _
        (fun val' v' flow' visit' x' hx' => ih val' v' flow' visit' x' hx')
        _ _ _ _ _ _ (updf_bool_mono hx)

theorem ffAugList_fail (cap : ℕ → ℕ → ℤ) (aug)
    (haug : ∀ val v flow visit, ¬(0 < (aug val v flow visit).1) →
      (aug val v flow visit).2.1 = flow) :
    ∀ (l : List ℕ) val u flow visit,
      ¬(0 < (ffAugList cap aug l val u flow visit).1) →
      (ffAugList cap aug l val u flow visit).2.1 = flow := by
  intro l
  induction l with
  | nil => intro val u flow visit _; rfl
  | cons v rest ih =>
    intro val u flow visit hneg
    rw [ffAugList_cons] at hneg ⊢
    by_cases hguard : visit v = false ∧ flow u v < cap u v
    · rw [if_pos hguard] at hneg ⊢
      by_cases hpos :
        0 < (aug (min val ((cap u v - flow u v : ℤ) : Dist)) v flow visit).1
      · rw [if_pos hpos] at hneg
        exact absurd hpos hneg
      · rw [if_neg hpos] at hneg ⊢
        rw [ih _ _ _ _ hneg]
        exact haug _ _ _ _ hpos
    · rw [if_neg hguard] at hneg ⊢
      exact ih _ _ _ _ hneg

theorem ffAug_fail (g : List (List ℕ)) (cap : ℕ → ℕ → ℤ) (t : ℕ) :
    ∀ fuel val u flow visit,
      ¬(0 < (ffAug g cap t fuel val u flow visit).1) →
      (ffAug g cap t fuel val u flow visit).2.1 = flow := by
  intro fuel
  induction fuel with
  | zero =>
    intro val u flow visit _
    rw [ffAug_zero]
    split
    · rfl
    · rfl
  | succ fuel ih =>
    intro val u flow visit hneg
    rw [ffAug_succ] at hneg ⊢
    by_cases ht : u = t
    · rw [if_pos ht]
    · rw [if_neg ht] at hneg ⊢
      exact ffAugList_fail cap _
        (fun val' v' flow' visit' h' => ih val' v' flow' visit' h') _ _ _ _ _
        hneg

theorem ffAugList_untouched (cap : ℕ → ℕ → ℤ) (aug)
    (haugV : ∀ val v flow visit x, visit x = true →
      (aug val v flow visit).2.2 x = true)
    (haugD : ∀ val v flow visit, visit v = false →
      ∀ a b, visit a = true ∨ visit b = true →
        (aug val v flow visit).2.1 a b = flow a b) :
    ∀ (l : List ℕ) val u flow visit, visit u = true →
      ∀ a b, ((visit a = true ∧ a ≠ u) ∨ (visit b = true ∧ b ≠ u)) →
        (ffAugList cap aug l val u flow visit).2.1 a b = flow a b := by
  intro l
  induction l with
  | nil => intro val u flow visit _ a b _; rfl
  | cons v rest ih =>
    intro val u flow visit hu a b hab
    rw [ffAugList_cons]
    by_cases hguard : visit v = false ∧ flow u v < cap u v
    · rw [if_pos hguard]
      have hweak : visit a = true ∨ visit b = true := by
        rcases hab with ⟨h, _⟩ | ⟨h, _⟩
        · exact Or.inl h
        · exact Or.inr h
      by_cases hpos :
        0 < (aug (min val ((cap u v - flow u v : ℤ) : Dist)) v flow visit).1
      · rw [if_pos hpos]
        show flowUpd _ u v _ a b = flow a b
        have hne1 : ¬(a = u ∧ b = v) := by
          rintro ⟨rfl, rfl⟩
          rcases hab with ⟨_, hne⟩ | ⟨hb, _⟩
          · exact hne rfl
          · rw [hguard.1] at hb
            exact Bool.false_ne_true hb
        have hne2 : ¬(a = v ∧ b = u) := by
          rintro ⟨rfl, rfl⟩
          rcases hab with ⟨ha, _⟩ | ⟨_, hne⟩
          · rw [hguard.1] at ha
            exact Bool.false_ne_true ha
          · exact hne rfl
        rw [flowUpd_other _ hne1 hne2]
        exact haugD _ _ _ _ hguard.1 a b hweak
      · rw [if_neg hpos]
        have hmono : ∀ x, visit x = true →
            (aug (min val ((cap u v - flow u v : ℤ) : Dist)) v flow
              visit).2.2 x = true := fun x hx => haugV _ _ _ _ x hx
        have hab' : ((aug (min val ((cap u v - flow u v : ℤ) : Dist)) v flow
              visit).2.2 a = true ∧ a ≠ u) ∨
            ((aug (min val ((cap u v - flow u v : ℤ) : Dist)) v flow
              visit).2.2 b = true ∧ b ≠ u) := by
          rcases hab with ⟨h, hne⟩ | ⟨h, hne⟩
          · exact Or.inl ⟨hmono a h, hne⟩
          · exact Or.inr ⟨hmono b h, hne⟩
        rw [ih _ _ _ _ (hmono u hu) a b hab']
        exact haugD _ _ _ _ hguard.1 a b hweak
    · rw [if_neg hguard]
      exact ih _ _ _ _ hu a b hab

theorem ffAug_untouched (g : List (List ℕ)) (cap : ℕ → ℕ → ℤ) (t : ℕ) :
    ∀ fuel val u flow visit, visit u = false →
      ∀ a b, (visit a = true ∨ visit b = true) →
        (ffAug g cap t fuel val u flow visit).2.1 a b = flow a b := by
  intro fuel
  induction fuel with
  | zero =>
    intro val u flow visit _ a b _
    rw [ffAug_zero]
    split
    · rfl
    · rfl
  | succ fuel ih =>
    intro val u flow visit hu a b hab
    rw [ffAug_succ]
    split
    · rfl
    · refine ffAugList_untouched cap _
        (fun val' v' flow' visit' x hx =>
          ffAug_visit_mono g cap t fuel val' v' flow' visit' x hx)
        (fun val' v' flow' visit' hv' a' b' hab' =>
          ih val' v' flow' visit' hv' a' b' hab')
        _ _ _ _ _ (updf_same _ _ _) a b ?_
      rcases hab with h | h
      · refine Or.inl ⟨updf_bool_mono h, ?_⟩
        rintro rfl
        rw [hu] at h
        exact Bool.false_ne_true h
      · refine Or.inr ⟨updf_bool_mono h, ?_⟩
        rintro rfl
        rw [hu] at h
        exact Bool.false_ne_true h

theorem flowUpd_antisym {f : ℕ → ℕ → ℤ} (h : ∀ a b, f b a = -f a b)
    {u v : ℕ} (huv : u ≠ v) (d : ℤ) :
    ∀ a b, flowUpd f u v d b a = -flowUpd f u v d a b := by
  intro a b
  by_cases h1 : a = u ∧ b = v
  · obtain ⟨rfl, rfl⟩ := h1
    rw [flowUpd_uv huv, flowUpd_vu huv, h a b]
    ring
  · by_cases h2 : a = v ∧ b = u
    · obtain ⟨rfl, rfl⟩ := h2
      rw [flowUpd_uv huv, flowUpd_vu huv, h b a]
      ring
    · have h1' : ¬(b = u ∧ a = v) := fun hc => h2 ⟨hc.2, hc.1⟩
      have h2' : ¬(b = v ∧ a = u) := fun hc => h1 ⟨hc.2, hc.1⟩
      rw [flowUpd_other _ h1' h2', flowUpd_other _ h1 h2]
      exact h a b

theorem ffAugList_antisym (cap : ℕ → ℕ → ℤ) (aug)
    (haugV : ∀ val v flow visit x, visit x = true →
      (aug val v flow visit).2.2 x = true)
    (haugA : ∀ val v flow visit, (∀ a b, flow b a = -flow a b) →
      ∀ a b, (aug val v flow visit).2.1 b a = -(aug val v flow visit).2.1 a b) :
    ∀ (l : List ℕ) val u flow visit, visit u = true →
      (∀ a b, flow b a = -flow a b) →
      ∀ a b, (ffAugList cap aug l val u flow visit).2.1 b a =
        -(ffAugList cap aug l val u flow visit).2.1 a b := by
  intro l
  induction l with
  | nil => intro val u flow visit _ hA a b; exact hA a b
  | cons v rest ih =>
    intro val u flow visit hu hA a b
    rw [ffAugList_cons]
    by_cases hguard : visit v = false ∧ flow u v < cap u v
    · rw [if_pos hguard]
      have huv : u ≠ v := by
        rintro rfl
        rw [hguard.1] at hu
        exact Bool.false_ne_true hu
      by_cases hpos :
        0 < (aug (min val ((cap u v - flow u v : ℤ) : Dist)) v flow visit).1
      · rw [if_pos hpos]
        exact flowUpd_antisym (haugA _ _ _ _ hA) huv _ a b
      · rw [if_neg hpos]
        exact ih _ _ _ _ (haugV _ _ _ _ _ hu) (haugA _ _ _ _ hA) a b
    · rw [if_neg hguard]
      exact ih _ _ _ _ hu hA a b

theorem ffAug_antisym (g : List (List ℕ)) (cap : ℕ → ℕ → ℤ) (t : ℕ) :
    ∀ fuel val u flow visit, (∀ a b, flow b a = -flow a b) →
      ∀ a b, (ffAug g cap t fuel val u flow visit).2.1 b a =
        -(ffAug g cap t fuel val u flow visit).2.1 a b := by
  intro fuel
  induction fuel with
  | zero =>
    intro val u flow visit hA a b
    rw [ffAug_zero]
    split
    · exact hA a b
    · exact hA a b
  | succ fuel ih =>
    intro val u flow visit hA a b
    rw [ffAug_succ]
    split
    · exact hA a b
    · exact ffAugList_antisym cap _
        (fun val' v' flow' visit' x hx =>
          ffAug_visit_mono g cap t fuel val' v' flow' visit' x hx)
        (fun val' v' flow' visit' hA' a' b' =>
          ih val' v' flow' visit' hA' a' b')
        _ _ _ _ _ (updf_same _ _ _) hA a b

theorem ffAugList_delta_le (cap : ℕ → ℕ → ℤ) (aug)
    (haugE : ∀ val v flow visit,
      (aug val v flow visit).1 ≤ val ∨ (aug val v flow visit).1 = 0) :
    ∀ (l : List ℕ) val u flow visit,
      (ffAugList cap aug l val u flow visit).1 ≤ val ∨
      (ffAugList cap aug l val u flow visit).1 = 0 := by
  intro l
  induction l with
  | nil => intro val u flow visit; exact Or.inr rfl
  | cons v rest ih =>
    intro val u flow visit
    rw [ffAugList_cons]
    by_cases hguard : visit v = false ∧ flow u v < cap u v
    · rw [if_pos hguard]
      by_cases hpos :
        0 < (aug (min val ((cap u v - flow u v : ℤ) : Dist)) v flow visit).1
      · rw [if_pos hpos]
        rcases haugE (min val ((cap u v - flow u v : ℤ) : Dist)) v flow visit
          with h | h
        · exact Or.inl (le_trans h (min_le_left _ _))
        · exact Or.inr h
      · rw [if_neg hpos]
        exact ih _ _ _ _
    · rw [if_neg hguard]
      exact ih _ _ _ _

theorem ffAug_delta_le (g : List (List ℕ)) (cap : ℕ → ℕ → ℤ) (t : ℕ) :
    ∀ fuel val u flow visit,
      (ffAug g cap t fuel val u flow visit).1 ≤ val ∨
      (ffAug g cap t fuel val u flow visit).1 = 0 := by
  intro fuel
  induction fuel with
  | zero =>
    intro val u flow visit
    rw [ffAug_zero]
    split
    · exact Or.inl (le_refl _)
    · exact Or.inr rfl
  | succ fuel ih =>
    intro val u flow visit
    rw [ffAug_succ]
    split
    · exact Or.inl (le_refl _)
    · exact ffAugList_delta_le cap _
        (fun val' v' flow' visit' => ih val' v' flow' visit') _ _ _ _ _

theorem delta_bounds {r : Dist} {c : ℤ} (hpos : 0 < r) (hle : r ≤ (c : Dist)) :
    0 < r.untop' 0 ∧ r.untop' 0 ≤ c ∧ r = ((r.untop' 0 : ℤ) : Dist) := by
  rcases WithTop.le_coe_iff.1 hle with ⟨z, rfl, hz⟩
  rw [WithTop.untop'_coe]
  refine ⟨?_, hz, rfl⟩
  exact_mod_cast hpos

theorem ffAugList_capbound (cap : ℕ → ℕ → ℤ) (aug) (g₁ : List (List ℕ))
    (haugV : ∀ val v flow visit x, visit x = true →
      (aug val v flow visit).2.2 x = true)
    (haugD : ∀ val v flow visit, visit v = false →
      ∀ a b, visit a = true ∨ visit b = true →
        (aug val v flow visit).2.1 a b = flow a b)
    (haugE : ∀ val v flow visit,
      (aug val v flow visit).1 ≤ val ∨ (aug val v flow visit).1 = 0)
    (haugC : ∀ val v flow visit, visit v = false →
      CapBound g₁ cap flow → CapBound g₁ cap (aug val v flow visit).2.1) :
    ∀ (l : List ℕ) val u flow visit, visit u = true →
      CapBound g₁ cap flow →
      CapBound g₁ cap (ffAugList cap aug l val u flow visit).2.1 := by
  intro l
  induction l with
  | nil => intro val u flow visit _ hcb; exact hcb
  | cons v rest ih =>
    intro val u flow visit hu hcb
    rw [ffAugList_cons]
    by_cases hguard : visit v = false ∧ flow u v < cap u v
    · rw [if_pos hguard]
      have huv : u ≠ v := by
        rintro rfl
        rw [hguard.1] at hu
        exact Bool.false_ne_true hu
      by_cases hpos :
        0 < (aug (min val ((cap u v - flow u v : ℤ) : Dist)) v flow visit).1
      · rw [if_pos hpos]
        have hE : (aug (min val ((cap u v - flow u v : ℤ) : Dist)) v flow
            visit).1 ≤ ((cap u v - flow u v : ℤ) : Dist) := by
          rcases haugE (min val ((cap u v - flow u v : ℤ) : Dist)) v flow
            visit with h | h
          · exact le_trans h (min_le_right _ _)
          · rw [h] at hpos
            exact absurd hpos (lt_irrefl 0)
        obtain ⟨hd0, hdle, _⟩ := delta_bounds hpos hE
        have hCB'' := haugC (min val ((cap u v - flow u v : ℤ) : Dist)) v flow
          visit hguard.1 hcb
        intro a b hb
        by_cases h1 : a = u ∧ b = v
        · obtain ⟨rfl, rfl⟩ := h1
          show flowUpd _ a b _ a b ≤ cap a b
          rw [flowUpd_uv huv]
          have huvflow : (aug (min val ((cap a b - flow a b : ℤ) : Dist)) b
              flow visit).2.1 a b = flow a b :=
            haugD _ _ _ _ hguard.1 a b (Or.inl hu)
          rw [huvflow]
          omega
        · by_cases h2 : a = v ∧ b = u
          · obtain ⟨rfl, rfl⟩ := h2
            show flowUpd _ b a _ a b ≤ cap a b
            rw [flowUpd_vu huv]
            have hvuflow : (aug (min val ((cap b a - flow b a : ℤ) : Dist)) a
                flow visit).2.1 a b = flow a b :=
              haugD _ _ _ _ hguard.1 a b (Or.inr hu)
            rw [hvuflow]
            have := hcb a b hb
            omega
          · show flowUpd _ u v _ a b ≤ cap a b
            rw [flowUpd_other _ h1 h2]
            exact hCB'' a b hb
      · rw [if_neg hpos]
        exact ih _ _ _ _ (haugV _ _ _ _ _ hu) (haugC _ _ _ _ hguard.1 hcb)
    · rw [if_neg hguard]
      exact ih _ _ _ _ hu hcb

theorem ffAug_capbound (g : List (List ℕ)) (cap : ℕ → ℕ → ℤ) (t : ℕ)
    (g₁ : List (List ℕ)) :
    ∀ fuel val u flow visit, visit u = false →
      CapBound g₁ cap flow →
      CapBound g₁ cap (ffAug g cap t fuel val u flow visit).2.1 := by
  intro fuel
  induction fuel with
  | zero =>
    intro val u flow visit _ hcb
    rw [ffAug_zero]
    split
    · exact hcb
    · exact hcb
  | succ fuel ih =>
    intro val u flow visit hu hcb
    rw [ffAug_succ]
    split
    · exact hcb
    · exact ffAugList_capbound cap _ g₁
        (fun val' v' flow' visit' x hx =>
          ffAug_visit_mono g cap t fuel val' v' flow' visit' x hx)
        (fun val' v' flow' visit' hv' a' b' hab' =>
          ffAug_untouched g cap t fuel val' v' flow' visit' hv' a' b' hab')
        (fun val' v' flow' visit' => ffAug_delta_le g cap t fuel val' v' flow'
          visit')
        (fun val' v' flow' visit' hv' hcb' => ih val' v' flow' visit' hv' hcb')
        _ _ _ _ _ (updf_same _ _ _) hcb

theorem sum_map_updf (n : ℕ) (f : ℕ → ℤ) (b : ℕ) (x : ℤ) :
    ((List.range n).map fun v => updf f b x v).sum =
      if b < n then ((List.range n).map f).sum - f b + x
      else ((List.range n).map f).sum := by
  induction n with
  | zero => simp
  | succ n ih =>
    rw [List.range_succ, List.map_append, List.map_append, List.sum_append,
      List.sum_append, ih]
    simp only [List.map_cons, List.map_nil, List.sum_cons, List.sum_nil,
      add_zero]
    by_cases h1 : b < n
    · rw [if_pos h1, if_pos (Nat.lt_succ_of_lt h1),
        updf_other f b n x (by omega)]
      ring
    · by_cases h2 : b = n
      · subst h2
        rw [if_neg h1, if_pos (Nat.lt_succ_self b), updf_same]
        ring
      · rw [if_neg h1, if_neg (by omega), updf_other f b n x (by omega)]

theorem rowSum_updm (n : ℕ) (f : ℕ → ℕ → ℤ) (a b : ℕ) (x : ℤ) (c : ℕ) :
    rowSum n (updm f a b x) c =
      if c = a ∧ b < n then rowSum n f c + (x - f a b)
      else rowSum n f c := by
  unfold rowSum
  by_cases hca : c = a
  · subst hca
    have hrow : ∀ v ∈ List.range n, updm f c b x c v = updf (f c) b x v := by
      intro v _
      rw [updm_apply, updf_apply]
      by_cases hv : v = b
      · subst hv
        rw [if_pos ⟨rfl, rfl⟩, if_pos rfl]
      · rw [if_neg (fun hc => hv hc.2), if_neg hv]
    rw [List.map_congr_left hrow, sum_map_updf]
    by_cases hb : b < n
    · rw [if_pos hb, if_pos ⟨rfl, hb⟩]
      ring
    · rw [if_neg hb, if_neg (fun hc => hb hc.2)]
  · have hrow : ∀ v ∈ List.range n, updm f a b x c v = f c v := fun v _ =>
      updm_other _ _ _ _ _ _ (fun hc => hca hc.1)
    rw [List.map_congr_left hrow, if_neg (fun hc => hca hc.1)]

theorem ffAugList_rowsum (cap : ℕ → ℕ → ℤ) (aug) (n t : ℕ)
    (haugV : ∀ val v flow visit x, visit x = true →
      (aug val v flow visit).2.2 x = true)
    (_haugD : ∀ val v flow visit, visit v = false →
      ∀ a b, visit a = true ∨ visit b = true →
        (aug val v flow visit).2.1 a b = flow a b)
    (haugF : ∀ val v flow visit, ¬(0 < (aug val v flow visit).1) →
      (aug val v flow visit).2.1 = flow)
    (haugS : ∀ val v flow visit, visit v = false → v < n →
      0 < (aug val v flow visit).1 →
      ∀ x, rowSum n (aug val v flow visit).2.1 x =
        rowSum n flow x +
          (if x = v then (aug val v flow visit).1.untop' 0 else 0) -
          (if x = t then (aug val v flow visit).1.untop' 0 else 0)) :
    ∀ (l : List ℕ), (∀ v ∈ l, v < n) →
      ∀ val u flow visit, visit u = true → u < n → u ≠ t →
        0 < (ffAugList cap aug l val u flow visit).1 →
        ∀ x, rowSum n (ffAugList cap aug l val u flow visit).2.1 x =
          rowSum n flow x +
            (if x = u then (ffAugList cap aug l val u flow visit).1.untop' 0
             else 0) -
            (if x = t then (ffAugList cap aug l val u flow visit).1.untop' 0
             else 0) := by
  intro l
  induction l with
  | nil =>
    intro _ val u flow visit _ _ _ hpos
    exact absurd hpos (lt_irrefl 0)
  | cons v rest ih =>
    intro hvl val u flow visit hu hun hut hpos x
    rw [ffAugList_cons] at hpos ⊢
    by_cases hguard : visit v = false ∧ flow u v < cap u v
    · rw [if_pos hguard] at hpos ⊢
      have huv : u ≠ v := by
        rintro rfl
        rw [hguard.1] at hu
        exact Bool.false_ne_true hu
      by_cases hp :
        0 < (aug (min val ((cap u v - flow u v : ℤ) : Dist)) v flow visit).1
      · rw [if_pos hp] at hpos ⊢
        have hS := haugS (min val ((cap u v - flow u v : ℤ) : Dist)) v flow
          visit hguard.1 (hvl v (List.mem_cons_self _ _)) hp x
        show rowSum n (flowUpd _ u v _) x = _
        unfold flowUpd
        rw [rowSum_updm, rowSum_updm]
        rw [updm_other _ _ _ _ _ _ (fun hc => huv hc.2)]
        rw [hS]
        have hvn : v < n := hvl v (List.mem_cons_self _ _)
        dsimp only
        split_ifs <;> omega
      · rw [if_neg hp] at hpos ⊢
        have hflowkeep :
            (aug (min val ((cap u v - flow u v : ℤ) : Dist)) v flow
              visit).2.1 = flow :=
          haugF _ _ _ _ hp
        have hres := ih (fun w hw => hvl w (List.mem_cons_of_mem _ hw)) val u
          (aug (min val ((cap u v - flow u v : ℤ) : Dist)) v flow visit).2.1
          (aug (min val ((cap u v - flow u v : ℤ) : Dist)) v flow visit).2.2
          (haugV _ _ _ _ _ hu) hun hut hpos x
        rw [hres, hflowkeep]
    · rw [if_neg hguard] at hpos ⊢
      exact ih (fun w hw => hvl w (List.mem_cons_of_mem _ hw)) val u flow
        visit hu hun hut hpos x

theorem ffAug_rowsum (g : List (List ℕ)) (cap : ℕ → ℕ → ℤ) (t n : ℕ)
    (hg : ∀ a, ∀ b ∈ g.getD a [], b < n) :
    ∀ fuel val u flow visit, visit u = false → u < n →
      0 < (ffAug g cap t fuel val u flow visit).1 →
      ∀ x, rowSum n (ffAug g cap t fuel val u flow visit).2.1 x =
        rowSum n flow x +
          (if x = u then (ffAug g cap t fuel val u flow visit).1.untop' 0
           else 0) -
          (if x = t then (ffAug g cap t fuel val u flow visit).1.untop' 0
           else 0) := by
  intro fuel
  induction fuel with
  | zero =>
    intro val u flow visit _ _ hpos x
    rw [ffAug_zero] at hpos ⊢
    by_cases ht : u = t
    · rw [if_pos ht] at hpos ⊢
      subst ht
      dsimp only
      split_ifs <;> omega
    · rw [if_neg ht] at hpos
      exact absurd hpos (lt_irrefl 0)
  | succ fuel ih =>
    intro val u flow visit hu hun hpos x
    rw [ffAug_succ] at hpos ⊢
    by_cases ht : u = t
    · rw [if_pos ht] at hpos ⊢
      subst ht
      dsimp only
      split_ifs <;> omega
    · rw [if_neg ht] at hpos ⊢
      exact ffAugList_rowsum cap _ n t
        (fun val' v' flow' visit' x' hx' =>
          ffAug_visit_mono g cap t fuel val' v' flow' visit' x' hx')
        (fun val' v' flow' visit' hv' a' b' hab' =>
          ffAug_untouched g cap t fuel val' v' flow' visit' hv' a' b' hab')
        (fun val' v' flow' visit' h' =>
          ffAug_fail g cap t fuel val' v' flow' visit' h')
        (fun val' v' flow' visit' hv' hvn' hp' x' =>
          ih val' v' flow' visit' hv' hvn' hp' x')
        (g.getD u []) (fun w hw => hg u w hw) val u flow
        (updf visit u true) (updf_same _ _ _) hun ht hpos x

theorem ffLoop_inv (g : List (List ℕ)) (cap : ℕ → ℕ → ℤ) (s t n : ℕ)
    (hg : ∀ a, ∀ b ∈ g.getD a [], b < n) (hs : s < n) :
    ∀ fuel flow,
      (∀ a b, flow b a = -flow a b) →
      CapBound g cap flow →
      (∀ x, x ≠ s → x ≠ t → rowSum n flow x = 0) →
      (∀ a b, (ffLoop g cap s t n fuel flow) b a =
        -(ffLoop g cap s t n fuel flow) a b) ∧
      CapBound g cap (ffLoop g cap s t n fuel flow) ∧
      (∀ x, x ≠ s → x ≠ t → rowSum n (ffLoop g cap s t n fuel flow) x = 0) := by
  intro fuel
  induction fuel with
  | zero => intro flow hA hC hZ; exact ⟨hA, hC, hZ⟩
  | succ fuel ih =>
    intro flow hA hC hZ
    have hstep : ffLoop g cap s t n (fuel + 1) flow =
        (if 0 < (ffAug g cap t (n + 1) ⊤ s flow fun _ => false).1 then
          ffLoop g cap s t n fuel
            (ffAug g cap t (n + 1) ⊤ s flow fun _ => false).2.1
        else (ffAug g cap t (n + 1) ⊤ s flow fun _ => false).2.1) := rfl
    rw [hstep]
    have hA1 : ∀ a b,
        (ffAug g cap t (n + 1) ⊤ s flow fun _ => false).2.1 b a =
          -(ffAug g cap t (n + 1) ⊤ s flow fun _ => false).2.1 a b :=
      ffAug_antisym g cap t (n + 1) ⊤ s flow _ hA
    have hC1 : CapBound g cap
        (ffAug g cap t (n + 1) ⊤ s flow fun _ => false).2.1 :=
      ffAug_capbound g cap t g (n + 1) ⊤ s flow _ rfl hC
    have hZ1 : ∀ x, x ≠ s → x ≠ t →
        rowSum n (ffAug g cap t (n + 1) ⊤ s flow fun _ => false).2.1 x = 0 := by
      intro x hxs hxt
      by_cases hpos : 0 < (ffAug g cap t (n + 1) ⊤ s flow fun _ => false).1
      · rw [ffAug_rowsum g cap t n hg (n + 1) ⊤ s flow _ rfl hs hpos x,
          if_neg hxs, if_neg hxt, hZ x hxs hxt]
        ring
      · rw [ffAug_fail g cap t (n + 1) ⊤ s flow _ hpos]
        exact hZ x hxs hxt
    by_cases hpos : 0 < (ffAug g cap t (n + 1) ⊤ s flow fun _ => false).1
    · rw [if_pos hpos]
      exact ih _ hA1 hC1 hZ1
    · rw [if_neg hpos]
      exact ⟨hA1, hC1, hZ1⟩

/-- Every arc of the augmented graph is an original arc or the reverse of
one. -/
theorem arOuterFold_origin (Q : ℕ → ℕ → Prop) (hQ : ∀ a b, Q a b → Q b a) :
    ∀ (L : List ℕ) σ, (∀ a b, b ∈ σ.1.getD a [] → Q a b) →
      ∀ a b, b ∈ (L.foldl arStep σ).1.getD a [] → Q a b := by
  intro L
  induction L with
  | nil => intro σ h a b hb; exact h a b hb
  | cons x rest ih =>
    intro σ h a b hb
    refine ih (arStep σ x) ?_ a b hb
    intro a' b' hb'
    rcases arFold_row_subset x _ σ a' b' hb' with h' | ⟨rfl, ha'⟩
    · exact h a' b' h'
    · exact hQ _ _ (h b' a' ha')

theorem arInner_cap_keep (u : ℕ) (σ : List (List ℕ) × (ℕ → ℕ → ℤ))
    (v a b : ℕ) (hb : b ∈ σ.1.getD a []) :
    (arInner u σ v).2 a b = σ.2 a b := by
  unfold arInner
  split
  · rfl
  · next hmem =>
    refine updm_other _ _ _ _ _ _ ?_
    rintro ⟨rfl, rfl⟩
    exact hmem hb

theorem arFold_cap_keep (u : ℕ) (l : List ℕ) :
    ∀ σ a b, b ∈ σ.1.getD a [] → (l.foldl (arInner u) σ).2 a b = σ.2 a b := by
  induction l with
  | nil => intro σ a b _; rfl
  | cons v rest ih =>
    intro σ a b hb
    rw [List.foldl_cons, ih (arInner u σ v) a b (arInner_row_mono u σ v a b hb)]
    exact arInner_cap_keep u σ v a b hb

theorem arOuterFold_cap_keep (L : List ℕ) :
    ∀ σ a b, b ∈ σ.1.getD a [] → (L.foldl arStep σ).2 a b = σ.2 a b := by
  induction L with
  | nil => intro σ a b _; rfl
  | cons x rest ih =>
    intro σ a b hb
    rw [List.foldl_cons, ih (arStep σ x) a b (arFold_row_mono x _ σ a b hb)]
    exact arFold_cap_keep x _ σ a b hb

theorem add_reverse_arcs_arc_origin (graph : List (List ℕ))
    (capac : ℕ → ℕ → ℤ) :
    ∀ a b, b ∈ (add_reverse_arcs graph capac).1.getD a [] →
      b ∈ graph.getD a [] ∨ a ∈ graph.getD b [] :=
  arOuterFold_origin (fun a b => b ∈ graph.getD a [] ∨ a ∈ graph.getD b [])
    (fun _ _ h => h.symm) (List.range graph.length) (graph, capac)
    (fun _ _ hb => Or.inl hb)

/-- C5 (amended): after `ford_fulkerson`, the flow matrix satisfies
`flow[u][v] = -flow[v][u]` for every pair of vertices; on every arc of the
residual graph (hence on every forward arc) `flow[u][v] ≤ capacity[u][v]`;
`0 ≤ flow[u][v]` holds on every forward arc `(u, v)` whose reverse is not
itself an arc of the original graph; and every vertex other than the source
and target conserves flow. -/
theorem ford_fulkerson_invariants (graph : List (List ℕ))
    (capac : ℕ → ℕ → ℤ) (s t : ℕ)
    (hWF : ∀ u < graph.length, ∀ v ∈ graph.getD u [], v < graph.length)
    (hcap : ∀ u < graph.length, ∀ v ∈ graph.getD u [], 0 ≤ capac u v)
    (hs : s < graph.length) :
    (∀ a b, (ford_fulkerson graph capac s t).1 b a =
      -(ford_fulkerson graph capac s t).1 a b) ∧
    (∀ u, ∀ v ∈ (add_reverse_arcs graph capac).1.getD u [],
      (ford_fulkerson graph capac s t).1 u v ≤
        (add_reverse_arcs graph capac).2 u v) ∧
    (∀ u, ∀ v ∈ graph.getD u [], u ∉ graph.getD v [] →
      0 ≤ (ford_fulkerson graph capac s t).1 u v) ∧
    (∀ x, x ≠ s → x ≠ t →
      rowSum graph.length (ford_fulkerson graph capac s t).1 x = 0) := by
  have hlen : (add_reverse_arcs graph capac).1.length = graph.length :=
    arOuterFold_length _ _
  have horigin := add_reverse_arcs_arc_origin graph capac
  have hWF' : ∀ a, ∀ b ∈ graph.getD a [], b < graph.length :=
    fun a b hb => hWF a (row_nonempty_lt hb) b hb
  have hg1 : ∀ a, ∀ b ∈ (add_reverse_arcs graph capac).1.getD a [],
      b < (add_reverse_arcs graph capac).1.length := by
    intro a b hb
    rw [hlen]
    rcases horigin a b hb with h | h
    · exact hWF' a b h
    · exact row_nonempty_lt h
  have hC0 : CapBound (add_reverse_arcs graph capac).1
      (add_reverse_arcs graph capac).2 (fun _ _ => 0) := by
    intro a b hb
    by_cases horig : b ∈ graph.getD a []
    · have hkeep : (add_reverse_arcs graph capac).2 a b = capac a b :=
        arOuterFold_cap_keep (List.range graph.length) (graph, capac) a b horig
      rw [hkeep]
      exact hcap a (row_nonempty_lt horig) b horig
    · rcases horigin a b hb with h | h
      · exact absurd h horig
      · have hz : (add_reverse_arcs graph capac).2 a b = 0 :=
          arOuterFold_cap_zero (List.range graph.length)
            (List.nodup_range graph.length) (graph, capac) b a
            (List.mem_range.2 (row_nonempty_lt h)) h horig
        rw [hz]
  have hZ0 : ∀ x, x ≠ s → x ≠ t →
      rowSum (add_reverse_arcs graph capac).1.length
        (fun _ _ => (0 : ℤ)) x = 0 := by
    intro x _ _
    unfold rowSum
    simp
  have hA0 : ∀ a b : ℕ, (fun (_ _ : ℕ) => (0 : ℤ)) b a =
      -(fun (_ _ : ℕ) => (0 : ℤ)) a b := by
    intro a b
    simp
  obtain ⟨hA, hC, hZ⟩ := ffLoop_inv (add_reverse_arcs graph capac).1
    (add_reverse_arcs graph capac).2 s t
    (add_reverse_arcs graph capac).1.length hg1 (by rw [hlen]; exact hs)
    (ffOuterFuel (add_reverse_arcs graph capac).2 s
      (add_reverse_arcs graph capac).1.length)
    (fun _ _ => 0) hA0 hC0 hZ0
  have hflow : (ford_fulkerson graph capac s t).1 =
      ffLoop (add_reverse_arcs graph capac).1 (add_reverse_arcs graph capac).2
        s t (add_reverse_arcs graph capac).1.length
        (ffOuterFuel (add_reverse_arcs graph capac).2 s
          (add_reverse_arcs graph capac).1.length)
        (fun _ _ => 0) := rfl
  refine ⟨?_, ?_, ?_, ?_⟩
  · intro a b
    rw [hflow]
    exact hA a b
  · intro u v hv
    rw [hflow]
    exact hC u v hv
  · intro u v hv hnrev
    have hrevmem : u ∈ (add_reverse_arcs graph capac).1.getD v [] :=
      add_reverse_arcs_closed graph capac hWF' u v
        (arOuterFold_row_mono _ (graph, capac) u v hv)
    have hcz : (add_reverse_arcs graph capac).2 v u = 0 :=
      arOuterFold_cap_zero (List.range graph.length)
        (List.nodup_range graph.length) (graph, capac) u v
        (List.mem_range.2 (row_nonempty_lt hv)) hv hnrev
    have hle : (ford_fulkerson graph capac s t).1 v u ≤ 0 := by
      have := hC v u hrevmem
      rw [hcz] at this
      rw [hflow]
      exact this
    have hanti : (ford_fulkerson graph capac s t).1 u v =
        -(ford_fulkerson graph capac s t).1 v u := by
      rw [hflow]
      exact hA v u
    rw [hanti]
    omega
  · intro x hxs hxt
    rw [hflow, ← hlen]
    exact hZ x hxs hxt

/-- Witness for C5 (amended) at the two-vertex network with one arc
`0 → 1` of capacity 5. -/
theorem ford_fulkerson_invariants_witness :
    (∀ a b, (ford_fulkerson [[1], []]
        (fun a b => if a = 0 ∧ b = 1 then 5 else 0) 0 1).1 b a =
      -(ford_fulkerson [[1], []]
        (fun a b => if a = 0 ∧ b = 1 then 5 else 0) 0 1).1 a b) ∧
    (∀ u, ∀ v ∈ (add_reverse_arcs [[1], []]
        (fun a b => if a = 0 ∧ b = 1 then 5 else 0)).1.getD u [],
      (ford_fulkerson [[1], []]
        (fun a b => if a = 0 ∧ b = 1 then 5 else 0) 0 1).1 u v ≤
        (add_reverse_arcs [[1], []]
          (fun a b => if a = 0 ∧ b = 1 then 5 else 0)).2 u v) ∧
    (∀ u, ∀ v ∈ ([[1], []] : List (List ℕ)).getD u [],
      u ∉ ([[1], []] : List (List ℕ)).getD v [] →
      0 ≤ (ford_fulkerson [[1], []]
        (fun a b => if a = 0 ∧ b = 1 then 5 else 0) 0 1).1 u v) ∧
    (∀ x, x ≠ 0 → x ≠ 1 →
      rowSum 2 (ford_fulkerson [[1], []]
        (fun a b => if a = 0 ∧ b = 1 then 5 else 0) 0 1).1 x = 0) :=
  ford_fulkerson_invariants [[1], []]
    (fun a b => if a = 0 ∧ b = 1 then 5 else 0) 0 1
    (by decide) (by decide) (by decide)

/-- Counterexample to C5 as stated: in the four-vertex network with arcs
`0→1, 1→2, 2→1, 2→3` of capacity 5 (non-negative capacities, well-formed),
after `ford_fulkerson(graph, capacity, 0, 3)` the original forward arc
`(2, 1)` carries flow `-5 < 0`, because the augmenting path `0→1→2→3` uses
the antiparallel arc `(1, 2)`. -/
theorem ford_fulkerson_capacity_claim_false :
    (∀ u < 4, ∀ v ∈ ([[1], [2], [1, 3], []] : List (List ℕ)).getD u [],
      0 ≤ ffCapExample u v) ∧
    1 ∈ ([[1], [2], [1, 3], []] : List (List ℕ)).getD 2 [] ∧
    (ford_fulkerson [[1], [2], [1, 3], []] ffCapExample 0 3).1 2 1 = -5 ∧
    ¬(0 ≤ (ford_fulkerson [[1], [2], [1, 3], []] ffCapExample 0 3).1 2 1) :=
  ⟨by decide, by decide, by decide, by decide⟩

/-- C6: `ford_fulkerson` returns as its second component the total flow out
of the source, `sum(flow[s])`; on the two-vertex network with a single arc
`0→1` of capacity 5 it returns flow value 5 with `flow[0][1] = 5` and
`flow[1][0] = -5`. -/
theorem ford_fulkerson_value_is_source_outflow :
    (∀ (graph : List (List ℕ)) (capac : ℕ → ℕ → ℤ) (s t : ℕ),
      (ford_fulkerson graph capac s t).2 =
        rowSum graph.length (ford_fulkerson graph capac s t).1 s) ∧
    (ford_fulkerson [[1], []] (fun a b => if a = 0 ∧ b = 1 then 5 else 0)
      0 1).2 = 5 ∧
    (ford_fulkerson [[1], []] (fun a b => if a = 0 ∧ b = 1 then 5 else 0)
      0 1).1 0 1 = 5 ∧
    (ford_fulkerson [[1], []] (fun a b => if a = 0 ∧ b = 1 then 5 else 0)
      0 1).1 1 0 = -5 := by
  refine ⟨?_, by decide, by decide, by decide⟩
  intro graph capac s t
  have hlen : (add_reverse_arcs graph capac).1.length = graph.length :=
    arOuterFold_length _ _
  show ((List.range (add_reverse_arcs graph capac).1.length).map
    fun v => (ford_fulkerson graph capac s t).1 s v).sum = _
  rw [hlen]
  rfl

theorem bmAugList_cons (aug) (v : ℕ) (rest : List ℕ) (u : ℕ)
    (visit : ℕ → Bool) (mat : ℕ → Option ℕ) :
    bmAugList aug (v :: rest) u visit mat =
      if visit v = false then
        match mat v with
        | none => (true, updf visit v true, updf mat v (some u))
        | some w =>
          if (aug w (updf visit v true) mat).1 then
            (true, (aug w (updf visit v true) mat).2.1,
             updf (aug w (updf visit v true) mat).2.2 v (some u))
          else bmAugList aug rest u (aug w (updf visit v true) mat).2.1
            (aug w (updf visit v true) mat).2.2
      else bmAugList aug rest u visit mat := rfl

theorem bmAugList_visit_mono (aug)
    (haugV : ∀ w visit mat x, visit x = true →
      (aug w visit mat).2.1 x = true) :
    ∀ (l : List ℕ) u visit mat x, visit x = true →
      (bmAugList aug l u visit mat).2.1 x = true := by
  intro l
  induction l with
  | nil => intro u visit mat x hx; exact hx
  | cons v rest ih =>
    intro u visit mat x hx
    rw [bmAugList_cons]
    by_cases hv : visit v = false
    · rw [if_pos hv]
      rcases hm : mat v with _ | w
      · simp only [hm]
        exact updf_bool_mono hx
      · simp only [hm]
        by_cases hr : (aug w (updf visit v true) mat).1
        · rw [if_pos hr]
          exact haugV _ _ _ _ (updf_bool_mono hx)
        · rw [if_neg hr]
          exact ih _ _ _ _ (haugV _ _ _ _ (updf_bool_mono hx))
    · rw [if_neg hv]
      exact ih _ _ _ _ hx

theorem bmAug_visit_mono (bigraph : List (List ℕ)) :
    ∀ fuel u visit mat x, visit x = true →
      (bmAug bigraph fuel u visit mat).2.1 x = true := by
  intro fuel
  induction fuel with
  | zero => intro u visit mat x hx; exact hx
  | succ fuel ih =>
    intro u visit mat x hx
    exact bmAugList_visit_mono _
      (fun w' visit' mat' x' hx' => ih w' visit' mat' x' hx') _ _ _ _ _ hx

theorem bmAugList_edge_valid (bigraph : List (List ℕ)) (aug)
    (haugE : ∀ w visit mat a x, (aug w visit mat).2.2 a = some x →
      mat a = some x ∨ a ∈ bigraph.getD x []) :
    ∀ (l : List ℕ) u, (∀ v ∈ l, v ∈ bigraph.getD u []) →
      ∀ visit mat a x, (bmAugList aug l u visit mat).2.2 a = some x →
        mat a = some x ∨ a ∈ bigraph.getD x [] := by
  intro l
  induction l with
  | nil => intro u _ visit mat a x h; exact Or.inl h
  | cons v rest ih =>
    intro u hl visit mat a x h
    rw [bmAugList_cons] at h
    by_cases hv : visit v = false
    · rw [if_pos hv] at h
      rcases hm : mat v with _ | w
      · simp only [hm] at h
        replace h : updf mat v (some u) a = some x := h
        by_cases hav : a = v
        · subst hav
          rw [updf_same] at h
          obtain rfl : u = x := by injection h
          exact Or.inr (hl a (List.mem_cons_self _ _))
        · rw [updf_other _ _ _ _ hav] at h
          exact Or.inl h
      · simp only [hm] at h
        by_cases hr : (aug w (updf visit v true) mat).1
        · rw [if_pos hr] at h
          replace h :
              updf (aug w (updf visit v true) mat).2.2 v (some u) a =
                some x := h
          by_cases hav : a = v
          · subst hav
            rw [updf_same] at h
            obtain rfl : u = x := by injection h
            exact Or.inr (hl a (List.mem_cons_self _ _))
          · rw [updf_other _ _ _ _ hav] at h
            exact haugE _ _ _ _ _ h
        · rw [if_neg hr] at h
          rcases ih u (fun y hy => hl y (List.mem_cons_of_mem _ hy)) _ _ a x h
            with h' | h'
          · exact haugE _ _ _ _ _ h'
          · exact Or.inr h'
    · rw [if_neg hv] at h
      exact ih u (fun y hy => hl y (List.mem_cons_of_mem _ hy)) _ _ a x h

theorem visit_false_trans {visit1 visit2 : ℕ → Bool}
    (hmono : ∀ x, visit1 x = true → visit2 x = true) {y : ℕ}
    (h : visit2 y = false) : visit1 y = false := by
  cases hvy : visit1 y
  · rfl
  · rw [hmono y hvy] at h
    exact Bool.noConfusion h

/-- The combined augmenting-path postconditions of `augment`: failure does
not change the matching; every value in the new matching is an old value, a
value matched at an unvisited vertex, or `u` itself; visited vertices keep
their match; on success `u` occupies exactly one new (unvisited) vertex; and
every value other than `u` still occupies at most one vertex. -/
theorem bmAugList_main (aug)
    (haugV : ∀ w visit mat x, visit x = true → (aug w visit mat).2.1 x = true)
    (haugM : ∀ w visit mat,
      MInj mat →
      (∀ y, visit y = false → mat y ≠ some w) →
      ((aug w visit mat).1 = false → (aug w visit mat).2.2 = mat) ∧
      (∀ a x, (aug w visit mat).2.2 a = some x →
        mat a = some x ∨ x = w ∨ ∃ y, visit y = false ∧ mat y = some x) ∧
      (∀ a, visit a = true → (aug w visit mat).2.2 a = mat a) ∧
      ((aug w visit mat).1 = true → ∃ z, visit z = false ∧
        (aug w visit mat).2.2 z = some w ∧
        (∀ a, (aug w visit mat).2.2 a = some w → a = z ∨ mat a = some w)) ∧
      (∀ x, x ≠ w → ∀ a1 a2, (aug w visit mat).2.2 a1 = some x →
        (aug w visit mat).2.2 a2 = some x → a1 = a2)) :
    ∀ (l : List ℕ) (u : ℕ) (visit : ℕ → Bool) (mat : ℕ → Option ℕ),
      MInj mat →
      (∀ y, visit y = false → mat y ≠ some u) →
      ((bmAugList aug l u visit mat).1 = false →
        (bmAugList aug l u visit mat).2.2 = mat) ∧
      (∀ a x, (bmAugList aug l u visit mat).2.2 a = some x →
        mat a = some x ∨ x = u ∨ ∃ y, visit y = false ∧ mat y = some x) ∧
      (∀ a, visit a = true → (bmAugList aug l u visit mat).2.2 a = mat a) ∧
      ((bmAugList aug l u visit mat).1 = true → ∃ z, visit z = false ∧
        (bmAugList aug l u visit mat).2.2 z = some u ∧
        (∀ a, (bmAugList aug l u visit mat).2.2 a = some u →
          a = z ∨ mat a = some u)) ∧
      (∀ x, x ≠ u → ∀ a1 a2, (bmAugList aug l u visit mat).2.2 a1 = some x →
        (bmAugList aug l u visit mat).2.2 a2 = some x → a1 = a2) := by
  intro l
  induction l with
  | nil =>
    intro u visit mat hInj _
    refine ⟨fun _ => rfl, fun a x h => Or.inl h, fun a _ => rfl, ?_, ?_⟩
    · intro h
      exact Bool.noConfusion h
    · intro x _ a1 a2 h1 h2
      exact hInj x a1 a2 h1 h2
  | cons v rest ih =>
    intro u visit mat hInj hpre
    rw [bmAugList_cons]
    by_cases hv : visit v = false
    · rw [if_pos hv]
      rcases hm : mat v with _ | w
      · simp only [hm]
        refine ⟨?_, ?_, ?_, ?_, ?_⟩
        · intro h
          exact Bool.noConfusion h
        · intro a x h
          replace h : updf mat v (some u) a = some x := h
          by_cases hav : a = v
          · subst hav
            rw [updf_same] at h
            obtain rfl : u = x := by injection h
            exact Or.inr (Or.inl rfl)
          · rw [updf_other _ _ _ _ hav] at h
            exact Or.inl h
        · intro a ha
          have hav : a ≠ v := by
            rintro rfl
            rw [hv] at ha
            exact Bool.noConfusion ha
          exact updf_other _ _ _ _ hav
        · intro _
          refine ⟨v, hv, updf_same _ _ _, ?_⟩
          intro a h
          by_cases hav : a = v
          · exact Or.inl hav
          · replace h : updf mat v (some u) a = some u := h
            rw [updf_other _ _ _ _ hav] at h
            exact Or.inr h
        · intro x hxu a1 a2 h1 h2
          replace h1 : updf mat v (some u) a1 = some x := h1
          replace h2 : updf mat v (some u) a2 = some x := h2
          have hav1 : a1 ≠ v := by
            rintro rfl
            rw [updf_same] at h1
            exact hxu (Option.some.inj h1).symm
          have hav2 : a2 ≠ v := by
            rintro rfl
            rw [updf_same] at h2
            exact hxu (Option.some.inj h2).symm
          rw [updf_other _ _ _ _ hav1] at h1
          rw [updf_other _ _ _ _ hav2] at h2
          exact hInj x a1 a2 h1 h2
      · simp only [hm]
        have hwu : w ≠ u := by
          rintro rfl
          exact hpre v hv hm
        have hpre1 : ∀ y, updf visit v true y = false → mat y ≠ some w := by
          intro y hy hc
          have : y = v := hInj w y v hc hm
          subst this
          rw [updf_same] at hy
          exact Bool.noConfusion hy
        obtain ⟨rF, rP5, rP2, rP3, rP4⟩ :=
          haugM w (updf visit v true) mat hInj hpre1
        have hmono0 : ∀ x', visit x' = true → updf visit v true x' = true :=
          fun x' hx' => updf_bool_mono hx'
        by_cases hr : (aug w (updf visit v true) mat).1
        · rw [if_pos hr]
          refine ⟨?_, ?_, ?_, ?_, ?_⟩
          · intro h
            exact Bool.noConfusion h
          · intro a x h
            replace h :
                updf (aug w (updf visit v true) mat).2.2 v (some u) a =
                  some x := h
            by_cases hav : a = v
            · subst hav
              rw [updf_same] at h
              obtain rfl : u = x := by injection h
              exact Or.inr (Or.inl rfl)
            · rw [updf_other _ _ _ _ hav] at h
              rcases rP5 a x h with h' | h' | ⟨y, hy, hy'⟩
              · exact Or.inl h'
              · exact Or.inr (Or.inr ⟨v, hv, h' ▸ hm⟩)
              · exact Or.inr (Or.inr
                  ⟨y, visit_false_trans hmono0 hy, hy'⟩)
          · intro a ha
            have hav : a ≠ v := by
              rintro rfl
              rw [hv] at ha
              exact Bool.noConfusion ha
            have h1 :
                updf (aug w (updf visit v true) mat).2.2 v (some u) a =
                  (aug w (updf visit v true) mat).2.2 a :=
              updf_other _ _ _ _ hav
            show updf (aug w (updf visit v true) mat).2.2 v (some u) a = mat a
            rw [h1]
            exact rP2 a (updf_bool_mono ha)
          · intro _
            refine ⟨v, hv, updf_same _ _ _, ?_⟩
            intro a h
            by_cases hav : a = v
            · exact Or.inl hav
            · replace h :
                  updf (aug w (updf visit v true) mat).2.2 v (some u) a =
                    some u := h
              rw [updf_other _ _ _ _ hav] at h
              rcases rP5 a u h with h' | h' | ⟨y, hy, hy'⟩
              · exact Or.inr h'
              · exact absurd h'.symm hwu
              · exact absurd hy'
                  (hpre y (visit_false_trans hmono0 hy))
          · intro x hxu a1 a2 h1 h2
            replace h1 :
                updf (aug w (updf visit v true) mat).2.2 v (some u) a1 =
                  some x := h1
            replace h2 :
                updf (aug w (updf visit v true) mat).2.2 v (some u) a2 =
                  some x := h2
            have hav1 : a1 ≠ v := by
              rintro rfl
              rw [updf_same] at h1
              exact hxu (Option.some.inj h1).symm
            have hav2 : a2 ≠ v := by
              rintro rfl
              rw [updf_same] at h2
              exact hxu (Option.some.inj h2).symm
            rw [updf_other _ _ _ _ hav1] at h1
            rw [updf_other _ _ _ _ hav2] at h2
            by_cases hxw : x = w
            · subst hxw
              obtain ⟨z, _, _, hocc⟩ := rP3 hr
              have e1 : a1 = z := by
                rcases hocc a1 h1 with h' | h'
                · exact h'
                · exact absurd (hInj x a1 v h' hm) hav1
              have e2 : a2 = z := by
                rcases hocc a2 h2 with h' | h'
                · exact h'
                · exact absurd (hInj x a2 v h' hm) hav2
              rw [e1, e2]
            · exact rP4 x hxw a1 a2 h1 h2
        · rw [if_neg hr]
          have hrF : (aug w (updf visit v true) mat).2.2 = mat :=
            rF (Bool.not_eq_true _ ▸ hr)
          rw [hrF]
          have hmono1 : ∀ x, visit x = true →
              (aug w (updf visit v true) mat).2.1 x = true :=
            fun x hx => haugV _ _ _ _ (updf_bool_mono hx)
          obtain ⟨sF, sP5, sP2, sP3, sP4⟩ := ih u
            (aug w (updf visit v true) mat).2.1 mat hInj
            (fun y hy => hpre y (visit_false_trans hmono1 hy))
          refine ⟨sF, ?_, ?_, ?_, sP4⟩
          · intro a x h
            rcases sP5 a x h with h' | h' | ⟨y, hy, hy'⟩
            · exact Or.inl h'
            · exact Or.inr (Or.inl h')
            · exact Or.inr (Or.inr ⟨y, visit_false_trans hmono1 hy, hy'⟩)
          · intro a ha
            exact sP2 a (hmono1 a ha)
          · intro h
            obtain ⟨z, hz, hz1, hz2⟩ := sP3 h
            exact ⟨z, visit_false_trans hmono1 hz, hz1, hz2⟩
    · rw [if_neg hv]
      exact ih u visit mat hInj hpre

theorem bmAug_main (bigraph : List (List ℕ)) :
    ∀ (fuel u : ℕ) (visit : ℕ → Bool) (mat : ℕ → Option ℕ),
      MInj mat →
      (∀ y, visit y = false → mat y ≠ some u) →
      ((bmAug bigraph fuel u visit mat).1 = false →
        (bmAug bigraph fuel u visit mat).2.2 = mat) ∧
      (∀ a x, (bmAug bigraph fuel u visit mat).2.2 a = some x →
        mat a = some x ∨ x = u ∨ ∃ y, visit y = false ∧ mat y = some x) ∧
      (∀ a, visit a = true → (bmAug bigraph fuel u visit mat).2.2 a = mat a) ∧
      ((bmAug bigraph fuel u visit mat).1 = true → ∃ z, visit z = false ∧
        (bmAug bigraph fuel u visit mat).2.2 z = some u ∧
        (∀ a, (bmAug bigraph fuel u visit mat).2.2 a = some u →
          a = z ∨ mat a = some u)) ∧
      (∀ x, x ≠ u → ∀ a1 a2,
        (bmAug bigraph fuel u visit mat).2.2 a1 = some x →
        (bmAug bigraph fuel u visit mat).2.2 a2 = some x → a1 = a2) := by
  intro fuel
  induction fuel with
  | zero =>
    intro u visit mat hInj _
    refine ⟨fun _ => rfl, fun a x h => Or.inl h, fun a _ => rfl, ?_, ?_⟩
    · intro h
      exact Bool.noConfusion h
    · intro x _ a1 a2 h1 h2
      exact hInj x a1 a2 h1 h2
  | succ fuel ih =>
    intro u visit mat hInj hpre
    exact bmAugList_main _
      (fun w' visit' mat' x hx => bmAug_visit_mono bigraph fuel w' visit'
        mat' x hx)
      (fun w' visit' mat' hInj' hpre' => ih w' visit' mat' hInj' hpre')
      (bigraph.getD u []) u visit mat hInj hpre

theorem bmAug_edge_valid (bigraph : List (List ℕ)) :
    ∀ (fuel u : ℕ) (visit : ℕ → Bool) (mat : ℕ → Option ℕ) (a x : ℕ),
      (bmAug bigraph fuel u visit mat).2.2 a = some x →
      mat a = some x ∨ a ∈ bigraph.getD x [] := by
  intro fuel
  induction fuel with
  | zero => intro u visit mat a x h; exact Or.inl h
  | succ fuel ih =>
    intro u visit mat a x h
    exact bmAugList_edge_valid bigraph _
      (fun w' visit' mat' a' x' h' => ih w' visit' mat' a' x' h')
      (bigraph.getD u []) u (fun y hy => hy) visit mat a x h

theorem bmFold_valid (bigraph : List (List ℕ)) :
    ∀ (L : List ℕ) (mat : ℕ → Option ℕ), L.Nodup →
      MInj mat →
      (∀ a x, mat a = some x → a ∈ bigraph.getD x []) →
      (∀ a x, mat a = some x → x ∉ L) →
      MInj (L.foldl (fun m u =>
        (bmAug bigraph (bigraph.length + 1) u (fun _ => false) m).2.2) mat) ∧
      (∀ a x, (L.foldl (fun m u =>
        (bmAug bigraph (bigraph.length + 1) u (fun _ => false) m).2.2) mat)
          a = some x → a ∈ bigraph.getD x []) := by
  intro L
  induction L with
  | nil => intro mat _ hInj hEV _; exact ⟨hInj, hEV⟩
  | cons u rest ihL =>
    intro mat hN hInj hEV hvals
    rw [List.nodup_cons] at hN
    rw [List.foldl_cons]
    have hpre : ∀ y, (fun _ : ℕ => false) y = false → mat y ≠ some u :=
      fun y _ hc => hvals y u hc (List.mem_cons_self _ _)
    obtain ⟨mF, mP5, _, mP3, mP4⟩ :=
      bmAug_main bigraph (bigraph.length + 1) u (fun _ => false) mat hInj hpre
    have hInj1 : MInj
        (bmAug bigraph (bigraph.length + 1) u (fun _ => false) mat).2.2 := by
      intro x a1 a2 h1 h2
      by_cases hxu : x = u
      · rw [hxu] at h1 h2
        cases hb : (bmAug bigraph (bigraph.length + 1) u (fun _ => false)
            mat).1
        · rw [mF hb] at h1 h2
          exact hInj u a1 a2 h1 h2
        · obtain ⟨z, _, _, hocc⟩ := mP3 hb
          have e1 : a1 = z := by
            rcases hocc a1 h1 with h' | h'
            · exact h'
            · exact absurd (List.mem_cons_self u rest)
                (hvals a1 u h')
          have e2 : a2 = z := by
            rcases hocc a2 h2 with h' | h'
            · exact h'
            · exact absurd (List.mem_cons_self u rest)
                (hvals a2 u h')
          rw [e1, e2]
      · exact mP4 x hxu a1 a2 h1 h2
    have hEV1 : ∀ a x,
        (bmAug bigraph (bigraph.length + 1) u (fun _ => false)
          mat).2.2 a = some x → a ∈ bigraph.getD x [] := by
      intro a x h
      rcases bmAug_edge_valid bigraph _ u _ mat a x h with h' | h'
      · exact hEV a x h'
      · exact h'
    have hvals1 : ∀ a x,
        (bmAug bigraph (bigraph.length + 1) u (fun _ => false)
          mat).2.2 a = some x → x ∉ rest := by
      intro a x h
      rcases mP5 a x h with h' | h' | ⟨y, _, hy'⟩
      · exact fun hc => hvals a x h' (List.mem_cons_of_mem _ hc)
      · exact h' ▸ hN.1
      · exact fun hc => hvals y x hy' (List.mem_cons_of_mem _ hc)
    exact ihL _ hN.2 hInj1 hEV1 hvals1

/-- C10: the table returned by `max_bipartite_matching` is a valid matching:
`match[v] = u` implies `v ∈ bigraph[u]`, and no left vertex `u` is the match
of two distinct right vertices. -/
theorem max_bipartite_matching_valid (bigraph : List (List ℕ)) :
    (∀ v u, max_bipartite_matching bigraph v = some u →
      v ∈ bigraph.getD u []) ∧
    (∀ u v1 v2, max_bipartite_matching bigraph v1 = some u →
      max_bipartite_matching bigraph v2 = some u → v1 = v2) := by
  obtain ⟨hInj, hEV⟩ := bmFold_valid bigraph (List.range bigraph.length)
    (fun _ => none) (List.nodup_range bigraph.length)
    (fun x a1 a2 h1 => Option.noConfusion h1)
    (fun a x h => Option.noConfusion h)
    (fun a x h => Option.noConfusion h)
  exact ⟨fun v u hv => hEV v u hv, fun u v1 v2 h1 h2 => hInj u v1 v2 h1 h2⟩

/-- Witness for C10: on the bipartite graph where both left vertices are
joined to right vertex 0, the returned assignment `match[0] = 0` is an
actual edge. -/
theorem max_bipartite_matching_valid_witness :
    0 ∈ ([[0], [0]] : List (List ℕ)).getD 0 [] :=
  (max_bipartite_matching_valid [[0], [0]]).1 0 0 (by decide)

/-- Witness for C9: with the all-ones weight matrix the assertion passes
and a result is returned. -/
theorem dijkstra_assertion_iff_negative_edge_witness :
    ∃ r, dijkstra [[1], []] (fun _ _ => 1) 0 none = some r :=
  (dijkstra_assertion_iff_negative_edge [[1], []] (fun _ _ => 1) 0 none).2
    (by decide)

theorem pairLe_fst_le {a b : Dist × ℕ} (h : pairLe a b) : a.1 ≤ b.1 := by
  rcases h with h | ⟨h, _⟩
  · exact le_of_lt h
  · exact le_of_eq h

theorem ne_top_of_le_coe {a : Dist} {c : ℤ} (h : a ≤ (c : Dist)) : a ≠ ⊤ :=
  ne_top_of_le_ne_top WithTop.coe_ne_top h

theorem relaxStep_char (weight : ℕ → ℕ → ℤ) (node : ℕ) (dn : Dist)
    (st : (ℕ → Dist) × (ℕ → Option ℕ) × List (Dist × ℕ)) (w : ℕ) :
    (¬dn + ((weight node w : ℤ) : Dist) < st.1 w ∧
      relaxStep weight node dn st w = st) ∨
    (dn + ((weight node w : ℤ) : Dist) < st.1 w ∧
      relaxStep weight node dn st w =
        (updf st.1 w (dn + ((weight node w : ℤ) : Dist)),
         updf st.2.1 w (some node),
         st.2.2 ++ [(dn + ((weight node w : ℤ) : Dist), w)])) := by
  by_cases h : dn + ((weight node w : ℤ) : Dist) < st.1 w
  · exact Or.inr ⟨h, by simp only [relaxStep, if_pos h]⟩
  · exact Or.inl ⟨h, by simp only [relaxStep, if_neg h]⟩

theorem relaxStep_heap_len (weight : ℕ → ℕ → ℤ) (node : ℕ) (dn : Dist)
    (st : (ℕ → Dist) × (ℕ → Option ℕ) × List (Dist × ℕ)) (w : ℕ) :
    (relaxStep weight node dn st w).2.2.length ≤ st.2.2.length + 1 := by
  rcases relaxStep_char weight node dn st w with ⟨_, heq⟩ | ⟨_, heq⟩ <;> rw [heq]
  · omega
  · simp

theorem relaxFold_heap_len (weight : ℕ → ℕ → ℤ) (node : ℕ) (dn : Dist) :
    ∀ (l : List ℕ) (st : (ℕ → Dist) × (ℕ → Option ℕ) × List (Dist × ℕ)),
      (l.foldl (relaxStep weight node dn) st).2.2.length ≤
        st.2.2.length + l.length := by
  intro l
  induction l with
  | nil => intro st; simp
  | cons w l ih =>
    intro st
    rw [List.foldl_cons]
    have h1 := ih (relaxStep weight node dn st w)
    have h2 := relaxStep_heap_len weight node dn st w
    simp only [List.length_cons]
    omega

theorem relaxStep_main (graph : List (List ℕ)) (weight : ℕ → ℕ → ℤ)
    (source node : ℕ) (dn : Dist) (B R : ℕ → Bool)
    (hRB : ∀ v, R v = true → B v = true)
    (hnr : ∃ c : ℤ, PathTo graph weight source node c ∧ dn = (c : Dist))
    (dist : ℕ → Dist) (prec : ℕ → Option ℕ) (heap : List (Dist × ℕ))
    (w : ℕ) (hwmem : w ∈ graph.getD node [])
    (hI : DijkInv graph weight source B R dist prec heap) :
    DijkInv graph weight source B R
        (relaxStep weight node dn (dist, prec, heap) w).1
        (relaxStep weight node dn (dist, prec, heap) w).2.1
        (relaxStep weight node dn (dist, prec, heap) w).2.2 ∧
      (relaxStep weight node dn (dist, prec, heap) w).1 w ≤
        dn + ((weight node w : ℤ) : Dist) ∧
      (∀ v, (relaxStep weight node dn (dist, prec, heap) w).1 v ≤ dist v) ∧
      (∀ v, B v = true →
        (relaxStep weight node dn (dist, prec, heap) w).1 v = dist v) := by
  rcases relaxStep_char weight node dn (dist, prec, heap) w with
    ⟨hlt, heq⟩ | ⟨hlt, heq⟩
  · rw [heq]
    exact ⟨hI, le_of_not_lt hlt, fun v => le_refl _, fun v _ => rfl⟩
  · rw [heq]
    dsimp only
    obtain ⟨c0, hp0, hdn⟩ := hnr
    have hdnb : dn + ((weight node w : ℤ) : Dist) =
        (((c0 + weight node w : ℤ)) : Dist) := by
      rw [hdn, WithTop.coe_add]
    have hpw : PathTo graph weight source w (c0 + weight node w) :=
      PathTo.step hp0 hwmem
    have hwB : B w = false := by
      cases hBw : B w with
      | false => rfl
      | true =>
        have h1 : dist w ≤ dn + ((weight node w : ℤ) : Dist) := by
          rw [hdnb]; exact hI.bmin w hBw _ hpw
        exact absurd h1 (not_le_of_lt hlt)
    have hdec : ∀ v, updf dist w (dn + ((weight node w : ℤ) : Dist)) v ≤ dist v := by
      intro v
      by_cases hv : v = w
      · subst hv; rw [updf_same]; exact le_of_lt hlt
      · rw [updf_other _ _ _ _ hv]
    have hsame : ∀ v, B v = true →
        updf dist w (dn + ((weight node w : ℤ) : Dist)) v = dist v := by
      intro v hv
      by_cases hvw : v = w
      · subst hvw; rw [hv] at hwB; exact absurd hwB (by simp)
      · rw [updf_other _ _ _ _ hvw]
    refine ⟨?_, by rw [updf_same], hdec, hsame⟩
    constructor
    · -- realiz
      intro v hvne
      by_cases hv : v = w
      · rw [hv] at hvne ⊢
        refine ⟨c0 + weight node w, hpw, ?_⟩
        rw [updf_same, hdnb]
      · rw [updf_other _ _ _ _ hv] at hvne ⊢
        exact hI.realiz v hvne
    · -- prec_none
      intro v hvt
      by_cases hv : v = w
      · subst hv
        rw [updf_same, hdnb] at hvt
        exact absurd hvt WithTop.coe_ne_top
      · rw [updf_other _ _ _ _ hv] at hvt ⊢
        exact hI.prec_none v hvt
    · -- source_le
      exact le_trans (hdec source) hI.source_le
    · -- bmin
      intro v hv c hp
      rw [hsame v hv]
      exact hI.bmin v hv c hp
    · -- brelax
      intro v hv w' hw'
      rw [hsame v (hRB v hv)]
      exact le_trans (hdec w') (hI.brelax v hv w' hw')
    · -- live
      intro v hv hvne
      by_cases hvw : v = w
      · subst hvw
        rw [updf_same]
        exact List.mem_append_right _ (List.mem_singleton.2 rfl)
      · rw [updf_other _ _ _ _ hvw] at hvne ⊢
        exact List.mem_append_left _ (hI.live v hv hvne)
    · -- hge
      intro p hp
      rcases List.mem_append.1 hp with hp | hp
      · exact le_trans (hdec p.2) (hI.hge p hp)
      · rw [List.mem_singleton.1 hp, updf_same]
    · -- hreal
      intro p hp
      rcases List.mem_append.1 hp with hp | hp
      · exact hI.hreal p hp
      · rw [List.mem_singleton.1 hp]
        exact ⟨c0 + weight node w, hpw, hdnb⟩

theorem relaxFold_main (graph : List (List ℕ)) (weight : ℕ → ℕ → ℤ)
    (source node : ℕ) (dn : Dist) (B R : ℕ → Bool)
    (hRB : ∀ v, R v = true → B v = true)
    (hnr : ∃ c : ℤ, PathTo graph weight source node c ∧ dn = (c : Dist)) :
    ∀ (l : List ℕ), (∀ w ∈ l, w ∈ graph.getD node []) →
    ∀ (dist : ℕ → Dist) (prec : ℕ → Option ℕ) (heap : List (Dist × ℕ)),
      DijkInv graph weight source B R dist prec heap →
      DijkInv graph weight source B R
          (l.foldl (relaxStep weight node dn) (dist, prec, heap)).1
          (l.foldl (relaxStep weight node dn) (dist, prec, heap)).2.1
          (l.foldl (relaxStep weight node dn) (dist, prec, heap)).2.2 ∧
        (∀ w ∈ l, (l.foldl (relaxStep weight node dn) (dist, prec, heap)).1 w ≤
          dn + ((weight node w : ℤ) : Dist)) ∧
        (∀ v, (l.foldl (relaxStep weight node dn) (dist, prec, heap)).1 v ≤
          dist v) ∧
        (∀ v, B v = true →
          (l.foldl (relaxStep weight node dn) (dist, prec, heap)).1 v =
            dist v) := by
  intro l
  induction l with
  | nil =>
    intro _ dist prec heap hI
    exact ⟨hI, by simp, fun v => le_refl _, fun v _ => rfl⟩
  | cons w l ih =>
    intro hmem dist prec heap hI
    have hstep := relaxStep_main graph weight source node dn B R hRB hnr
      dist prec heap w (hmem w (List.mem_cons_self _ _)) hI
    rcases hσ : relaxStep weight node dn (dist, prec, heap) w with ⟨d1, p1, h1⟩
    rw [hσ] at hstep
    rw [List.foldl_cons, hσ]
    obtain ⟨hI1, hb1, hd1, hs1⟩ := hstep
    have hmain := ih (fun w' hw' => hmem w' (List.mem_cons_of_mem _ hw'))
      d1 p1 h1 hI1
    obtain ⟨hIf, hbf, hdf, hsf⟩ := hmain
    refine ⟨hIf, ?_, ?_, ?_⟩
    · intro w' hw'
      rcases List.mem_cons.1 hw' with rfl | hw'
      · exact le_trans (hdf w') hb1
      · exact hbf w' hw'
    · intro v
      exact le_trans (hdf v) (hd1 v)
    · intro v hv
      rw [hsf v hv]
      exact hs1 v hv

theorem popmin (graph : List (List ℕ)) (weight : ℕ → ℕ → ℤ) (source : ℕ)
    {black : ℕ → Bool} {dist : ℕ → Dist} {prec : ℕ → Option ℕ}
    {heap : List (Dist × ℕ)} {m : Dist × ℕ}
    (hw : ∀ u, ∀ v ∈ graph.getD u [], 0 ≤ weight u v)
    (hI : DijkInv graph weight source black black dist prec heap)
    (hm : heapMin heap = some m) (hmb : black m.2 = false) :
    m.1 = dist m.2 ∧
      ∀ c : ℤ, PathTo graph weight source m.2 c → m.1 ≤ (c : Dist) := by
  have hmem := heapMin_mem hm
  have hle := heapMin_le hm
  obtain ⟨cm, hpm, hm1⟩ := hI.hreal m hmem
  have h1 : dist m.2 ≤ (cm : Dist) := by rw [← hm1]; exact hI.hge m hmem
  have hdm_ne : dist m.2 ≠ ⊤ := ne_top_of_le_coe h1
  have hin := hI.live m.2 hmb hdm_ne
  have h2 : m.1 ≤ dist m.2 := pairLe_fst_le (hle _ hin)
  refine ⟨le_antisymm h2 (hI.hge m hmem), ?_⟩
  have key : ∀ (v : ℕ) (c : ℤ), PathTo graph weight source v c →
      black v = false → m.1 ≤ (c : Dist) := by
    intro v c hp
    induction hp with
    | base =>
      intro hsb
      have hsne : dist source ≠ ⊤ :=
        ne_top_of_le_coe (c := 0) hI.source_le
      have hins := hI.live source hsb hsne
      exact le_trans (pairLe_fst_le (hle _ hins)) hI.source_le
    | @step u c' v' hpu hedge ihu =>
      intro hvb
      by_cases hub : black u = true
      · have hdu := hI.bmin u hub _ hpu
        have hdv := hI.brelax u hub v' hedge
        have hcomb : dist v' ≤ ((c' + weight u v' : ℤ) : Dist) := by
          rw [WithTop.coe_add]
          exact le_trans hdv (add_le_add_right hdu _)
        have hvne : dist v' ≠ ⊤ := ne_top_of_le_coe hcomb
        have hvin := hI.live v' hvb hvne
        exact le_trans (pairLe_fst_le (hle _ hvin)) hcomb
      · have hub' : black u = false := by
          revert hub; cases black u <;> simp
        have hup := ihu hub'
        have hstep : (c' : Dist) ≤ ((c' + weight u v' : ℤ) : Dist) := by
          have := hw u v' hedge
          exact_mod_cast le_add_of_nonneg_right this
        exact le_trans hup hstep
  exact fun c hp => key m.2 c hp hmb

theorem sum_map_congr_except (n : ℕ) (g g' : ℕ → ℕ) (b : ℕ) (hb : b < n)
    (hagree : ∀ v, v ≠ b → g v = g' v) :
    ((List.range n).map g).sum + g' b = ((List.range n).map g').sum + g b := by
  induction n with
  | zero => exact absurd hb (Nat.not_lt_zero b)
  | succ n ih =>
    rw [List.range_succ, List.map_append, List.map_append, List.sum_append,
      List.sum_append]
    simp only [List.map_cons, List.map_nil, List.sum_cons, List.sum_nil]
    by_cases hbn : b = n
    · subst hbn
      have hmaps : (List.range b).map g = (List.range b).map g' :=
        List.map_congr_left fun v hv =>
          hagree v (Nat.ne_of_lt (List.mem_range.1 hv))
      rw [hmaps]
      omega
    · have hih := ih (by omega)
      have hgn : g n = g' n := hagree n fun h => hbn h.symm
      omega

theorem degSum_black (graph : List (List ℕ)) (black : ℕ → Bool) (b : ℕ)
    (hb : b < graph.length) (hbf : black b = false) :
    degSum graph (updf black b true) + (1 + (graph.getD b []).length) =
      degSum graph black := by
  have h := sum_map_congr_except graph.length
    (fun v => if (updf black b true) v = false
      then 1 + (graph.getD v []).length else 0)
    (fun v => if black v = false then 1 + (graph.getD v []).length else 0)
    b hb (fun v hv => by dsimp only; rw [updf_other _ _ _ _ hv])
  have hgb : (if (updf black b true) b = false
      then 1 + (graph.getD b []).length else 0) = 0 := by
    rw [updf_same]; simp
  have hg2b : (if black b = false
      then 1 + (graph.getD b []).length else 0) =
      1 + (graph.getD b []).length := by
    rw [hbf]; simp
  dsimp only at h
  rw [hgb, hg2b] at h
  unfold degSum
  omega

theorem degSum_ge (graph : List (List ℕ)) (black : ℕ → Bool) (b : ℕ)
    (hb : graph.length ≤ b) :
    degSum graph (updf black b true) = degSum graph black := by
  unfold degSum
  apply congrArg List.sum
  apply List.map_congr_left
  intro v hv
  have hvb : v ≠ b := by
    have := List.mem_range.1 hv
    omega
  rw [updf_other _ _ _ _ hvb]

theorem degSum_false (graph : List (List ℕ)) :
    degSum graph (fun _ => false) =
      graph.length + (graph.map List.length).sum := by
  have h1 : ∀ (g : List (List ℕ)),
      ((List.range g.length).map fun v => 1 + (g.getD v []).length).sum =
        g.length + (g.map List.length).sum := by
    intro g
    induction g with
    | nil => simp
    | cons a t ih =>
      rw [show (a :: t).length = t.length + 1 from rfl, List.range_succ_eq_map]
      simp only [List.map_cons, List.sum_cons, List.map_map]
      have h2 : ((List.range t.length).map
          ((fun v => 1 + ((a :: t).getD v []).length) ∘ Nat.succ)) =
          (List.range t.length).map fun v => 1 + (t.getD v []).length := by
        apply List.map_congr_left
        intro v _
        simp [Function.comp, List.getD_cons_succ]
      rw [h2, ih]
      simp only [List.map_cons, List.sum_cons, List.getD_cons_zero]
      omega
  have h2 : degSum graph (fun _ => false) =
      ((List.range graph.length).map fun v =>
        1 + (graph.getD v []).length).sum := by
    unfold degSum
    apply congrArg List.sum
    apply List.map_congr_left
    intro v _
    simp
  rw [h2, h1]

theorem dijkstraPotential_lt (graph : List (List ℕ)) (source : ℕ) :
    dijkstraPotential graph (fun _ => false) [((0 : Dist), source)] <
      dijkstraFuel graph := by
  unfold dijkstraPotential dijkstraFuel
  rw [degSum_false]
  simp only [List.length_singleton]
  omega

theorem dijkstraLoop_succ (graph : List (List ℕ)) (weight : ℕ → ℕ → ℤ)
    (target : Option ℕ) (fuel : ℕ) (dist : ℕ → Dist) (prec : ℕ → Option ℕ)
    (black : ℕ → Bool) (heap : List (Dist × ℕ)) :
    dijkstraLoop graph weight target (fuel + 1) dist prec black heap =
      match heapMin heap with
      | none => (dist, prec)
      | some m =>
        if black m.2 then
          dijkstraLoop graph weight target fuel dist prec black (heap.erase m)
        else if target = some m.2 then (dist, prec)
        else
          dijkstraLoop graph weight target fuel
            (((graph.getD m.2 []).foldl (relaxStep weight m.2 m.1)
              (dist, prec, heap.erase m)).1)
            (((graph.getD m.2 []).foldl (relaxStep weight m.2 m.1)
              (dist, prec, heap.erase m)).2.1)
            (updf black m.2 true)
            (((graph.getD m.2 []).foldl (relaxStep weight m.2 m.1)
              (dist, prec, heap.erase m)).2.2) := rfl

theorem dijkstraLoop_emp (graph : List (List ℕ)) (weight : ℕ → ℕ → ℤ)
    (target : Option ℕ) (fuel : ℕ) (dist : ℕ → Dist) (prec : ℕ → Option ℕ)
    (black : ℕ → Bool) (heap : List (Dist × ℕ))
    (hm : heapMin heap = none) :
    dijkstraLoop graph weight target (fuel + 1) dist prec black heap =
      (dist, prec) := by
  rw [dijkstraLoop_succ, hm]

theorem dijkstraLoop_pop (graph : List (List ℕ)) (weight : ℕ → ℕ → ℤ)
    (target : Option ℕ) (fuel : ℕ) (dist : ℕ → Dist) (prec : ℕ → Option ℕ)
    (black : ℕ → Bool) (heap : List (Dist × ℕ)) (m : Dist × ℕ)
    (hm : heapMin heap = some m) :
    dijkstraLoop graph weight target (fuel + 1) dist prec black heap =
      (if black m.2 then
        dijkstraLoop graph weight target fuel dist prec black (heap.erase m)
      else if target = some m.2 then (dist, prec)
      else
        dijkstraLoop graph weight target fuel
          (((graph.getD m.2 []).foldl (relaxStep weight m.2 m.1)
            (dist, prec, heap.erase m)).1)
          (((graph.getD m.2 []).foldl (relaxStep weight m.2 m.1)
            (dist, prec, heap.erase m)).2.1)
          (updf black m.2 true)
          (((graph.getD m.2 []).foldl (relaxStep weight m.2 m.1)
            (dist, prec, heap.erase m)).2.2)) := by
  rw [dijkstraLoop_succ, hm]

theorem dijkstraLoop_correct (graph : List (List ℕ)) (weight : ℕ → ℕ → ℤ)
    (source : ℕ)
    (hw : ∀ u, ∀ v ∈ graph.getD u [], 0 ≤ weight u v) :
    ∀ (fuel : ℕ) (dist : ℕ → Dist) (prec : ℕ → Option ℕ) (black : ℕ → Bool)
      (heap : List (Dist × ℕ)),
      DijkInv graph weight source black black dist prec heap →
      dijkstraPotential graph black heap < fuel →
      DijkOut graph weight source
        (dijkstraLoop graph weight none fuel dist prec black heap) := by
  intro fuel
  induction fuel with
  | zero => intro dist prec black heap _ hpot; exact absurd hpot (by omega)
  | succ fuel ih =>
    intro dist prec black heap hI hpot
    rcases hm : heapMin heap with _ | m
    · -- empty heap: the loop returns (dist, prec)
      rw [dijkstraLoop_emp graph weight none fuel dist prec black heap hm]
      have hheap : heap = [] := heapMin_eq_none.1 hm
      refine ⟨?_, hI.realiz, hI.prec_none⟩
      intro v c hp
      induction hp with
      | base => exact hI.source_le
      | @step u c' v' hpu hedge ihu =>
        have hub : black u = true := by
          by_contra hc
          have hf : black u = false := by revert hc; cases black u <;> simp
          have hune : dist u ≠ ⊤ := ne_top_of_le_coe ihu
          have := hI.live u hf hune
          rw [hheap] at this
          exact absurd this (List.not_mem_nil _)
        have hrel := hI.brelax u hub v' hedge
        rw [WithTop.coe_add]
        exact le_trans hrel (add_le_add_right ihu _)
    · have hmem := heapMin_mem hm
      have hle := heapMin_le hm
      rw [dijkstraLoop_pop graph weight none fuel dist prec black heap m hm]
      cases hbm : black m.2 with
      | true =>
        rw [if_pos rfl]
        apply ih
        · exact
            { realiz := hI.realiz, prec_none := hI.prec_none
              source_le := hI.source_le, bmin := hI.bmin
              brelax := hI.brelax
              live := by
                intro v hv hne
                refine (List.mem_erase_of_ne ?_).2 (hI.live v hv hne)
                intro hcontra
                have hv2 : v = m.2 := congrArg Prod.snd hcontra
                rw [hv2] at hv
                rw [hv] at hbm
                exact absurd hbm (by simp)
              hge := fun p hp => hI.hge p (List.mem_of_mem_erase hp)
              hreal := fun p hp => hI.hreal p (List.mem_of_mem_erase hp) }
        · have hlen : (heap.erase m).length = heap.length - 1 :=
            List.length_erase_of_mem hmem
          have hpos : 0 < heap.length := List.length_pos_of_mem hmem
          unfold dijkstraPotential at hpot ⊢
          omega
      | false =>
        rw [if_neg (by simp : ¬false = true),
          if_neg (by simp : ¬(none : Option ℕ) = some m.2)]
        have hpop := popmin graph weight source hw hI hm hbm
        have hnr : ∃ c : ℤ, PathTo graph weight source m.2 c ∧
            m.1 = (c : Dist) := hI.hreal m hmem
        have hRB : ∀ v, black v = true → updf black m.2 true v = true := by
          intro v hv
          rw [updf_apply]
          split
          · rfl
          · exact hv
        have hentry : DijkInv graph weight source (updf black m.2 true) black
            dist prec (heap.erase m) :=
          { realiz := hI.realiz, prec_none := hI.prec_none
            source_le := hI.source_le
            bmin := by
              intro v hv c hp
              by_cases hvm : v = m.2
              · rw [hvm, ← hpop.1]
                exact hpop.2 c (hvm ▸ hp)
              · exact hI.bmin v (by rwa [updf_other _ _ _ _ hvm] at hv) c hp
            brelax := hI.brelax
            live := by
              intro v hv hne
              have hvm : v ≠ m.2 := by
                intro hcontra
                rw [hcontra, updf_same] at hv
                exact absurd hv (by simp)
              have hvb : black v = false := by
                rwa [updf_other _ _ _ _ hvm] at hv
              refine (List.mem_erase_of_ne ?_).2 (hI.live v hvb hne)
              intro hcontra
              exact hvm (congrArg Prod.snd hcontra)
            hge := fun p hp => hI.hge p (List.mem_of_mem_erase hp)
            hreal := fun p hp => hI.hreal p (List.mem_of_mem_erase hp) }
        have hfold := relaxFold_main graph weight source m.2 m.1
          (updf black m.2 true) black hRB hnr (graph.getD m.2 [])
          (fun w hw' => hw') dist prec (heap.erase m) hentry
        obtain ⟨hIf, hbound, hdec, hsame⟩ := hfold
        have hnode_same :
            ((graph.getD m.2 []).foldl (relaxStep weight m.2 m.1)
              (dist, prec, heap.erase m)).1 m.2 = dist m.2 :=
          hsame m.2 (by rw [updf_same])
        apply ih
        · exact
            { realiz := hIf.realiz, prec_none := hIf.prec_none
              source_le := hIf.source_le, bmin := hIf.bmin
              brelax := by
                intro v hv w' hw'
                by_cases hvm : v = m.2
                · subst hvm
                  have h1 := hbound w' hw'
                  rw [hnode_same, ← hpop.1]
                  exact h1
                · exact hIf.brelax v
                    (by rwa [updf_other _ _ _ _ hvm] at hv) w' hw'
              live := hIf.live, hge := hIf.hge, hreal := hIf.hreal }
        · have hlenf := relaxFold_heap_len weight m.2 m.1 (graph.getD m.2 [])
            (dist, prec, heap.erase m)
          dsimp only at hlenf
          have herase : (heap.erase m).length = heap.length - 1 :=
            List.length_erase_of_mem hmem
          have hpos : 0 < heap.length := List.length_pos_of_mem hmem
          by_cases hml : m.2 < graph.length
          · have hds := degSum_black graph black m.2 hml hbm
            unfold dijkstraPotential at hpot ⊢
            omega
          · have hget : (graph.getD m.2 []).length = 0 := by
              rw [List.getD_eq_default]
              · rfl
              · omega
            have hds := degSum_ge graph black m.2 (by omega)
            unfold dijkstraPotential at hpot ⊢
            omega

theorem dijkstraInit_inv (graph : List (List ℕ)) (weight : ℕ → ℕ → ℤ)
    (source : ℕ) :
    DijkInv graph weight source (fun _ => false) (fun _ => false)
      (updf (fun _ => (⊤ : Dist)) source 0) (fun _ => none)
      [((0 : Dist), source)] := by
  constructor
  · intro v hv
    by_cases hvs : v = source
    · refine ⟨0, hvs ▸ PathTo.base, ?_⟩
      rw [hvs, updf_same]
      rfl
    · rw [updf_other _ _ _ _ hvs] at hv
      exact absurd rfl hv
  · intro v _
    rfl
  · rw [updf_same]
  · intro v hv
    exact absurd hv (by simp)
  · intro v hv
    exact absurd hv (by simp)
  · intro v _ hv
    by_cases hvs : v = source
    · rw [hvs, updf_same]
      exact List.mem_singleton.2 rfl
    · rw [updf_other _ _ _ _ hvs] at hv
      exact absurd rfl hv
  · intro p hp
    rw [List.mem_singleton.1 hp, updf_same]
  · intro p hp
    rw [List.mem_singleton.1 hp]
    exact ⟨0, PathTo.base, rfl⟩

theorem dijkstra_correct (graph : List (List ℕ)) (weight : ℕ → ℕ → ℤ)
    (source : ℕ)
    (hw : ∀ u < graph.length, ∀ v ∈ graph.getD u [], 0 ≤ weight u v) :
    ∃ d p, dijkstra graph weight source none = some (d, p) ∧
      DijkOut graph weight source (d, p) := by
  have hassert : dijkstraAssert graph weight = true := by
    unfold dijkstraAssert
    simp only [List.all_eq_true, List.mem_range, decide_eq_true_eq]
    exact fun u hu v hv => hw u hu v hv
  have hw' : ∀ u, ∀ v ∈ graph.getD u [], 0 ≤ weight u v :=
    fun u v hv => hw u (row_nonempty_lt hv) v hv
  have hout := dijkstraLoop_correct graph weight source hw'
    (dijkstraFuel graph) (updf (fun _ => (⊤ : Dist)) source 0) (fun _ => none)
    (fun _ => false) [((0 : Dist), source)]
    (dijkstraInit_inv graph weight source)
    (dijkstraPotential_lt graph source)
  refine ⟨(dijkstraLoop graph weight none (dijkstraFuel graph)
      (updf (fun _ => (⊤ : Dist)) source 0) (fun _ => none) (fun _ => false)
      [((0 : Dist), source)]).1,
    (dijkstraLoop graph weight none (dijkstraFuel graph)
      (updf (fun _ => (⊤ : Dist)) source 0) (fun _ => none) (fun _ => false)
      [((0 : Dist), source)]).2, ?_, ?_⟩
  · unfold dijkstra
    rw [if_pos hassert]
  · exact hout

/-- C2: with non-negative edge weights and no target, `dijkstra` returns a
`dist` table assigning every reachable vertex the cost of a shortest directed
walk from the source and every unreachable vertex `⊤` with no predecessor;
on the triangle graph from the source `0` it returns `dist = [0, 1, 2]` and
`prec = [none, 0, 1]`. -/
theorem dijkstra_computes_shortest_paths (graph : List (List ℕ))
    (weight : ℕ → ℕ → ℤ) (source : ℕ)
    (hw : ∀ u < graph.length, ∀ v ∈ graph.getD u [], 0 ≤ weight u v) :
    (∃ d p, dijkstra graph weight source none = some (d, p) ∧
      (∀ v, (∃ c : ℤ, PathTo graph weight source v c) →
        ∃ c : ℤ, PathTo graph weight source v c ∧ d v = (c : Dist) ∧
          ∀ c' : ℤ, PathTo graph weight source v c' → c ≤ c') ∧
      (∀ v, (¬∃ c : ℤ, PathTo graph weight source v c) →
        d v = ⊤ ∧ p v = none)) ∧
    (dijkstra triGraph triWeight 0 none).map (fun r => (r.1 0, r.1 1, r.1 2)) =
      some (((0 : ℤ) : Dist), ((1 : ℤ) : Dist), ((2 : ℤ) : Dist)) ∧
    (dijkstra triGraph triWeight 0 none).map (fun r => (r.2 0, r.2 1, r.2 2)) =
      some (none, some 0, some 1) := by
  refine ⟨?_, by decide, by decide⟩
  obtain ⟨d, p, heq, hmin, hrealiz, hprec⟩ := dijkstra_correct graph weight source hw
  refine ⟨d, p, heq, ?_⟩
  constructor
  · intro v ⟨c0, hp0⟩
    have hne : d v ≠ ⊤ := ne_top_of_le_coe (hmin v c0 hp0)
    obtain ⟨c, hpc, hceq⟩ := hrealiz v hne
    refine ⟨c, hpc, hceq, ?_⟩
    intro c' hp'
    have := hmin v c' hp'
    rw [hceq] at this
    exact_mod_cast this
  · intro v hunreach
    have hvt : d v = ⊤ := by
      by_contra hne
      obtain ⟨c, hpc, _⟩ := hrealiz v hne
      exact hunreach ⟨c, hpc⟩
    exact ⟨hvt, hprec v hvt⟩

/-- Witness for C2: on the triangle instance the hypothesis on weights holds
and the returned tables are `dist = [0, 1, 2]`, `prec = [none, 0, 1]`. -/
theorem dijkstra_computes_shortest_paths_witness :
    (∀ u < triGraph.length, ∀ v ∈ triGraph.getD u [], 0 ≤ triWeight u v) ∧
    (dijkstra triGraph triWeight 0 none).map (fun r => (r.2 0, r.2 1, r.2 2)) =
      some (none, some 0, some 1) :=
  ⟨by decide,
    (dijkstra_computes_shortest_paths triGraph triWeight 0 (by decide)).2.2⟩

theorem append_singleton_eq {α : Type} (L : List α) (v : α) (l1 : List α)
    (x : α) (l2 : List α) (y : α) (l3 : List α)
    (h : L ++ [v] = l1 ++ x :: (l2 ++ y :: l3)) :
    (l3 = [] ∧ y = v ∧ L = l1 ++ x :: l2) ∨
    (∃ l3', l3 = l3' ++ [v] ∧ L = l1 ++ x :: (l2 ++ y :: l3')) := by
  rcases List.eq_nil_or_concat l3 with h3 | ⟨l3', a, h3⟩
  · subst h3
    have h' : L ++ [v] = (l1 ++ x :: l2) ++ [y] := by
      rw [h]; simp
    obtain ⟨hL, hv⟩ := List.append_inj' h' rfl
    exact Or.inl ⟨rfl, (List.singleton_inj.1 hv).symm, hL⟩
  · rw [List.concat_eq_append] at h3
    subst h3
    have h' : L ++ [v] = (l1 ++ x :: (l2 ++ y :: l3')) ++ [a] := by
      rw [h]; simp
    obtain ⟨hL, hv⟩ := List.append_inj' h' rfl
    have hav : a = v := (List.singleton_inj.1 hv).symm
    exact Or.inr ⟨l3', by rw [hav], hL⟩

theorem dist01Step_char (weight : ℕ → ℕ → ℤ) (node : ℕ) (B : ℕ → Bool)
    (st : (ℕ → Dist) × (ℕ → Option ℕ) × List ℕ) (w : ℕ) :
    ((B w = true ∨ st.1 w ≤ st.1 node + ((weight node w : ℤ) : Dist)) ∧
      dist01RelaxStep weight node B st w = st) ∨
    (B w = false ∧ st.1 node + ((weight node w : ℤ) : Dist) < st.1 w ∧
      dist01RelaxStep weight node B st w =
        (updf st.1 w (st.1 node + ((weight node w : ℤ) : Dist)),
         updf st.2.1 w (some node),
         if weight node w = 0 then w :: st.2.2 else st.2.2 ++ [w])) := by
  by_cases hc : (B w ||
      decide (st.1 w ≤ st.1 node + ((weight node w : ℤ) : Dist))) = true
  · refine Or.inl ⟨?_, by simp only [dist01RelaxStep, if_pos hc]⟩
    simpa using hc
  · refine Or.inr ⟨?_, ?_, by simp only [dist01RelaxStep, if_neg hc]⟩
    · simp only [Bool.or_eq_true, decide_eq_true_eq, not_or] at hc
      revert hc
      cases B w <;> simp
    · simp only [Bool.or_eq_true, decide_eq_true_eq, not_or] at hc
      exact lt_of_not_le hc.2

theorem dist01Step_main (graph : List (List ℕ)) (weight : ℕ → ℕ → ℤ)
    (source node : ℕ) (m : Dist) (B R : ℕ → Bool)
    (hRB : ∀ v, R v = true → B v = true)
    (hmr : ∃ c : ℤ, PathTo graph weight source node c ∧ m = (c : Dist))
    (dist : ℕ → Dist) (prec : ℕ → Option ℕ) (gray : List ℕ) (w : ℕ)
    (hwmem : w ∈ graph.getD node [])
    (hw01 : weight node w = 0 ∨ weight node w = 1)
    (hnode : dist node = m)
    (hI : Dist01Mid graph weight source m B R dist prec gray) :
    Dist01Mid graph weight source m B R
        (dist01RelaxStep weight node B (dist, prec, gray) w).1
        (dist01RelaxStep weight node B (dist, prec, gray) w).2.1
        (dist01RelaxStep weight node B (dist, prec, gray) w).2.2 ∧
      (dist01RelaxStep weight node B (dist, prec, gray) w).1 w ≤
        m + ((weight node w : ℤ) : Dist) ∧
      (∀ v, (dist01RelaxStep weight node B (dist, prec, gray) w).1 v ≤
        dist v) ∧
      (∀ v, B v = true →
        (dist01RelaxStep weight node B (dist, prec, gray) w).1 v = dist v) := by
  have hwnn : (0 : ℤ) ≤ weight node w := by rcases hw01 with h | h <;> omega
  have hwnn' : (0 : Dist) ≤ ((weight node w : ℤ) : Dist) := by
    exact_mod_cast hwnn
  have hwle1 : ((weight node w : ℤ) : Dist) ≤ ((1 : ℤ) : Dist) := by
    have : weight node w ≤ 1 := by rcases hw01 with h | h <;> omega
    exact_mod_cast this
  have hmell : m ≤ m + ((weight node w : ℤ) : Dist) :=
    le_add_of_nonneg_right hwnn'
  have hell1 : m + ((weight node w : ℤ) : Dist) ≤ m + ((1 : ℤ) : Dist) :=
    add_le_add_left hwle1 m
  rcases dist01Step_char weight node B (dist, prec, gray) w with
    ⟨hskip, heq⟩ | ⟨hBw, hlt, heq⟩
  · rw [heq]
    refine ⟨hI, ?_, fun v => le_refl _, fun v _ => rfl⟩
    dsimp only
    rcases hskip with hB | hle
    · exact le_trans (hI.f2 w hB) hmell
    · dsimp only at hle
      rw [hnode] at hle
      exact hle
  · rw [heq]
    dsimp only at hlt heq ⊢
    rw [hnode] at hlt ⊢
    set ell := m + ((weight node w : ℤ) : Dist) with hell
    obtain ⟨c0, hp0, hmc⟩ := hmr
    have hellc : ell = ((c0 + weight node w : ℤ) : Dist) := by
      rw [hell, hmc, WithTop.coe_add]
    have hpw : PathTo graph weight source w (c0 + weight node w) :=
      PathTo.step hp0 hwmem
    have hdec : ∀ v, updf dist w ell v ≤ dist v := by
      intro v
      by_cases hvw : v = w
      · rw [hvw, updf_same]
        exact le_of_lt hlt
      · rw [updf_other _ _ _ _ hvw]
    have hsame : ∀ v, B v = true → updf dist w ell v = dist v := by
      intro v hv
      by_cases hvw : v = w
      · rw [hvw] at hv
        rw [hv] at hBw
        exact absurd hBw (by simp)
      · rw [updf_other _ _ _ _ hvw]
    have hng : ∀ v, v ∈ (if weight node w = 0 then w :: gray
        else gray ++ [w]) ↔ (v = w ∨ v ∈ gray) := by
      intro v
      split
      · simp
      · simp [List.mem_append, or_comm]
    refine ⟨?_, by rw [updf_same], hdec, hsame⟩
    constructor
    · -- realiz
      intro v hv
      by_cases hvw : v = w
      · rw [hvw] at hv ⊢
        exact ⟨c0 + weight node w, hpw, by rw [updf_same, hellc]⟩
      · rw [updf_other _ _ _ _ hvw] at hv ⊢
        exact hI.realiz v hv
    · -- prec_none
      intro v hv
      by_cases hvw : v = w
      · rw [hvw, updf_same, hellc] at hv
        exact absurd hv WithTop.coe_ne_top
      · rw [updf_other _ _ _ _ hvw] at hv ⊢
        exact hI.prec_none v hv
    · -- source_le
      exact le_trans (hdec source) hI.source_le
    · -- srelax
      intro u hu v hv
      rw [hsame u (hRB u hu)]
      exact le_trans (hdec v) (hI.srelax u hu v hv)
    · -- cover
      intro v hv
      by_cases hvw : v = w
      · exact Or.inr ((hng v).2 (Or.inl hvw))
      · rw [updf_other _ _ _ _ hvw] at hv
        rcases hI.cover v hv with hb | hg
        · exact Or.inl hb
        · exact Or.inr ((hng v).2 (Or.inr hg))
    · -- gray_fin
      intro v hv
      by_cases hvw : v = w
      · rw [hvw, updf_same, hellc]
        exact WithTop.coe_ne_top
      · rw [updf_other _ _ _ _ hvw]
        rcases (hng v).1 hv with hvw' | hg
        · exact absurd hvw' hvw
        · exact hI.gray_fin v hg
    · -- f1
      intro v hv hvB
      by_cases hvw : v = w
      · rw [hvw, updf_same]
        exact ⟨hmell, hell1⟩
      · rcases (hng v).1 hv with hvw' | hg
        · exact absurd hvw' hvw
        · rw [updf_other _ _ _ _ hvw]
          exact hI.f1 v hg hvB
    · -- f2
      intro b hb
      rw [hsame b hb]
      exact hI.f2 b hb
    · -- qsplit
      rcases hw01 with hwz | hwo
      · -- 0-edge: cons at the pop end
        have hell0 : ell = m := by rw [hell, hwz]; simp
        rw [if_pos hwz]
        intro l1 x l2 y l3 h hyB
        cases l1 with
        | nil =>
          simp only [List.nil_append] at h
          injection h with hx hg
          left
          rw [← hx, updf_same, hell0]
          by_cases hyw : y = w
          · rw [hyw, updf_same]
          · rw [updf_other _ _ _ _ hyw]
            have hyg : y ∈ gray := by
              rw [hg]
              exact List.mem_append_right _ (List.mem_cons_self _ _)
            exact (hI.f1 y hyg hyB).1
        | cons a l1' =>
          simp only [List.cons_append] at h
          injection h with haw hg
          by_cases hyw : y = w
          · right
            rw [hyw, haw]
            exact List.mem_cons_self _ _
          · have hyg : y ∈ gray := by
              rw [hg]
              exact List.mem_append_right _ (List.mem_cons_of_mem _
                (List.mem_append_right _ (List.mem_cons_self _ _)))
            by_cases hxw : x = w
            · left
              rw [hxw, updf_same, hell0, updf_other _ _ _ _ hyw]
              exact (hI.f1 y hyg hyB).1
            · rcases hI.qsplit l1' x l2 y l3 hg hyB with hle | hmem
              · left
                rw [updf_other _ _ _ _ hxw, updf_other _ _ _ _ hyw]
                exact hle
              · right
                exact List.mem_cons_of_mem _ hmem
      · -- 1-edge: append at the far end; the target was not in the deque
        have helli : ell = m + ((1 : ℤ) : Dist) := by rw [hell, hwo]
        have hnotin : w ∉ gray := by
          intro hin
          have hub := (hI.f1 w hin hBw).2
          rw [← helli] at hub
          exact absurd hub (not_le_of_lt hlt)
        rw [if_neg (by rw [hwo]; norm_num)]
        intro l1 x l2 y l3 h hyB
        rcases append_singleton_eq gray w l1 x l2 y l3 h with
          ⟨_, hyv, hL⟩ | ⟨l3', _, hL⟩
        · have hxg : x ∈ gray := by
            rw [hL]
            exact List.mem_append_right _ (List.mem_cons_self _ _)
          have hxw : x ≠ w := fun hc => hnotin (hc ▸ hxg)
          left
          rw [hyv, updf_same, updf_other _ _ _ _ hxw]
          cases hBx : B x with
          | true => exact le_trans (hI.f2 x hBx) hmell
          | false =>
            have hub := (hI.f1 x hxg hBx).2
            rw [← helli] at hub
            exact hub
        · have hxg : x ∈ gray := by
            rw [hL]
            exact List.mem_append_right _ (List.mem_cons_self _ _)
          have hyg : y ∈ gray := by
            rw [hL]
            exact List.mem_append_right _ (List.mem_cons_of_mem _
              (List.mem_append_right _ (List.mem_cons_self _ _)))
          have hxw : x ≠ w := fun hc => hnotin (hc ▸ hxg)
          have hyw : y ≠ w := fun hc => hnotin (hc ▸ hyg)
          rcases hI.qsplit l1 x l2 y l3' hL hyB with hle | hmem
          · left
            rw [updf_other _ _ _ _ hxw, updf_other _ _ _ _ hyw]
            exact hle
          · right
            exact hmem

theorem dist01Step_gray_len (weight : ℕ → ℕ → ℤ) (node : ℕ) (B : ℕ → Bool)
    (st : (ℕ → Dist) × (ℕ → Option ℕ) × List ℕ) (w : ℕ) :
    (dist01RelaxStep weight node B st w).2.2.length ≤ st.2.2.length + 1 := by
  rcases dist01Step_char weight node B st w with ⟨_, heq⟩ | ⟨_, _, heq⟩ <;>
    rw [heq]
  · omega
  · dsimp only
    split <;> simp

theorem dist01Fold_gray_len (weight : ℕ → ℕ → ℤ) (node : ℕ) (B : ℕ → Bool) :
    ∀ (l : List ℕ) (st : (ℕ → Dist) × (ℕ → Option ℕ) × List ℕ),
      (l.foldl (dist01RelaxStep weight node B) st).2.2.length ≤
        st.2.2.length + l.length := by
  intro l
  induction l with
  | nil => intro st; simp
  | cons w l ih =>
    intro st
    rw [List.foldl_cons]
    have h1 := ih (dist01RelaxStep weight node B st w)
    have h2 := dist01Step_gray_len weight node B st w
    simp only [List.length_cons]
    omega

theorem dist01Fold_noop (weight : ℕ → ℕ → ℤ) (node : ℕ) (B : ℕ → Bool) :
    ∀ (l : List ℕ) (dist : ℕ → Dist) (prec : ℕ → Option ℕ) (gray : List ℕ),
      (∀ w ∈ l, B w = true ∨
        dist w ≤ dist node + ((weight node w : ℤ) : Dist)) →
      l.foldl (dist01RelaxStep weight node B) (dist, prec, gray) =
        (dist, prec, gray) := by
  intro l
  induction l with
  | nil => intro dist prec gray _; rfl
  | cons w l ih =>
    intro dist prec gray hcond
    rw [List.foldl_cons]
    have hstep : dist01RelaxStep weight node B (dist, prec, gray) w =
        (dist, prec, gray) := by
      rcases dist01Step_char weight node B (dist, prec, gray) w with
        ⟨_, heq⟩ | ⟨hBw, hlt, _⟩
      · exact heq
      · dsimp only at hlt
        rcases hcond w (List.mem_cons_self _ _) with hB | hle
        · rw [hB] at hBw
          exact absurd hBw (by simp)
        · exact absurd hle (not_le_of_lt hlt)
    rw [hstep]
    exact ih dist prec gray fun w' hw' =>
      hcond w' (List.mem_cons_of_mem _ hw')

theorem dist01Fold_main (graph : List (List ℕ)) (weight : ℕ → ℕ → ℤ)
    (source node : ℕ) (m : Dist) (B R : ℕ → Bool)
    (hRB : ∀ v, R v = true → B v = true)
    (hBnode : B node = true)
    (hmr : ∃ c : ℤ, PathTo graph weight source node c ∧ m = (c : Dist)) :
    ∀ (l : List ℕ), (∀ w ∈ l, w ∈ graph.getD node []) →
    (∀ w ∈ l, weight node w = 0 ∨ weight node w = 1) →
    ∀ (dist : ℕ → Dist) (prec : ℕ → Option ℕ) (gray : List ℕ),
      dist node = m →
      Dist01Mid graph weight source m B R dist prec gray →
      Dist01Mid graph weight source m B R
          (l.foldl (dist01RelaxStep weight node B) (dist, prec, gray)).1
          (l.foldl (dist01RelaxStep weight node B) (dist, prec, gray)).2.1
          (l.foldl (dist01RelaxStep weight node B) (dist, prec, gray)).2.2 ∧
        (∀ w ∈ l,
          (l.foldl (dist01RelaxStep weight node B) (dist, prec, gray)).1 w ≤
            m + ((weight node w : ℤ) : Dist)) ∧
        (∀ v,
          (l.foldl (dist01RelaxStep weight node B) (dist, prec, gray)).1 v ≤
            dist v) ∧
        (∀ v, B v = true →
          (l.foldl (dist01RelaxStep weight node B) (dist, prec, gray)).1 v =
            dist v) := by
  intro l
  induction l with
  | nil =>
    intro _ _ dist prec gray _ hI
    exact ⟨hI, by simp, fun v => le_refl _, fun v _ => rfl⟩
  | cons w l ih =>
    intro hmem h01 dist prec gray hnode hI
    have hstep := dist01Step_main graph weight source node m B R hRB hmr
      dist prec gray w (hmem w (List.mem_cons_self _ _))
      (h01 w (List.mem_cons_self _ _)) hnode hI
    rcases hσ : dist01RelaxStep weight node B (dist, prec, gray) w with
      ⟨d1, p1, g1⟩
    rw [hσ] at hstep
    dsimp only at hstep
    rw [List.foldl_cons, hσ]
    obtain ⟨hI1, hb1, hd1, hs1⟩ := hstep
    have hnode1 : d1 node = m := by
      rw [hs1 node hBnode]
      exact hnode
    have hmain := ih (fun w' hw' => hmem w' (List.mem_cons_of_mem _ hw'))
      (fun w' hw' => h01 w' (List.mem_cons_of_mem _ hw')) d1 p1 g1 hnode1 hI1
    obtain ⟨hIf, hbf, hdf, hsf⟩ := hmain
    refine ⟨hIf, ?_, ?_, ?_⟩
    · intro w' hw'
      rcases List.mem_cons.1 hw' with rfl | hw'
      · exact le_trans (hdf w') hb1
      · exact hbf w' hw'
    · intro v
      exact le_trans (hdf v) (hd1 v)
    · intro v hv
      rw [hsf v hv]
      exact hs1 v hv

theorem dist01Loop_nil (graph : List (List ℕ)) (weight : ℕ → ℕ → ℤ)
    (target : Option ℕ) (fuel : ℕ) (dist : ℕ → Dist) (prec : ℕ → Option ℕ)
    (black : ℕ → Bool) :
    dist01Loop graph weight target (fuel + 1) dist prec black [] =
      (dist, prec) := rfl

theorem dist01Loop_cons (graph : List (List ℕ)) (weight : ℕ → ℕ → ℤ)
    (target : Option ℕ) (fuel : ℕ) (dist : ℕ → Dist) (prec : ℕ → Option ℕ)
    (black : ℕ → Bool) (node : ℕ) (gray : List ℕ) :
    dist01Loop graph weight target (fuel + 1) dist prec black
        (node :: gray) =
      (if target = some node then (dist, prec)
      else
        dist01Loop graph weight target fuel
          (((graph.getD node []).foldl
            (dist01RelaxStep weight node (updf black node true))
            (dist, prec, gray)).1)
          (((graph.getD node []).foldl
            (dist01RelaxStep weight node (updf black node true))
            (dist, prec, gray)).2.1)
          (updf black node true)
          (((graph.getD node []).foldl
            (dist01RelaxStep weight node (updf black node true))
            (dist, prec, gray)).2.2)) := rfl

theorem dist01Loop_correct (graph : List (List ℕ)) (weight : ℕ → ℕ → ℤ)
    (source : ℕ)
    (hw01 : ∀ u, ∀ v ∈ graph.getD u [], weight u v = 0 ∨ weight u v = 1) :
    ∀ (fuel : ℕ) (dist : ℕ → Dist) (prec : ℕ → Option ℕ) (black : ℕ → Bool)
      (gray : List ℕ),
      Dist01Inv graph weight source dist prec black gray →
      gray.length + degSum graph black < fuel →
      DijkOut graph weight source
        (dist01Loop graph weight none fuel dist prec black gray) := by
  intro fuel
  induction fuel with
  | zero => intro dist prec black gray _ hpot; exact absurd hpot (by omega)
  | succ fuel ih =>
    intro dist prec black gray hI hpot
    cases gray with
    | nil =>
      rw [dist01Loop_nil]
      refine ⟨?_, hI.realiz, hI.prec_none⟩
      intro v c hp
      induction hp with
      | base => exact hI.source_le
      | @step u c' v' hpu hedge ihu =>
        have hub : black u = true := by
          have hune : dist u ≠ ⊤ := ne_top_of_le_coe ihu
          rcases hI.cover u hune with hb | hg
          · exact hb
          · exact absurd hg (List.not_mem_nil _)
        have hrel := hI.srelax u hub v' hedge
        rw [WithTop.coe_add]
        exact le_trans hrel (add_le_add_right ihu _)
    | cons node gray =>
      rw [dist01Loop_cons,
        if_neg (by simp : ¬(none : Option ℕ) = some node)]
      cases hbn : black node with
      | true =>
        have hfun : updf black node true = black := by
          funext v
          by_cases hv : v = node
          · rw [hv, updf_same, hbn]
          · rw [updf_other _ _ _ _ hv]
        rw [hfun]
        have hnoop := dist01Fold_noop weight node black (graph.getD node [])
          dist prec gray (fun w hw => Or.inr (hI.srelax node hbn w hw))
        rw [hnoop]
        dsimp only
        apply ih
        · exact
            { realiz := hI.realiz, prec_none := hI.prec_none
              source_le := hI.source_le, srelax := hI.srelax
              cover := by
                intro v hv
                rcases hI.cover v hv with hb | hg
                · exact Or.inl hb
                · rcases List.mem_cons.1 hg with rfl | hg'
                  · exact Or.inl hbn
                  · exact Or.inr hg'
              gray_fin := fun v hv =>
                hI.gray_fin v (List.mem_cons_of_mem _ hv)
              black_le := fun b hb v hv hvb =>
                hI.black_le b hb v (List.mem_cons_of_mem _ hv) hvb
              span := fun u hu v hv hub hvb =>
                hI.span u (List.mem_cons_of_mem _ hu) v
                  (List.mem_cons_of_mem _ hv) hub hvb
              qsplit := by
                intro l1 x l2 y l3 h hyB
                rcases hI.qsplit (node :: l1) x l2 y l3 (by rw [h]; rfl) hyB
                  with hle | hmem
                · exact Or.inl hle
                · rcases List.mem_cons.1 hmem with rfl | hmem'
                  · rw [hbn] at hyB
                    exact absurd hyB (by simp)
                  · exact Or.inr hmem' }
        · simp only [List.length_cons] at hpot
          omega
      | false =>
        have hfin : dist node ≠ ⊤ :=
          hI.gray_fin node (List.mem_cons_self _ _)
        have hmr : ∃ c : ℤ, PathTo graph weight source node c ∧
            dist node = (c : Dist) := hI.realiz node hfin
        have hRB : ∀ v, black v = true → updf black node true v = true := by
          intro v hv
          by_cases hvn : v = node
          · rw [hvn, updf_same]
          · rw [updf_other _ _ _ _ hvn]
            exact hv
        have hmid : Dist01Mid graph weight source (dist node)
            (updf black node true) black dist prec gray :=
          { realiz := hI.realiz, prec_none := hI.prec_none
            source_le := hI.source_le, srelax := hI.srelax
            cover := by
              intro v hv
              rcases hI.cover v hv with hb | hg
              · exact Or.inl (hRB v hb)
              · rcases List.mem_cons.1 hg with rfl | hg'
                · exact Or.inl (by rw [updf_same])
                · exact Or.inr hg'
            gray_fin := fun v hv =>
              hI.gray_fin v (List.mem_cons_of_mem _ hv)
            f1 := by
              intro v hv hvB
              have hvn : v ≠ node := by
                intro hc
                rw [hc, updf_same] at hvB
                exact absurd hvB (by simp)
              have hvb : black v = false := by
                rwa [updf_other _ _ _ _ hvn] at hvB
              obtain ⟨l2, l3, hdecomp⟩ := List.append_of_mem hv
              constructor
              · rcases hI.qsplit [] node l2 v l3
                  (by rw [hdecomp]; rfl) hvb with hle | hmem
                · exact hle
                · exact absurd hmem (List.not_mem_nil _)
              · exact hI.span v (List.mem_cons_of_mem _ hv) node
                  (List.mem_cons_self _ _) hvb hbn
            f2 := by
              intro b hb
              by_cases hbn' : b = node
              · rw [hbn']
              · rw [updf_other _ _ _ _ hbn'] at hb
                exact hI.black_le b hb node (List.mem_cons_self _ _) hbn
            qsplit := by
              intro l1 x l2 y l3 h hyB
              have hyn : y ≠ node := by
                intro hc
                rw [hc, updf_same] at hyB
                exact absurd hyB (by simp)
              have hyb : black y = false := by
                rwa [updf_other _ _ _ _ hyn] at hyB
              rcases hI.qsplit (node :: l1) x l2 y l3 (by rw [h]; rfl) hyb
                with hle | hmem
              · exact Or.inl hle
              · rcases List.mem_cons.1 hmem with rfl | hmem'
                · exact absurd rfl hyn
                · exact Or.inr hmem' }
        have hfold := dist01Fold_main graph weight source node (dist node)
          (updf black node true) black hRB (by rw [updf_same]) hmr
          (graph.getD node []) (fun w hw => hw) (fun w hw => hw01 node w hw)
          dist prec gray rfl hmid
        obtain ⟨hIf, hbound, hdec, hsame⟩ := hfold
        have hnode_same :
            ((graph.getD node []).foldl
              (dist01RelaxStep weight node (updf black node true))
              (dist, prec, gray)).1 node = dist node :=
          hsame node (by rw [updf_same])
        apply ih
        · exact
            { realiz := hIf.realiz, prec_none := hIf.prec_none
              source_le := hIf.source_le
              srelax := by
                intro u hu v hv
                by_cases hun : u = node
                · rw [hun, hnode_same]
                  exact hbound v (hun ▸ hv)
                · rw [updf_other _ _ _ _ hun] at hu
                  exact hIf.srelax u hu v hv
              cover := hIf.cover, gray_fin := hIf.gray_fin
              black_le := by
                intro b hb v hv hvb
                exact le_trans (hIf.f2 b hb) (hIf.f1 v hv hvb).1
              span := by
                intro u hu v hv hub hvb
                exact le_trans (hIf.f1 u hu hub).2
                  (add_le_add_right (hIf.f1 v hv hvb).1 _)
              qsplit := hIf.qsplit }
        · have hlenf := dist01Fold_gray_len weight node
            (updf black node true) (graph.getD node []) (dist, prec, gray)
          dsimp only at hlenf
          simp only [List.length_cons] at hpot
          by_cases hml : node < graph.length
          · have hds := degSum_black graph black node hml hbn
            omega
          · have hget : (graph.getD node []).length = 0 := by
              rw [List.getD_eq_default]
              · rfl
              · omega
            have hds := degSum_ge graph black node (by omega)
            omega

theorem dist01Init_inv (graph : List (List ℕ)) (weight : ℕ → ℕ → ℤ)
    (source : ℕ) :
    Dist01Inv graph weight source (updf (fun _ => (⊤ : Dist)) source 0)
      (fun _ => none) (fun _ => false) [source] := by
  constructor
  · intro v hv
    by_cases hvs : v = source
    · refine ⟨0, hvs ▸ PathTo.base, ?_⟩
      rw [hvs, updf_same]
      rfl
    · rw [updf_other _ _ _ _ hvs] at hv
      exact absurd rfl hv
  · intro v _
    rfl
  · rw [updf_same]
  · intro u hu
    exact absurd hu (by simp)
  · intro v hv
    by_cases hvs : v = source
    · exact Or.inr (by rw [hvs]; exact List.mem_singleton.2 rfl)
    · rw [updf_other _ _ _ _ hvs] at hv
      exact absurd rfl hv
  · intro v hv
    rw [List.mem_singleton.1 hv, updf_same]
    exact WithTop.coe_ne_top
  · intro b hb
    exact absurd hb (by simp)
  · intro u hu v hv _ _
    rw [List.mem_singleton.1 hu, List.mem_singleton.1 hv]
    exact le_add_of_nonneg_right (by exact_mod_cast (zero_le_one : (0:ℤ) ≤ 1))
  · intro l1 x l2 y l3 h _
    have hlen := congrArg List.length h
    simp only [List.length_append, List.length_cons, List.length_nil]
      at hlen
    omega

theorem dist01_correct (graph : List (List ℕ)) (weight : ℕ → ℕ → ℤ)
    (source : ℕ)
    (hw01 : ∀ u, ∀ v ∈ graph.getD u [], weight u v = 0 ∨ weight u v = 1) :
    DijkOut graph weight source (dist01 graph weight source none) := by
  unfold dist01
  apply dist01Loop_correct graph weight source hw01
  · exact dist01Init_inv graph weight source
  · unfold dijkstraFuel
    rw [degSum_false]
    simp only [List.length_singleton]
    omega

theorem spdist_unique (graph : List (List ℕ)) (weight : ℕ → ℕ → ℤ)
    (source : ℕ) {d1 d2 : ℕ → Dist}
    (hmin1 : ∀ (v : ℕ) (c : ℤ), PathTo graph weight source v c →
      d1 v ≤ (c : Dist))
    (hr1 : ∀ v, d1 v ≠ ⊤ →
      ∃ c : ℤ, PathTo graph weight source v c ∧ d1 v = (c : Dist))
    (hmin2 : ∀ (v : ℕ) (c : ℤ), PathTo graph weight source v c →
      d2 v ≤ (c : Dist))
    (hr2 : ∀ v, d2 v ≠ ⊤ →
      ∃ c : ℤ, PathTo graph weight source v c ∧ d2 v = (c : Dist)) :
    ∀ v, d1 v = d2 v := by
  intro v
  by_cases h1 : d1 v = ⊤ <;> by_cases h2 : d2 v = ⊤
  · rw [h1, h2]
  · obtain ⟨c, hp, _⟩ := hr2 v h2
    have hle := hmin1 v c hp
    rw [h1] at hle
    exact absurd hle (by simp)
  · obtain ⟨c, hp, _⟩ := hr1 v h1
    have hle := hmin2 v c hp
    rw [h2] at hle
    exact absurd hle (by simp)
  · obtain ⟨c1, hp1, he1⟩ := hr1 v h1
    obtain ⟨c2, hp2, he2⟩ := hr2 v h2
    have a1 := hmin1 v c2 hp2
    have a2 := hmin2 v c1 hp1
    rw [he1] at a1 ⊢
    rw [he2] at a2 ⊢
    exact le_antisymm a1 a2

/-- C7: on a graph whose listed edge weights all lie in `{0, 1}`, the 0-1
breadth-first search `dist01` and `dijkstra` (both run without a target)
return pointwise identical distance tables. -/
theorem dist01_matches_dijkstra (graph : List (List ℕ))
    (weight : ℕ → ℕ → ℤ) (source : ℕ)
    (hw01 : ∀ u < graph.length, ∀ v ∈ graph.getD u [],
      weight u v = 0 ∨ weight u v = 1) :
    ∃ d p, dijkstra graph weight source none = some (d, p) ∧
      ∀ v, (dist01 graph weight source none).1 v = d v := by
  have hw01' : ∀ u, ∀ v ∈ graph.getD u [], weight u v = 0 ∨ weight u v = 1 :=
    fun u v hv => hw01 u (row_nonempty_lt hv) v hv
  have hwnn : ∀ u < graph.length, ∀ v ∈ graph.getD u [], 0 ≤ weight u v :=
    fun u hu v hv => by rcases hw01 u hu v hv with h | h <;> omega
  obtain ⟨d, p, heq, hmin, hreal, _⟩ :=
    dijkstra_correct graph weight source hwnn
  obtain ⟨hmin', hreal', _⟩ := dist01_correct graph weight source hw01'
  exact ⟨d, p, heq,
    spdist_unique graph weight source hmin' hreal' hmin hreal⟩

/-- Witness for C7: on the two-edge path with weights 0 and 1 the hypothesis
holds and the distance tables agree. -/
theorem dist01_matches_dijkstra_witness :
    (∀ u < g01Example.length, ∀ v ∈ g01Example.getD u [],
      w01Example u v = 0 ∨ w01Example u v = 1) ∧
    ∃ d p, dijkstra g01Example w01Example 0 none = some (d, p) ∧
      ∀ v, (dist01 g01Example w01Example 0 none).1 v = d v :=
  ⟨by decide, dist01_matches_dijkstra g01Example w01Example 0 (by decide)⟩

theorem heapMin_eq_of_min {l : List (Dist × ℕ)} {x : Dist × ℕ}
    (hx : x ∈ l) (hmin : ∀ b ∈ l, pairLe x b) : heapMin l = some x := by
  rcases hm : heapMin l with _ | y
  · rw [heapMin_eq_none.1 hm] at hx
    exact absurd hx (List.not_mem_nil _)
  · rw [pairLe_antisymm (heapMin_le hm x hx) (hmin y (heapMin_mem hm))]

theorem duhLoop_succ (graph : List (List ℕ)) (weight : ℕ → ℕ → ℤ)
    (target : Option ℕ) (fuel : ℕ) (dist : ℕ → Dist) (prec : ℕ → Option ℕ)
    (heap : List (Dist × ℕ)) :
    duhLoop graph weight target (fuel + 1) dist prec heap =
      match heapMin heap with
      | none => (dist, prec)
      | some m =>
        if target = some m.2 then (dist, prec)
        else
          duhLoop graph weight target fuel
            (((graph.getD m.2 []).foldl (duhRelax weight m.2 m.1)
              (dist, prec, heap.erase m)).1)
            (((graph.getD m.2 []).foldl (duhRelax weight m.2 m.1)
              (dist, prec, heap.erase m)).2.1)
            (((graph.getD m.2 []).foldl (duhRelax weight m.2 m.1)
              (dist, prec, heap.erase m)).2.2) := rfl

theorem duhLoop_emp (graph : List (List ℕ)) (weight : ℕ → ℕ → ℤ)
    (target : Option ℕ) (fuel : ℕ) (dist : ℕ → Dist) (prec : ℕ → Option ℕ)
    (heap : List (Dist × ℕ)) (hm : heapMin heap = none) :
    duhLoop graph weight target (fuel + 1) dist prec heap = (dist, prec) := by
  rw [duhLoop_succ, hm]

theorem duhLoop_pop (graph : List (List ℕ)) (weight : ℕ → ℕ → ℤ)
    (target : Option ℕ) (fuel : ℕ) (dist : ℕ → Dist) (prec : ℕ → Option ℕ)
    (heap : List (Dist × ℕ)) (m : Dist × ℕ) (hm : heapMin heap = some m) :
    duhLoop graph weight target (fuel + 1) dist prec heap =
      (if target = some m.2 then (dist, prec)
      else
        duhLoop graph weight target fuel
          (((graph.getD m.2 []).foldl (duhRelax weight m.2 m.1)
            (dist, prec, heap.erase m)).1)
          (((graph.getD m.2 []).foldl (duhRelax weight m.2 m.1)
            (dist, prec, heap.erase m)).2.1)
          (((graph.getD m.2 []).foldl (duhRelax weight m.2 m.1)
            (dist, prec, heap.erase m)).2.2)) := by
  rw [duhLoop_succ, hm]

theorem duhRelax_char (weight : ℕ → ℕ → ℤ) (node : ℕ) (dn : Dist)
    (st : (ℕ → Dist) × (ℕ → Option ℕ) × List (Dist × ℕ)) (w : ℕ) :
    (¬dn + ((weight node w : ℤ) : Dist) < st.1 w ∧
      duhRelax weight node dn st w = st) ∨
    (dn + ((weight node w : ℤ) : Dist) < st.1 w ∧
      duhRelax weight node dn st w =
        (updf st.1 w (dn + ((weight node w : ℤ) : Dist)),
         updf st.2.1 w (some node),
         (st.2.2.erase (st.1 w, w)) ++
           [(dn + ((weight node w : ℤ) : Dist), w)])) := by
  by_cases h : dn + ((weight node w : ℤ) : Dist) < st.1 w
  · exact Or.inr ⟨h, by simp only [duhRelax, if_pos h]⟩
  · exact Or.inl ⟨h, by simp only [duhRelax, if_neg h]⟩

theorem duhFold_agree (weight : ℕ → ℕ → ℤ) (node : ℕ) (dn : Dist) :
    ∀ (l : List ℕ) (dist : ℕ → Dist) (prec : ℕ → Option ℕ)
      (hL hU : List (Dist × ℕ)),
      ((l.foldl (relaxStep weight node dn) (dist, prec, hL)).1 =
        (l.foldl (duhRelax weight node dn) (dist, prec, hU)).1) ∧
      ((l.foldl (relaxStep weight node dn) (dist, prec, hL)).2.1 =
        (l.foldl (duhRelax weight node dn) (dist, prec, hU)).2.1) := by
  intro l
  induction l with
  | nil => intro dist prec hL hU; exact ⟨rfl, rfl⟩
  | cons w l ih =>
    intro dist prec hL hU
    rw [List.foldl_cons, List.foldl_cons]
    rcases relaxStep_char weight node dn (dist, prec, hL) w with
      ⟨hc, heqL⟩ | ⟨hc, heqL⟩ <;>
      rcases duhRelax_char weight node dn (dist, prec, hU) w with
        ⟨hc', heqU⟩ | ⟨hc', heqU⟩
    · rw [heqL, heqU]; exact ih dist prec hL hU
    · exact absurd hc' hc
    · exact absurd hc hc'
    · rw [heqL, heqU]
      exact ih _ _ _ _
  

theorem relaxFold_untouched (weight : ℕ → ℕ → ℤ) (node : ℕ) (dn : Dist) :
    ∀ (l : List ℕ) (st : (ℕ → Dist) × (ℕ → Option ℕ) × List (Dist × ℕ))
      (v : ℕ), v ∉ l →
      (l.foldl (relaxStep weight node dn) st).1 v = st.1 v := by
  intro l
  induction l with
  | nil => intro st v _; rfl
  | cons w l ih =>
    intro st v hv
    have hvw : v ≠ w := fun hc => hv (hc ▸ List.mem_cons_self _ _)
    have hvl : v ∉ l := fun hc => hv (List.mem_cons_of_mem _ hc)
    rw [List.foldl_cons]
    rw [ih (relaxStep weight node dn st w) v hvl]
    rcases relaxStep_char weight node dn st w with ⟨_, heq⟩ | ⟨_, heq⟩ <;>
      rw [heq]
    dsimp only
    rw [updf_other _ _ _ _ hvw]

theorem duhFold_noop_top (weight : ℕ → ℕ → ℤ) (node : ℕ) :
    ∀ (l : List ℕ) (dist : ℕ → Dist) (prec : ℕ → Option ℕ)
      (hU : List (Dist × ℕ)),
      l.foldl (duhRelax weight node (⊤ : Dist)) (dist, prec, hU) =
        (dist, prec, hU) := by
  intro l
  induction l with
  | nil => intro dist prec hU; rfl
  | cons w l ih =>
    intro dist prec hU
    rw [List.foldl_cons]
    have hstep : duhRelax weight node (⊤ : Dist) (dist, prec, hU) w =
        (dist, prec, hU) := by
      rcases duhRelax_char weight node ⊤ (dist, prec, hU) w with
        ⟨_, heq⟩ | ⟨hlt, _⟩
      · exact heq
      · rw [top_add] at hlt
        exact absurd hlt not_top_lt
    rw [hstep]
    exact ih dist prec hU

theorem duhLoop_top (graph : List (List ℕ)) (weight : ℕ → ℕ → ℤ)
    (target : Option ℕ) :
    ∀ (fuelU : ℕ) (dist : ℕ → Dist) (prec : ℕ → Option ℕ)
      (heapU : List (Dist × ℕ)),
      (∀ p ∈ heapU, p.1 = (⊤ : Dist)) →
      heapU.length < fuelU →
      duhLoop graph weight target fuelU dist prec heapU = (dist, prec) := by
  intro fuelU
  induction fuelU with
  | zero => intro dist prec heapU _ h; exact absurd h (by omega)
  | succ fuelU ih =>
    intro dist prec heapU htop hlen
    rcases hm : heapMin heapU with _ | m
    · exact duhLoop_emp graph weight target fuelU dist prec heapU hm
    · rw [duhLoop_pop graph weight target fuelU dist prec heapU m hm]
      split
      · rfl
      · have hm1 : m.1 = (⊤ : Dist) := htop m (heapMin_mem hm)
        rw [hm1, duhFold_noop_top]
        dsimp only
        apply ih
        · exact fun p hp => htop p (List.mem_of_mem_erase hp)
        · have := List.length_erase_of_mem (heapMin_mem hm)
          have := List.length_pos_of_mem (heapMin_mem hm)
          omega

theorem erase_snd_ne {heapU : List (Dist × ℕ)} {m : Dist × ℕ}
    (hpair : heapU.Pairwise (fun p q => p.2 ≠ q.2)) (hm : m ∈ heapU) :
    ∀ p ∈ heapU.erase m, p.2 ≠ m.2 := by
  obtain ⟨l1, l2, _, hsplit, herase⟩ := List.exists_erase_eq hm
  rw [herase]
  rw [hsplit] at hpair
  obtain ⟨h1, h2, hcross⟩ := List.pairwise_append.1 hpair
  intro p hp
  rcases List.mem_append.1 hp with hp | hp
  · exact hcross p hp m (List.mem_cons_self _ _)
  · exact fun hc => (List.pairwise_cons.1 h2).1 p hp hc.symm

theorem duhFold_W (graph : List (List ℕ)) (weight : ℕ → ℕ → ℤ) (node : ℕ)
    (dn : Dist) (U' black' : ℕ → Bool)
    (hR3 : ∀ v, v < graph.length → black' v = false → U' v = true) :
    ∀ (l : List ℕ), (∀ w ∈ l, w < graph.length) →
    ∀ (dist : ℕ → Dist) (prec : ℕ → Option ℕ) (hU : List (Dist × ℕ)),
      (∀ w ∈ l, black' w = true →
        dist w ≤ dn + ((weight node w : ℤ) : Dist)) →
      (∀ p ∈ hU, p.1 = dist p.2 ∧ p.2 < graph.length ∧ U' p.2 = true) →
      (∀ v, v < graph.length → U' v = true → (dist v, v) ∈ hU) →
      hU.Pairwise (fun p q => p.2 ≠ q.2) →
      (∀ p ∈ (l.foldl (duhRelax weight node dn) (dist, prec, hU)).2.2,
        p.1 = (l.foldl (duhRelax weight node dn) (dist, prec, hU)).1 p.2 ∧
        p.2 < graph.length ∧ U' p.2 = true) ∧
      (∀ v, v < graph.length → U' v = true →
        ((l.foldl (duhRelax weight node dn) (dist, prec, hU)).1 v, v) ∈
          (l.foldl (duhRelax weight node dn) (dist, prec, hU)).2.2) ∧
      (l.foldl (duhRelax weight node dn)
        (dist, prec, hU)).2.2.Pairwise (fun p q => p.2 ≠ q.2) ∧
      (l.foldl (duhRelax weight node dn) (dist, prec, hU)).2.2.length =
        hU.length ∧
      (∀ v, black' v = true →
        (l.foldl (duhRelax weight node dn) (dist, prec, hU)).1 v = dist v) := by
  intro l
  induction l with
  | nil =>
    intro _ dist prec hU _ hW1 hW2 hW3
    exact ⟨hW1, hW2, hW3, rfl, fun v _ => rfl⟩
  | cons w l ih =>
    intro hWl dist prec hU hsafe hW1 hW2 hW3
    rw [List.foldl_cons]
    rcases duhRelax_char weight node dn (dist, prec, hU) w with
      ⟨_, heq⟩ | ⟨hlt, heq⟩
    · rw [heq]
      exact ih (fun w' hw' => hWl w' (List.mem_cons_of_mem _ hw'))
        dist prec hU
        (fun w' hw' => hsafe w' (List.mem_cons_of_mem _ hw'))
        hW1 hW2 hW3
    · rw [heq]
      dsimp only at hlt heq ⊢
      have hwn : w < graph.length := hWl w (List.mem_cons_self _ _)
      have hbw : black' w = false := by
        cases hb : black' w with
        | false => rfl
        | true =>
          exact absurd (hsafe w (List.mem_cons_self _ _) hb)
            (not_le_of_lt hlt)
      have hUw : U' w = true := hR3 w hwn hbw
      have hwin : (dist w, w) ∈ hU := hW2 w hwn hUw
      have hne : ∀ p ∈ hU.erase (dist w, w), p.2 ≠ w :=
        erase_snd_ne hW3 hwin
      set new := dn + ((weight node w : ℤ) : Dist) with hnew
      have hsafe' : ∀ w' ∈ l, black' w' = true →
          updf dist w new w' ≤ dn + ((weight node w' : ℤ) : Dist) := by
        intro w' hw' hb'
        have hww' : w' ≠ w := by
          intro hc
          rw [hc, hbw] at hb'
          exact absurd hb' (by simp)
        rw [updf_other _ _ _ _ hww']
        exact hsafe w' (List.mem_cons_of_mem _ hw') hb'
      have hW1' : ∀ p ∈ hU.erase (dist w, w) ++ [(new, w)],
          p.1 = updf dist w new p.2 ∧ p.2 < graph.length ∧ U' p.2 = true := by
        intro p hp
        rcases List.mem_append.1 hp with hp | hp
        · have hpin := List.mem_of_mem_erase hp
          obtain ⟨h1, h2, h3⟩ := hW1 p hpin
          exact ⟨by rw [updf_other _ _ _ _ (hne p hp), h1], h2, h3⟩
        · rw [List.mem_singleton.1 hp]
          exact ⟨by rw [updf_same], hwn, hUw⟩
      have hW2' : ∀ v, v < graph.length → U' v = true →
          (updf dist w new v, v) ∈ hU.erase (dist w, w) ++ [(new, w)] := by
        intro v hvn hUv
        by_cases hvw : v = w
        · rw [hvw, updf_same]
          exact List.mem_append_right _ (List.mem_singleton.2 rfl)
        · rw [updf_other _ _ _ _ hvw]
          refine List.mem_append_left _ ((List.mem_erase_of_ne ?_).2
            (hW2 v hvn hUv))
          intro hc
          exact hvw (congrArg Prod.snd hc)
      have hW3' : (hU.erase (dist w, w) ++
          [(new, w)]).Pairwise (fun p q => p.2 ≠ q.2) := by
        refine List.pairwise_append.2
          ⟨hW3.sublist (List.erase_sublist _ _),
            List.pairwise_singleton _ _, ?_⟩
        intro p hp q hq
        rw [List.mem_singleton.1 hq]
        exact hne p hp
      have hmain := ih (fun w' hw' => hWl w' (List.mem_cons_of_mem _ hw'))
        (updf dist w new) (updf prec w (some node))
        (hU.erase (dist w, w) ++ [(new, w)]) hsafe' hW1' hW2' hW3'
      obtain ⟨m1, m2, m3, m4, m5⟩ := hmain
      refine ⟨m1, m2, m3, ?_, ?_⟩
      · rw [m4]
        have hlen1 := List.length_erase_of_mem hwin
        have hlen2 := List.length_pos_of_mem hwin
        simp only [List.length_append, List.length_singleton]
        omega
      · intro v hv
        rw [m5 v hv]
        have hvw : v ≠ w := by
          intro hc
          rw [hc, hbw] at hv
          exact absurd hv (by simp)
        rw [updf_other _ _ _ _ hvw]

theorem duh_sim (graph : List (List ℕ)) (weight : ℕ → ℕ → ℤ) (source : ℕ)
    (target : Option ℕ)
    (hw : ∀ u, ∀ v ∈ graph.getD u [], 0 ≤ weight u v)
    (hWF : ∀ u, ∀ v ∈ graph.getD u [], v < graph.length) :
    ∀ (fuelL : ℕ) (dist : ℕ → Dist) (prec : ℕ → Option ℕ)
      (black U : ℕ → Bool) (heapL heapU : List (Dist × ℕ)) (fuelU : ℕ),
      DijkInv graph weight source black black dist prec heapL →
      (∀ v, dist v ≠ ⊤ → v < graph.length) →
      (∀ v, black v = true → dist v ≠ ⊤) →
      (∀ v, v < graph.length → (U v = false ↔ black v = true)) →
      (∀ p ∈ heapU, p.1 = dist p.2 ∧ p.2 < graph.length ∧ U p.2 = true) →
      (∀ v, v < graph.length → U v = true → (dist v, v) ∈ heapU) →
      heapU.Pairwise (fun p q => p.2 ≠ q.2) →
      dijkstraPotential graph black heapL < fuelL →
      heapU.length < fuelU →
      dijkstraLoop graph weight target fuelL dist prec black heapL =
        duhLoop graph weight target fuelU dist prec heapU := by
  intro fuelL
  induction fuelL with
  | zero =>
    intro dist prec black U heapL heapU fuelU _ _ _ _ _ _ _ hpot _
    exact absurd hpot (by omega)
  | succ fuelL ih =>
    intro dist prec black U heapL heapU fuelU hI hR4 hR5 hR3 hW1 hW2 hW3
      hpot hlenU
    rcases hm : heapMin heapL with _ | m
    · -- the lazy heap is exhausted: every remaining update entry is ⊤
      rw [dijkstraLoop_emp graph weight target fuelL dist prec black heapL hm]
      have hheap : heapL = [] := heapMin_eq_none.1 hm
      have htop : ∀ p ∈ heapU, p.1 = (⊤ : Dist) := by
        intro p hp
        obtain ⟨h1, h2, h3⟩ := hW1 p hp
        have hb : black p.2 = false := by
          cases hb : black p.2 with
          | false => rfl
          | true =>
            rw [(hR3 p.2 h2).2 hb] at h3
            exact absurd h3 (by simp)
        by_contra hne
        rw [h1] at hne
        have := hI.live p.2 hb hne
        rw [hheap] at this
        exact absurd this (List.not_mem_nil _)
      exact (duhLoop_top graph weight target fuelU dist prec heapU htop
        hlenU).symm
    · have hmem := heapMin_mem hm
      rw [dijkstraLoop_pop graph weight target fuelL dist prec black heapL
        m hm]
      cases hbm : black m.2 with
      | true =>
        rw [if_pos rfl]
        apply ih
        · exact
            { realiz := hI.realiz, prec_none := hI.prec_none
              source_le := hI.source_le, bmin := hI.bmin
              brelax := hI.brelax
              live := by
                intro v hv hne
                refine (List.mem_erase_of_ne ?_).2 (hI.live v hv hne)
                intro hcontra
                have hv2 : v = m.2 := congrArg Prod.snd hcontra
                rw [hv2] at hv
                rw [hv] at hbm
                exact absurd hbm (by simp)
              hge := fun p hp => hI.hge p (List.mem_of_mem_erase hp)
              hreal := fun p hp => hI.hreal p (List.mem_of_mem_erase hp) }
        · exact hR4
        · exact hR5
        · exact hR3
        · exact hW1
        · exact hW2
        · exact hW3
        · have hlen : (heapL.erase m).length = heapL.length - 1 :=
            List.length_erase_of_mem hmem
          have hpos : 0 < heapL.length := List.length_pos_of_mem hmem
          unfold dijkstraPotential at hpot ⊢
          omega
        · exact hlenU
      | false =>
        have hpop := popmin graph weight source hw hI hm hbm
        obtain ⟨c0, hp0, hm1c⟩ := hI.hreal m hmem
        have hmc : dist m.2 = (c0 : Dist) := by rw [← hpop.1, hm1c]
        have hfm : dist m.2 ≠ ⊤ := by rw [hmc]; exact WithTop.coe_ne_top
        have hm2n : m.2 < graph.length := hR4 m.2 hfm
        have hUm : U m.2 = true := by
          cases hU : U m.2 with
          | true => rfl
          | false =>
            rw [(hR3 m.2 hm2n).1 hU] at hbm
            exact absurd hbm (by simp)
        have hment : (dist m.2, m.2) ∈ heapU := hW2 m.2 hm2n hUm
        have hmeq : m = (dist m.2, m.2) := Prod.ext hpop.1 rfl
        have hminU : ∀ q ∈ heapU, pairLe (dist m.2, m.2) q := by
          intro q hq
          obtain ⟨hq1, hq2, hq3⟩ := hW1 q hq
          by_cases hqv : q.2 = m.2
          · have : q = (dist m.2, m.2) := Prod.ext (by rw [hq1, hqv]) hqv
            rw [this]
            exact pairLe_refl _
          · by_cases hqt : dist q.2 = ⊤
            · left
              rw [hq1, hqt]
              exact lt_top_iff_ne_top.2 hfm
            · have hqb : black q.2 = false := by
                cases hb : black q.2 with
                | false => rfl
                | true =>
                  rw [(hR3 q.2 hq2).2 hb] at hq3
                  exact absurd hq3 (by simp)
              have hqin := hI.live q.2 hqb hqt
              have := heapMin_le hm _ hqin
              rw [hmeq] at this
              have hq' : q = (dist q.2, q.2) := Prod.ext hq1 rfl
              rw [hq']
              exact this
        have hUeq : heapMin heapU = some (dist m.2, m.2) :=
          heapMin_eq_of_min hment hminU
        obtain ⟨fuelU', rfl⟩ : ∃ k, fuelU = k + 1 :=
          ⟨fuelU - 1, by omega⟩
        rw [duhLoop_pop graph weight target fuelU' dist prec heapU _ hUeq]
        dsimp only
        rw [if_neg (by simp : ¬false = true)]
        by_cases ht : target = some m.2
        · rw [if_pos ht, if_pos ht]
        · rw [if_neg ht, if_neg ht]
          rw [hpop.1]
          -- the two relaxation folds agree on dist and prec
          have hag := duhFold_agree weight m.2 (dist m.2)
            (graph.getD m.2 []) dist prec (heapL.erase m)
            (heapU.erase (dist m.2, m.2))
          -- lazy-side invariant machinery, as in the proof of C2
          have hnr : ∃ c : ℤ, PathTo graph weight source m.2 c ∧
              dist m.2 = (c : Dist) := ⟨c0, hp0, hmc⟩
          have hRB : ∀ v, black v = true → updf black m.2 true v = true := by
            intro v hv
            rw [updf_apply]
            split
            · rfl
            · exact hv
          have hentry : DijkInv graph weight source (updf black m.2 true)
              black dist prec (heapL.erase m) :=
            { realiz := hI.realiz, prec_none := hI.prec_none
              source_le := hI.source_le
              bmin := by
                intro v hv c hp
                by_cases hvm : v = m.2
                · rw [hvm, ← hpop.1]
                  exact hpop.2 c (hvm ▸ hp)
                · exact hI.bmin v (by rwa [updf_other _ _ _ _ hvm] at hv) c hp
              brelax := hI.brelax
              live := by
                intro v hv hne
                have hvm : v ≠ m.2 := by
                  intro hcontra
                  rw [hcontra, updf_same] at hv
                  exact absurd hv (by simp)
                have hvb : black v = false := by
                  rwa [updf_other _ _ _ _ hvm] at hv
                refine (List.mem_erase_of_ne ?_).2 (hI.live v hvb hne)
                intro hcontra
                exact hvm (congrArg Prod.snd hcontra)
              hge := fun p hp => hI.hge p (List.mem_of_mem_erase hp)
              hreal := fun p hp => hI.hreal p (List.mem_of_mem_erase hp) }
        
          have hfold := relaxFold_main graph weight source m.2 (dist m.2)
            (updf black m.2 true) black hRB hnr (graph.getD m.2 [])
            (fun w hw' => hw') dist prec (heapL.erase m) hentry
          obtain ⟨hIf, hbound, hdec, hsame⟩ := hfold
          have hnode_same :
              ((graph.getD m.2 []).foldl (relaxStep weight m.2 (dist m.2))
                (dist, prec, heapL.erase m)).1 m.2 = dist m.2 :=
            hsame m.2 (by rw [updf_same])
          -- update-side heap invariant machinery
          have hR3' : ∀ v, v < graph.length →
              updf black m.2 true v = false → updf U m.2 false v = true := by
            intro v hvn hbv
            have hvm : v ≠ m.2 := by
              intro hc
              rw [hc, updf_same] at hbv
              exact absurd hbv (by simp)
            rw [updf_other _ _ _ _ hvm] at hbv
            rw [updf_other _ _ _ _ hvm]
            cases hU : U v with
            | true => rfl
            | false =>
              rw [(hR3 v hvn).1 hU] at hbv
              exact absurd hbv (by simp)
          have hne2 : ∀ p ∈ heapU.erase (dist m.2, m.2), p.2 ≠ m.2 :=
            erase_snd_ne hW3 hment
          have hsafe : ∀ w ∈ graph.getD m.2 [],
              updf black m.2 true w = true →
              dist w ≤ dist m.2 + ((weight m.2 w : ℤ) : Dist) := by
            intro w hwm hb
            by_cases hwm2 : w = m.2
            · rw [hwm2]
              exact le_add_of_nonneg_right
                (by exact_mod_cast hw m.2 m.2 (hwm2 ▸ hwm))
            · rw [updf_other _ _ _ _ hwm2] at hb
              have hbm2 := hI.bmin w hb (c0 + weight m.2 w)
                (PathTo.step hp0 hwm)
              rw [WithTop.coe_add, ← hmc] at hbm2
              exact hbm2
          have hWfold := duhFold_W graph weight m.2 (dist m.2)
            (updf U m.2 false) (updf black m.2 true) hR3'
            (graph.getD m.2 []) (fun w hw' => hWF m.2 w hw')
            dist prec (heapU.erase (dist m.2, m.2)) hsafe
            (by
              intro p hp
              obtain ⟨h1, h2, h3⟩ := hW1 p (List.mem_of_mem_erase hp)
              exact ⟨h1, h2, by rw [updf_other _ _ _ _ (hne2 p hp)]; exact h3⟩)
            (by
              intro v hvn hUv
              have hvm : v ≠ m.2 := by
                intro hc
                rw [hc, updf_same] at hUv
                exact absurd hUv (by simp)
              rw [updf_other _ _ _ _ hvm] at hUv
              refine (List.mem_erase_of_ne ?_).2 (hW2 v hvn hUv)
              intro hc
              exact hvm (congrArg Prod.snd hc))
            (hW3.sublist (List.erase_sublist _ _))
          obtain ⟨hWf1, hWf2, hWf3, hWf4, hWf5⟩ := hWfold
          rw [← hag.1, ← hag.2]
          refine ih _ _ _ (updf U m.2 false) _ _ _ ?_ ?_ ?_ ?_ ?_ ?_ ?_ ?_ ?_
          · exact
              { realiz := hIf.realiz, prec_none := hIf.prec_none
                source_le := hIf.source_le, bmin := hIf.bmin
                brelax := by
                  intro v hv w' hw'
                  by_cases hvm : v = m.2
                  · subst hvm
                    have h1 := hbound w' hw'
                    rw [hnode_same]
                    exact h1
                  · exact hIf.brelax v
                      (by rwa [updf_other _ _ _ _ hvm] at hv) w' hw'
                live := hIf.live, hge := hIf.hge, hreal := hIf.hreal }
          · -- R4 preserved
            intro v hv
            by_cases hvl : v ∈ graph.getD m.2 []
            · exact hWF m.2 v hvl
            · rw [relaxFold_untouched weight m.2 (dist m.2)
                (graph.getD m.2 []) (dist, prec, heapL.erase m) v hvl] at hv
              exact hR4 v hv
          · -- R5 preserved
            intro v hv
            by_cases hvm : v = m.2
            · rw [hvm, hnode_same]
              exact hfm
            · rw [updf_other _ _ _ _ hvm] at hv
              rw [hsame v (hRB v hv)]
              exact hR5 v hv
          · -- R3 preserved
            intro v hvn
            by_cases hvm : v = m.2
            · rw [hvm, updf_same, updf_same]
              exact iff_of_true rfl rfl
            · rw [updf_other _ _ _ _ hvm, updf_other _ _ _ _ hvm]
              exact hR3 v hvn
          · -- W1 preserved (transported along the dist agreement)
            intro p hp
            rw [hag.1]
            exact hWf1 p hp
          · -- W2 preserved
            intro v hvn hUv
            rw [hag.1]
            exact hWf2 v hvn hUv
          · -- W3 preserved
            exact hWf3
          · -- lazy potential decreases
            have hlenf := relaxFold_heap_len weight m.2 (dist m.2)
              (graph.getD m.2 []) (dist, prec, heapL.erase m)
            dsimp only at hlenf
            have herase : (heapL.erase m).length = heapL.length - 1 :=
              List.length_erase_of_mem hmem
            have hpos : 0 < heapL.length := List.length_pos_of_mem hmem
            by_cases hml : m.2 < graph.length
            · have hds := degSum_black graph black m.2 hml hbm
              unfold dijkstraPotential at hpot ⊢
              omega
            · exact absurd hm2n hml
          · -- update heap shrinks by exactly one entry
            rw [hWf4]
            have herase2 : (heapU.erase (dist m.2, m.2)).length =
                heapU.length - 1 := List.length_erase_of_mem hment
            have hpos2 : 0 < heapU.length := List.length_pos_of_mem hment
            omega

/-- C1: with non-negative weights, on a well-formed graph (listed neighbors
and the source within range, as any runnable Python input), `dijkstra` and
`dijkstra_update_heap` return identical dist tables and identical prec
tables, for every target. -/
theorem dijkstra_update_heap_matches_dijkstra (graph : List (List ℕ))
    (weight : ℕ → ℕ → ℤ) (source : ℕ) (target : Option ℕ)
    (hWF : ∀ u < graph.length, ∀ v ∈ graph.getD u [], v < graph.length)
    (hsrc : source < graph.length)
    (hw : ∀ u < graph.length, ∀ v ∈ graph.getD u [], 0 ≤ weight u v) :
    ∃ d p d' p',
      dijkstra graph weight source target = some (d, p) ∧
      dijkstra_update_heap graph weight source target = some (d', p') ∧
      (∀ v, d v = d' v) ∧ (∀ v, p v = p' v) := by
  have hw' : ∀ u, ∀ v ∈ graph.getD u [], 0 ≤ weight u v :=
    fun u v hv => hw u (row_nonempty_lt hv) v hv
  have hWF' : ∀ u, ∀ v ∈ graph.getD u [], v < graph.length :=
    fun u v hv => hWF u (row_nonempty_lt hv) v hv
  have hassert : dijkstraAssert graph weight = true := by
    unfold dijkstraAssert
    simp only [List.all_eq_true, List.mem_range, decide_eq_true_eq]
    exact fun u hu v hv => hw u hu v hv
  have hsim := duh_sim graph weight source target hw' hWF'
    (dijkstraFuel graph) (updf (fun _ => (⊤ : Dist)) source 0)
    (fun _ => none) (fun _ => false) (fun _ => true)
    [((0 : Dist), source)]
    ((List.range graph.length).map fun v =>
      (updf (fun _ => (⊤ : Dist)) source 0 v, v))
    (graph.length + 1)
    (dijkstraInit_inv graph weight source)
    (by
      intro v hv
      by_cases hvs : v = source
      · rw [hvs]; exact hsrc
      · rw [updf_other _ _ _ _ hvs] at hv
        exact absurd rfl hv)
    (fun v hv => absurd hv (by simp))
    (fun v _ => by simp)
    (by
      intro p hp
      obtain ⟨v, hv, rfl⟩ := List.mem_map.1 hp
      exact ⟨rfl, List.mem_range.1 hv, rfl⟩)
    (fun v hvn _ => List.mem_map.2 ⟨v, List.mem_range.2 hvn, rfl⟩)
    (List.pairwise_map.2 ((List.pairwise_lt_range graph.length).imp
      fun h => Nat.ne_of_lt h))
    (dijkstraPotential_lt graph source)
    (by simp)
  refine ⟨(dijkstraLoop graph weight target (dijkstraFuel graph)
      (updf (fun _ => (⊤ : Dist)) source 0) (fun _ => none) (fun _ => false)
      [((0 : Dist), source)]).1,
    (dijkstraLoop graph weight target (dijkstraFuel graph)
      (updf (fun _ => (⊤ : Dist)) source 0) (fun _ => none) (fun _ => false)
      [((0 : Dist), source)]).2,
    (duhLoop graph weight target (graph.length + 1)
      (updf (fun _ => (⊤ : Dist)) source 0) (fun _ => none)
      ((List.range graph.length).map fun v =>
        (updf (fun _ => (⊤ : Dist)) source 0 v, v))).1,
    (duhLoop graph weight target (graph.length + 1)
      (updf (fun _ => (⊤ : Dist)) source 0) (fun _ => none)
      ((List.range graph.length).map fun v =>
        (updf (fun _ => (⊤ : Dist)) source 0 v, v))).2, ?_, ?_, ?_, ?_⟩
  · unfold dijkstra
    rw [if_pos hassert]
  · unfold dijkstra_update_heap
    rw [if_pos hassert]
  · intro v
    exact congrArg (fun r => r.1 v) hsim
  · intro v
    exact congrArg (fun r => r.2 v) hsim

/-- Witness for C1: on the triangle instance both variants run and agree. -/
theorem dijkstra_update_heap_matches_dijkstra_witness :
    ∃ d p d' p',
      dijkstra triGraph triWeight 0 none = some (d, p) ∧
      dijkstra_update_heap triGraph triWeight 0 none = some (d', p') ∧
      (∀ v, d v = d' v) ∧ (∀ v, p v = p' v) :=
  dijkstra_update_heap_matches_dijkstra triGraph triWeight 0 none
    (by decide) (by decide) (by decide)

end TryAlgo
